import Mathlib

/-!
# Hyperion: the directory walker, its filters, renderers, size formatting and charts

A shallow embedding of `main.go`, `renderer.go` and `charts.go`.

* Go strings are modelled by `String` (valid UTF-8 text).  On such text the byte-wise
  operations the program uses (`==`, `strings.HasSuffix`, the backwards scan of
  `filepath.Ext` for the ASCII bytes `.` and `/`) coincide with the same operations on
  the list of characters, which is how they are defined here.
* What the Go runtime supplies and the sources do not fix (the Unicode case table, the
  host's path separators, `filepath.Join`) is collected in `GoEnv`.
* Standard output is a list of written chunks, each with the colour attributes it was
  printed with (none for `fmt.Print`).
* The filesystem below the walked path is a finite tree of `Entry` values: what
  `os.ReadDir` and `DirEntry.Info` answer there.
* The byte counts of `Stats` (`TotalSize` and the values of `FileTypes`) are int64: every
  `+=` on them wraps around modulo `2 ^ 64` (`add64`).  The host is a 64-bit one:
  `TotalDirs` and `TotalFiles`, of the Go type `int`, grow by one per rendered entry and
  would wrap only after `2 ^ 63` rendered entries, which no run reaches; they are kept as
  integers.
* What the Go specification leaves open in the chart code (the order in which a map is
  visited, the order `sort.Slice` gives to equal sizes, the integer a NaN converts to, the
  largest string the host can build) is collected in `ChartEnv`.  The float64 arithmetic
  of the charts is computed exactly: every operation rounds to the nearest float, ties to
  the even significand.  A run-time panic is the result `none` (or an error carrying what
  was printed before it).
-/

namespace Hyperion

/-! ## Runtime services -/

/-- Services of the Go runtime and host that the program calls: `unicode.ToLower` on one
rune, `os.IsPathSeparator`, and `filepath.Join` of a directory path with an entry name.
The three laws are facts of every Go host: ASCII letters are lowered the ASCII way, `/`
separates path elements, and nothing but `/` and the backslash does. -/
structure GoEnv where
  toLowerRune : Char → Char
  IsPathSeparator : Char → Bool
  Join : String → String → String
  toLowerRune_ascii : ∀ c : Char, c.val < 128 → toLowerRune c = c.toLower
  slash_sep : IsPathSeparator '/' = true
  sep_cases : ∀ c : Char, IsPathSeparator c = true → c = '/' ∨ c = '\\'

/-- A Unix host whose case table is the ASCII one. -/
def GoEnv.unix : GoEnv where
  toLowerRune := Char.toLower
  IsPathSeparator := fun c => c == '/'
  Join := fun dir name => dir ++ "/" ++ name
  toLowerRune_ascii := fun _ _ => rfl
  slash_sep := by decide
  sep_cases := fun c h => Or.inl (by simpa using h)

/-- Go `strings.ToLower`: every rune mapped through `unicode.ToLower`. -/
def ToLower (E : GoEnv) (s : String) : String :=
  ⟨s.data.map E.toLowerRune⟩

/-- Go `strings.HasSuffix`. -/
def HasSuffix (s suffix : String) : Bool :=
  suffix.data.isSuffixOf s.data

/-- The loop of `filepath.Ext`, scanning the path from its last character: `rev` is what
is still to scan (reversed), `acc` the characters already passed. -/
def extScan (E : GoEnv) : List Char → List Char → List Char
  | [], _ => []
  | c :: rev, acc =>
    if E.IsPathSeparator c then []
    else if c = '.' then c :: acc
    else extScan E rev (c :: acc)

/-- Go `filepath.Ext`: the suffix beginning at the final dot in the final element of the
path, empty if there is no dot. -/
def Ext (E : GoEnv) (path : String) : String :=
  ⟨extScan E path.data.reverse []⟩

/-! ## Data model (`main.go`) -/

/-- Configuration structure holding all command line flags. -/
structure Config where
  Path : String
  ExcludeFolders : List String
  ShowFiles : Bool
  ExcludeFiles : List String
  ExcludeNames : List String
  MaxDepth : Int
  Unicode : Bool
  Color : Bool
  BgColor : Bool
  Compact : Bool
  ShowStats : Bool
  StatTable : Bool
  StatsCount : Int
  Chart : Bool

/-- FileInfo tracks one file for the largest-files table. -/
structure FileInfo where
  Path : String
  Size : Int
  Type' : String
deriving DecidableEq, Repr

/-- Statistics of a walk.  `FileTypes` is the Go map from extension to bytes, kept as an
association list with one pair per key.  `TotalSize` and the values of `FileTypes` are
int64 values; the program changes them with `+=` only, which is `add64`. -/
structure Stats where
  TotalDirs : Int
  TotalFiles : Int
  TotalSize : Int
  FileTypes : List (String × Int)
  LargeFiles : List FileInfo
deriving DecidableEq, Repr

/-- TreeChars defines the characters used to draw the tree. -/
structure TreeChars where
  Line : String
  Branch : String
  LastItem : String
  MiddleItem : String
  Indent : String
deriving DecidableEq, Repr

/-- The Stats value `main` and the tests start from: zero counters, an empty map and an
empty list. -/
def Stats.empty : Stats :=
  ⟨0, 0, 0, [], []⟩

/-- The int64 value an integer stands for after Go's wrap-around: the number congruent to
`x` modulo `2 ^ 64` that lies in `[-2 ^ 63, 2 ^ 63)`. -/
def wrap64 (x : Int) : Int :=
  (x + 9223372036854775808) % 18446744073709551616 - 9223372036854775808

/-- Go `a + b` on int64 values: the sum wraps around on overflow. -/
def add64 (a b : Int) : Int :=
  wrap64 (a + b)

/-- Map read `m[key]`, the zero value when the key is absent. -/
def mapGet : List (String × Int) → String → Int
  | [], _ => 0
  | (k, v) :: m, key => if k = key then v else mapGet m key

/-- Map update `m[key] += delta` on int64 values: the key is created when absent (from the
zero value). -/
def mapAdd : List (String × Int) → String → Int → List (String × Int)
  | [], key, delta => [(key, add64 0 delta)]
  | (k, v) :: m, key, delta =>
    if k = key then (k, add64 v delta) :: m else (k, v) :: mapAdd m key delta

/-- Sum of the values of a map. -/
def mapSum (m : List (String × Int)) : Int :=
  (m.map Prod.snd).sum

/-- Get tree characters based on Unicode flag and compact mode. -/
def getTreeChars (useUnicode : Bool) (compact : Bool) : TreeChars :=
  if useUnicode then
    if compact then
      { Line := "│", Branch := "├", LastItem := "└", MiddleItem := "├", Indent := " " }
    else
      { Line := "│   ", Branch := "├── ", LastItem := "└── ", MiddleItem := "├── ",
        Indent := "    " }
  else if compact then
    { Line := "|", Branch := "|", LastItem := "`", MiddleItem := "+", Indent := " " }
  else
    { Line := "|   ", Branch := "|-- ", LastItem := "`-- ", MiddleItem := "+-- ",
      Indent := "    " }

/-! ## Filter (`main.go` and `renderer.go`) -/

/-- Check if a folder should be excluded (`main.go`). -/
def shouldExcludeFolder (name : String) : List String → Bool
  | [] => false
  | excludeFolder :: rest =>
    if name = excludeFolder then true else shouldExcludeFolder name rest

/-- Check if a folder should be excluded (`renderer.go`). -/
def ShouldExcludeFolder (name : String) : List String → Bool
  | [] => false
  | excludeFolder :: rest =>
    if name = excludeFolder then true else ShouldExcludeFolder name rest

/-- First loop of `shouldExcludeFile`: exclusion by exact name. -/
def excludedByName (name : String) : List String → Bool
  | [] => false
  | excludeName :: rest =>
    if name = excludeName then true else excludedByName name rest

/-- Second loop of `shouldExcludeFile`: exclusion by extension. -/
def excludedByExt (E : GoEnv) (name : String) : List String → Bool
  | [] => false
  | excludeExt :: rest =>
    if HasSuffix (ToLower E name) (ToLower E excludeExt) then true
    else excludedByExt E name rest

/-- Check if a file should be excluded by extension or name (`main.go`). -/
def shouldExcludeFile (E : GoEnv) (name : String) (excludeFiles excludeNames : List String) :
    Bool :=
  if excludedByName name excludeNames then true
  else if excludedByExt E name excludeFiles then true
  else false

/-- Check if a file should be excluded by extension or name (`renderer.go`). -/
def ShouldExcludeFile (E : GoEnv) (name : String) (excludeFiles excludeNames : List String) :
    Bool :=
  if excludedByName name excludeNames then true
  else if excludedByExt E name excludeFiles then true
  else false

/-- Get file extension in lowercase, with dot (`main.go`). -/
def getFileExtension (E : GoEnv) (path : String) : String :=
  ToLower E (Ext E path)

/-- GetFileExtension gets the file extension in lowercase, with dot (`renderer.go`). -/
def GetFileExtension (E : GoEnv) (path : String) : String :=
  ToLower E (Ext E path)

/-! ## Standard output and rendering -/

/-- The colour attributes of `github.com/fatih/color` that the program uses. -/
inductive Attribute where
  | FgBlue | FgGreen | FgMagenta | FgHiWhite | BgBlue | BgGreen | BgMagenta | Bold
deriving DecidableEq, Repr

/-- One write to standard output: the text and the attributes it is styled with
(`fmt.Print` writes with none). -/
structure Chunk where
  attrs : List Attribute
  text : String
deriving DecidableEq, Repr

/-- Effect of `fmt.Print(s)` and of `fmt.Printf` with its arguments already formatted. -/
def Print (s : String) (out : List Chunk) : List Chunk :=
  out ++ [⟨[], s⟩]

/-- Effect of `color.New(attrs...).Printf` with its arguments already formatted. -/
def colorPrint (attrs : List Attribute) (s : String) (out : List Chunk) : List Chunk :=
  out ++ [⟨attrs, s⟩]

/-- The characters a sequence of writes puts on the terminal, styling aside. -/
def plainText (out : List Chunk) : String :=
  out.foldl (fun acc c => acc ++ c.text) ""

/-- Render directory with appropriate styling (`main.go`): the output after the call and
the pair `(newPrefix, newLastPrefix)`. -/
def renderDir (name : String) (isLast : Bool) (pre : String) (config : Config)
    (treeChars : TreeChars) (out : List Chunk) : List Chunk × String × String :=
  let (out, newPrefix, newLastPrefix) :=
    if isLast then
      (Print treeChars.LastItem (Print pre out), pre ++ treeChars.Indent,
        pre ++ treeChars.Indent)
    else
      (Print treeChars.MiddleItem (Print pre out), pre ++ treeChars.Line,
        pre ++ treeChars.Indent)
  let out :=
    if config.Color then
      if config.BgColor then colorPrint [.FgHiWhite, .BgBlue] (name ++ "\n") out
      else colorPrint [.FgBlue, .Bold] (name ++ "\n") out
    else Print (name ++ "\n") out
  (out, newPrefix, newLastPrefix)

/-- Render file with appropriate styling (`main.go`). -/
def renderFile (name : String) (isLast : Bool) (pre : String) (isSymlink : Bool)
    (config : Config) (treeChars : TreeChars) (out : List Chunk) : List Chunk :=
  let out :=
    if isLast then Print treeChars.LastItem (Print pre out)
    else Print treeChars.MiddleItem (Print pre out)
  if config.Color then
    if isSymlink then
      if config.BgColor then colorPrint [.FgHiWhite, .BgMagenta] (name ++ "\n") out
      else colorPrint [.FgMagenta] (name ++ "\n") out
    else
      if config.BgColor then colorPrint [.FgHiWhite, .BgGreen] (name ++ "\n") out
      else colorPrint [.FgGreen] (name ++ "\n") out
  else Print (name ++ "\n") out

/-- ColorRenderer renders the tree with colors (`renderer.go`). -/
structure ColorRenderer where
  config : Config
  treeChars : TreeChars

/-- BasicRenderer renders the tree without colors (`renderer.go`). -/
structure BasicRenderer where
  treeChars : TreeChars

/-- RenderDir renders a directory with color. -/
def ColorRenderer.RenderDir (r : ColorRenderer) (name : String) (isLast : Bool) (pre : String)
    (out : List Chunk) : List Chunk × String × String :=
  let (out, newPrefix, newLastPrefix) :=
    if isLast then
      (Print r.treeChars.LastItem (Print pre out), pre ++ r.treeChars.Indent,
        pre ++ r.treeChars.Indent)
    else
      (Print r.treeChars.MiddleItem (Print pre out), pre ++ r.treeChars.Line,
        pre ++ r.treeChars.Indent)
  let out :=
    if r.config.BgColor then colorPrint [.FgHiWhite, .BgBlue] (name ++ "\n") out
    else colorPrint [.FgBlue, .Bold] (name ++ "\n") out
  (out, newPrefix, newLastPrefix)

/-- RenderDir renders a directory without color. -/
def BasicRenderer.RenderDir (r : BasicRenderer) (name : String) (isLast : Bool) (pre : String)
    (out : List Chunk) : List Chunk × String × String :=
  let (out, newPrefix, newLastPrefix) :=
    if isLast then
      (Print r.treeChars.LastItem (Print pre out), pre ++ r.treeChars.Indent,
        pre ++ r.treeChars.Indent)
    else
      (Print r.treeChars.MiddleItem (Print pre out), pre ++ r.treeChars.Line,
        pre ++ r.treeChars.Indent)
  let out := Print (name ++ "\n") out
  (out, newPrefix, newLastPrefix)

/-! ## The filesystem seen by a walk -/

/-- What `fs.FileInfo` tells the walker about a file: `Size()` and whether
`Mode()&os.ModeSymlink != 0`. -/
structure FileMeta where
  Size : Int
  IsSymlink : Bool
deriving DecidableEq, Repr

/-- One `fs.DirEntry` together with what the filesystem answers about it: `Name()`,
`IsDir()`, the result of `Info()` and the result of `os.ReadDir` on its path (an error
carries its message).  The walker asks `Info` only of non-directories and `ReadDir` only of
directories. -/
inductive Entry where
  | mk (Name : String) (IsDir : Bool) (Info : Except String FileMeta)
      (ReadDir : Except String (List Entry))

/-- The entry name. -/
def Entry.Name : Entry → String
  | .mk n _ _ _ => n

/-- Whether the entry is a directory. -/
def Entry.IsDir : Entry → Bool
  | .mk _ d _ _ => d

/-- The answer of `entry.Info()`. -/
def Entry.Info : Entry → Except String FileMeta
  | .mk _ _ i _ => i

/-- The answer of `os.ReadDir` on the entry. -/
def Entry.ReadDir : Entry → Except String (List Entry)
  | .mk _ _ _ r => r

/-- A regular file of the given size whose metadata can be read. -/
def Entry.file (name : String) (size : Int) : Entry :=
  .mk name false (.ok ⟨size, false⟩) (.error "not a directory")

/-- A readable directory with the given entries. -/
def Entry.dir (name : String) (entries : List Entry) : Entry :=
  .mk name true (.ok ⟨0, false⟩) (.ok entries)

mutual
/-- A measure of the tree below an entry, by which the walk terminates. -/
def Entry.size : Entry → Nat
  | .mk _ _ _ (.error _) => 1
  | .mk _ _ _ (.ok es) => Entry.sizeList es + 2
/-- The same measure for a list of entries. -/
def Entry.sizeList : List Entry → Nat
  | [] => 0
  | e :: es => Entry.size e + Entry.sizeList es
end

/-- The same measure for what a directory read returns. -/
def readSize : Except String (List Entry) → Nat
  | .error _ => 0
  | .ok es => Entry.sizeList es + 1

/-- The state a walk threads through: the Stats accumulator and standard output. -/
structure World where
  stats : Stats
  out : List Chunk
deriving DecidableEq, Repr

/-- The partition loop of `walkDir`: directories the Filter keeps, and (when files are
shown) the other entries the Filter keeps, both in enumeration order. -/
def partitionEntries (E : GoEnv) (config : Config) : List Entry → List Entry × List Entry
  | [] => ([], [])
  | entry :: rest =>
    let (dirs, files) := partitionEntries E config rest
    let name := entry.Name
    if entry.IsDir then
      if !shouldExcludeFolder name config.ExcludeFolders then (entry :: dirs, files)
      else (dirs, files)
    else if config.ShowFiles then
      if !shouldExcludeFile E name config.ExcludeFiles config.ExcludeNames then
        (dirs, entry :: files)
      else (dirs, files)
    else (dirs, files)

/-- The loop `for i, entry := range files` of `walkDir`, from index `i` on; `nFiles` is
`len(files)`. -/
def walkFiles (E : GoEnv) (config : Config) (path pre : String) (treeChars : TreeChars)
    (nFiles : Nat) : Nat → List Entry → World → World
  | _, [], w => w
  | i, entry :: rest, w =>
    let isLast : Bool := (i : Int) = (nFiles : Int) - 1
    let entryPath := E.Join path entry.Name
    match entry.Info with
    | .error err =>
      walkFiles E config path pre treeChars nFiles (i + 1) rest
        ⟨w.stats, Print ("Error getting file info for " ++ entryPath ++ ": " ++ err ++ "\n") w.out⟩
    | .ok info =>
      let fileSize := info.Size
      let fileExt := getFileExtension E entry.Name
      let stats : Stats :=
        ⟨w.stats.TotalDirs, w.stats.TotalFiles + 1, add64 w.stats.TotalSize fileSize,
          mapAdd w.stats.FileTypes fileExt fileSize, w.stats.LargeFiles⟩
      let stats : Stats :=
        if config.StatTable then
          ⟨stats.TotalDirs, stats.TotalFiles, stats.TotalSize, stats.FileTypes,
            stats.LargeFiles ++ [⟨entryPath, fileSize, fileExt⟩]⟩
        else stats
      let isSymlink := info.IsSymlink
      walkFiles E config path pre treeChars nFiles (i + 1) rest
        ⟨stats, renderFile entry.Name isLast pre isSymlink config treeChars w.out⟩

mutual
/-- Walk directory tree recursively (`main.go`).  `read` is what `os.ReadDir(path)`
answers. -/
def walkDir (E : GoEnv) (config : Config) (path pre lastPrefix : String) (depth : Int)
    (treeChars : TreeChars) (read : Except String (List Entry)) (w : World) : World :=
  if config.MaxDepth ≠ -1 ∧ depth > config.MaxDepth then w
  else
    match read with
    | .error err =>
      ⟨w.stats, Print ("Error reading directory " ++ path ++ ": " ++ err ++ "\n") w.out⟩
    | .ok entries =>
      let dirs := (partitionEntries E config entries).1
      let files := (partitionEntries E config entries).2
      let w := walkDirs E config path pre depth treeChars dirs.length files.length 0 dirs w
      walkFiles E config path pre treeChars files.length 0 files w
termination_by readSize read
decreasing_by
  have kept : ∀ l : List Entry,
      Entry.sizeList (partitionEntries E config l).1 ≤ Entry.sizeList l := by
    intro l
    induction l with
    | nil => simp [partitionEntries, Entry.sizeList]
    | cons e es ih =>
      simp only [partitionEntries, Entry.sizeList]
      split <;> [split; split] <;> try split
      all_goals simp only [Entry.sizeList]; omega
  exact Nat.lt_of_le_of_lt (kept _) (by simp [readSize])
/-- The loop `for i, entry := range dirs` of `walkDir`, from index `i` on; `nDirs` and
`nFiles` are `len(dirs)` and `len(files)`. -/
def walkDirs (E : GoEnv) (config : Config) (path pre : String) (depth : Int)
    (treeChars : TreeChars) (nDirs nFiles : Nat) (i : Nat) (dirs : List Entry) (w : World) :
    World :=
  match dirs with
  | [] => w
  | entry :: rest =>
    let isLast : Bool := (i : Int) = (nDirs : Int) - 1 && nFiles = 0
    let entryPath := E.Join path entry.Name
    let r := renderDir entry.Name isLast pre config treeChars w.out
    let newPrefix := r.2.1
    let newLastPrefix := r.2.2
    let stats : Stats :=
      ⟨w.stats.TotalDirs + 1, w.stats.TotalFiles, w.stats.TotalSize, w.stats.FileTypes,
        w.stats.LargeFiles⟩
    let w := walkDir E config entryPath newPrefix newLastPrefix (depth + 1) treeChars
      entry.ReadDir ⟨stats, r.1⟩
    walkDirs E config path pre depth treeChars nDirs nFiles (i + 1) rest w
termination_by Entry.sizeList dirs
decreasing_by
  all_goals
    have below : ∀ e : Entry, readSize e.ReadDir < Entry.size e := by
      intro e
      cases e with
      | mk n d i r => cases r <;> simp [Entry.ReadDir, readSize, Entry.size]
  · exact Nat.lt_of_lt_of_le (below _) (by simp [Entry.sizeList])
  · simp only [Entry.sizeList]
    exact Nat.lt_add_of_pos_left (Nat.lt_of_le_of_lt (Nat.zero_le _) (below _))
end

/-! ## Definitions used to state the walker's properties -/

/-- The test of the partition loop for directories. -/
def keepDir (config : Config) (entry : Entry) : Bool :=
  entry.IsDir && !shouldExcludeFolder entry.Name config.ExcludeFolders

/-- The test of the partition loop for files. -/
def keepFile (E : GoEnv) (config : Config) (entry : Entry) : Bool :=
  !entry.IsDir && config.ShowFiles &&
    !shouldExcludeFile E entry.Name config.ExcludeFiles config.ExcludeNames

/-- The update of the Stats for one rendered directory. -/
def Stats.addDir (s : Stats) : Stats :=
  ⟨s.TotalDirs + 1, s.TotalFiles, s.TotalSize, s.FileTypes, s.LargeFiles⟩

/-- The update of the Stats for one file whose metadata was read. -/
def Stats.addFile (config : Config) (s : Stats) (entryPath : String) (fileSize : Int)
    (fileExt : String) : Stats :=
  if config.StatTable then
    ⟨s.TotalDirs, s.TotalFiles + 1, add64 s.TotalSize fileSize,
      mapAdd s.FileTypes fileExt fileSize, s.LargeFiles ++ [⟨entryPath, fileSize, fileExt⟩]⟩
  else
    ⟨s.TotalDirs, s.TotalFiles + 1, add64 s.TotalSize fileSize,
      mapAdd s.FileTypes fileExt fileSize, s.LargeFiles⟩

/-- Sum of the sizes of the records of the largest-files list. -/
def sumSizes (l : List FileInfo) : Int :=
  (l.map FileInfo.Size).sum

/-- Whether a directory at `depth` is read under the depth limit of the configuration. -/
def withinDepth (config : Config) (depth : Int) : Bool :=
  config.MaxDepth = -1 || depth ≤ config.MaxDepth

/-- The size `Info()` reports, when it succeeds. -/
def infoSize : Except String FileMeta → List Int
  | .ok m => [m.Size]
  | .error _ => []

/-- Whether `Info()` succeeds. -/
def infoOk : Except String FileMeta → Bool
  | .ok _ => true
  | .error _ => false

mutual
/-- Sizes of the files a walk of the directory at `depth` is to count: those that pass
the Filter, lie in a directory that is not excluded, readable and within the depth limit,
and whose metadata can be read. -/
def countedSizes (E : GoEnv) (config : Config) (depth : Int) :
    Except String (List Entry) → List Int
  | .error _ => []
  | .ok es => if withinDepth config depth then countedSizesList E config depth es else []
/-- The same for the entries of one directory. -/
def countedSizesList (E : GoEnv) (config : Config) (depth : Int) : List Entry → List Int
  | [] => []
  | e :: es => countedSizesEntry E config depth e ++ countedSizesList E config depth es
/-- The same for one entry of a directory at `depth`. -/
def countedSizesEntry (E : GoEnv) (config : Config) (depth : Int) : Entry → List Int
  | .mk name isDir info read =>
    if isDir then
      if shouldExcludeFolder name config.ExcludeFolders then []
      else countedSizes E config (depth + 1) read
    else if config.ShowFiles &&
        !shouldExcludeFile E name config.ExcludeFiles config.ExcludeNames then
      infoSize info
    else []
end

mutual
/-- Number of directories a walk of the directory at `depth` is to render and count:
those not excluded, inside a directory that is not excluded, readable and within the
depth limit. -/
def countedDirs (config : Config) (depth : Int) : Except String (List Entry) → Int
  | .error _ => 0
  | .ok es => if withinDepth config depth then countedDirsList config depth es else 0
/-- The same for the entries of one directory. -/
def countedDirsList (config : Config) (depth : Int) : List Entry → Int
  | [] => 0
  | e :: es => countedDirsEntry config depth e + countedDirsList config depth es
/-- The same for one entry of a directory at `depth`. -/
def countedDirsEntry (config : Config) (depth : Int) : Entry → Int
  | .mk name isDir _ read =>
    if isDir && !shouldExcludeFolder name config.ExcludeFolders then
      1 + countedDirs config (depth + 1) read
    else 0
end

/-- The size of an entry when its metadata can be read. -/
def Entry.readableSize (e : Entry) : List Int :=
  infoSize e.Info

/-- Sizes the file loop adds for a list of file entries. -/
def readableSizes : List Entry → List Int
  | [] => []
  | e :: es => e.readableSize ++ readableSizes es

/-- Sizes counted below the kept directories of one level. -/
def sizesBelow (E : GoEnv) (config : Config) (depth : Int) : List Entry → List Int
  | [] => []
  | e :: es => countedSizes E config (depth + 1) e.ReadDir ++ sizesBelow E config depth es

/-- Directories counted below the kept directories of one level. -/
def dirsBelow (config : Config) (depth : Int) : List Entry → Int
  | [] => 0
  | e :: es => 1 + countedDirs config (depth + 1) e.ReadDir + dirsBelow config depth es

mutual
/-- Number of files of a tree that the Filter does not exclude; what lies under an
excluded directory is not counted. -/
def countFiles (E : GoEnv) (config : Config) : List Entry → Int
  | [] => 0
  | e :: es => countFilesEntry E config e + countFiles E config es
/-- The same below one entry. -/
def countFilesEntry (E : GoEnv) (config : Config) : Entry → Int
  | .mk name isDir _ read =>
    if isDir then
      if shouldExcludeFolder name config.ExcludeFolders then 0
      else countFilesRead E config read
    else if shouldExcludeFile E name config.ExcludeFiles config.ExcludeNames then 0
    else 1
/-- The same in the listing of a directory. -/
def countFilesRead (E : GoEnv) (config : Config) : Except String (List Entry) → Int
  | .ok es => countFiles E config es
  | .error _ => 0
end

mutual
/-- Number of directories below the root of a tree that the Filter does not exclude; what
lies under an excluded directory is not counted. -/
def countDirs (config : Config) : List Entry → Int
  | [] => 0
  | e :: es => countDirsEntry config e + countDirs config es
/-- The same for one entry and what lies below it. -/
def countDirsEntry (config : Config) : Entry → Int
  | .mk name isDir _ read =>
    if isDir then
      if shouldExcludeFolder name config.ExcludeFolders then 0
      else 1 + countDirsRead config read
    else 0
/-- The same in the listing of a directory. -/
def countDirsRead (config : Config) : Except String (List Entry) → Int
  | .ok es => countDirs config es
  | .error _ => 0
end

mutual
/-- No read errors in a tree: every directory can be listed and the metadata of every
other entry can be read. -/
def NoReadErrors : List Entry → Bool
  | [] => true
  | e :: es => NoReadErrorsEntry e && NoReadErrors es
/-- The same for one entry and what lies below it. -/
def NoReadErrorsEntry : Entry → Bool
  | .mk _ isDir info read => if isDir then NoReadErrorsRead read else infoOk info
/-- The same for the listing of a directory. -/
def NoReadErrorsRead : Except String (List Entry) → Bool
  | .ok es => NoReadErrors es
  | .error _ => false
end

mutual
/-- The walk of a tree meets no read error (with no depth limit): every directory the
Filter keeps, inside kept directories, can be listed, and the metadata of every file the
walk counts there can be read.  What lies under an excluded directory, an excluded file,
and every file when files are not shown, is never read and does not matter. -/
def walkReadable (E : GoEnv) (config : Config) : List Entry → Bool
  | [] => true
  | e :: es => walkReadableEntry E config e && walkReadable E config es
/-- The same for one entry and what lies below it. -/
def walkReadableEntry (E : GoEnv) (config : Config) : Entry → Bool
  | .mk name isDir info read =>
    if isDir then
      if shouldExcludeFolder name config.ExcludeFolders then true
      else walkReadableRead E config read
    else if config.ShowFiles &&
        !shouldExcludeFile E name config.ExcludeFiles config.ExcludeNames then
      infoOk info
    else true
/-- The same for the listing of a directory. -/
def walkReadableRead (E : GoEnv) (config : Config) : Except String (List Entry) → Bool
  | .ok es => walkReadable E config es
  | .error _ => false
end

/-- Two listings of the same tree that differ only in the order in which the entries of
its directories are enumerated. -/
inductive Reorder : List Entry → List Entry → Prop
  | nil : Reorder [] []
  | cons (e : Entry) {l l' : List Entry} : Reorder l l' → Reorder (e :: l) (e :: l')
  | inside (name : String) (isDir : Bool) (info : Except String FileMeta)
      {cs cs' l l' : List Entry} : Reorder cs cs' → Reorder l l' →
      Reorder (.mk name isDir info (.ok cs) :: l) (.mk name isDir info (.ok cs') :: l')
  | swap (a b : Entry) (l : List Entry) : Reorder (a :: b :: l) (b :: a :: l)
  | trans {l₁ l₂ l₃ : List Entry} : Reorder l₁ l₂ → Reorder l₂ l₃ → Reorder l₁ l₃

/-- The tree of the specification's example:
`root/{a.txt(5B), sub/{b.txt(10B)}, node_modules/{ignored.txt(99B)}}`. -/
def specTree : List Entry :=
  [Entry.file "a.txt" 5, Entry.dir "sub" [Entry.file "b.txt" 10],
    Entry.dir "node_modules" [Entry.file "ignored.txt" 99]]

/-- The configuration of the specification's example: folder-exclude `node_modules`, no
file exclusion, files shown, unlimited depth, the table of largest files on. -/
def specConfig : Config where
  Path := "root"
  ExcludeFolders := ["node_modules"]
  ShowFiles := true
  ExcludeFiles := []
  ExcludeNames := []
  MaxDepth := -1
  Unicode := true
  Color := false
  BgColor := false
  Compact := false
  ShowStats := true
  StatTable := true
  StatsCount := 10
  Chart := false

/-- The tree of the specification's example when the excluded directory `node_modules`
cannot be read. -/
def lockedTree : List Entry :=
  [Entry.file "a.txt" 5, Entry.dir "sub" [Entry.file "b.txt" 10],
    .mk "node_modules" true (.ok ⟨0, false⟩) (.error "permission denied")]

/-- A directory with two files of `2 ^ 62` bytes each. -/
def hugeTree : List Entry :=
  [Entry.file "a.bin" 4611686018427387904, Entry.file "b.bin" 4611686018427387904]

/-- The total size as the specification states it, for a walk from the empty Stats: the
exact integer sum of the sizes of the counted files. -/
def TotalSizeClaim (E : GoEnv) (config : Config) (path : String) (depth : Int)
    (treeChars : TreeChars) (read : Except String (List Entry)) : Prop :=
  (walkDir E config path "" "" depth treeChars read ⟨Stats.empty, []⟩).stats.TotalSize =
    (countedSizes E config depth read).sum

/-- A Stats that satisfies the three invariants: one file of `2 ^ 63 - 1` bytes, the
largest int64, has been counted. -/
def fullStats : Stats :=
  ⟨0, 1, 9223372036854775807, [(".bin", 9223372036854775807)],
    [⟨"root/big.bin", 9223372036854775807, ".bin"⟩]⟩

/-- The first invariant as the specification states it, for one call: when `TotalSize`
equals the sum of the values of `FileTypes` before the call, it does so after it. -/
def SumInvariantClaim (E : GoEnv) (config : Config) (path : String) (depth : Int)
    (treeChars : TreeChars) (read : Except String (List Entry)) (w : World) : Prop :=
  w.stats.TotalSize = mapSum w.stats.FileTypes →
    (walkDir E config path "" "" depth treeChars read w).stats.TotalSize =
      mapSum (walkDir E config path "" "" depth treeChars read w).stats.FileTypes

/-- The directory `TestWalkDir` builds, as `os.ReadDir` lists it (sorted by name); every
file holds the text `Test content for ` followed by its relative path. -/
def testTree : List Entry :=
  [Entry.dir "dir1"
      [Entry.file "file3.txt" 31,
        Entry.dir "subdir1" [Entry.file "file4.txt" 39],
        Entry.dir "subdir2" []],
    Entry.dir "dir2" [Entry.file "README.md" 31],
    Entry.file "file1.txt" 26,
    Entry.file "file2.exe" 26,
    Entry.dir "node_modules" []]

/-- The configuration of `TestWalkDir`. -/
def testConfig : Config where
  Path := "tmp"
  ExcludeFolders := ["node_modules"]
  ShowFiles := true
  ExcludeFiles := [".exe"]
  ExcludeNames := ["README.md"]
  MaxDepth := -1
  Unicode := true
  Color := false
  BgColor := false
  Compact := false
  ShowStats := false
  StatTable := true
  StatsCount := 0
  Chart := false

mutual
/-- The listing of a directory when only `levels` levels of entries below it are kept:
with no level left the directory is empty, otherwise its entries stay, in order, each cut
one level lower. -/
def cutRead (levels : Nat) : Except String (List Entry) → Except String (List Entry)
  | .error msg => if levels = 0 then .ok [] else .error msg
  | .ok es => if levels = 0 then .ok [] else .ok (cutList (levels - 1) es)
/-- The entries of a directory, each keeping `levels` levels below it. -/
def cutList (levels : Nat) : List Entry → List Entry
  | [] => []
  | e :: es => cutEntry levels e :: cutList levels es
/-- One entry keeping `levels` levels below it. -/
def cutEntry (levels : Nat) : Entry → Entry
  | .mk name isDir info read => .mk name isDir info (cutRead levels read)
end

/-- The configuration with the depth limit removed. -/
def Config.unlimited (config : Config) : Config :=
  { config with MaxDepth := -1 }

/-! ## Size formatting (`main.go`) -/

/-- The integer nearest to `num / den`, the even one of the two when `num / den` lies
half-way between them. -/
def roundHalfEven (num den : Nat) : Nat :=
  if den < 2 * (num % den) ∨ (2 * (num % den) = den ∧ num / den % 2 = 1) then num / den + 1
  else num / den

/-- How many low bits of `n` do not fit the 53-bit significand of a float64 (`fuel` bounds
the bit length of `n`, 64 suffices for every integer below `2 ^ 117`). -/
def ulpShift : Nat → Nat → Nat
  | 0, _ => 0
  | fuel + 1, n => if n < 2 ^ 53 then 0 else ulpShift fuel (n / 2) + 1

/-- The conversion `float64(n)` of a non-negative int64: the nearest multiple of the unit
in the last place, ties to the even significand (IEEE 754 round-to-nearest-even).  The
result is the value of the float, which is an integer. -/
def float64 (n : Nat) : Nat :=
  roundHalfEven n (2 ^ ulpShift 64 n) * 2 ^ ulpShift 64 n

/-- The text `fmt.Sprintf("%d", n)` of a non-negative integer. -/
def sprintD (n : Nat) : String :=
  Nat.repr n

/-- The text `fmt.Sprintf("%.1f", x)` for the float `x = num / den`, a quotient of two
float values that is exact (as it is when `den` is a power of two): the decimal expansion
of `x` is rounded to one digit after the point, to the even digit when `x` lies half-way
(`strconv` rounds the exact expansion), and printed as integer part, point, digit. -/
def sprintF1 (num den : Nat) : String :=
  sprintD (roundHalfEven (10 * num) den / 10) ++ "." ++
    sprintD (roundHalfEven (10 * num) den % 10)

/-- The loop `for n := size / unit; n >= unit; n /= unit` of `formatSize` with its two
counters.  The first argument bounds the iterations left; `formatSize` passes the start
value of `n`, which is never too few since `n` shrinks in every round.  All values are
non-negative here, where Go division is division of naturals. -/
def sizeLoop : Nat → Nat → Nat → Nat → Nat × Nat
  | 0, _, div, exp => (div, exp)
  | fuel + 1, n, div, exp =>
    if n ≥ 1024 then sizeLoop fuel (n / 1024) (div * 1024) (exp + 1) else (div, exp)

/-- Format file size in human-readable format.  `none` is the run-time panic of an index
out of range in `"KMGTPE"[exp]`. -/
def formatSize (size : Int) : Option String :=
  if size < 1024 then
    some (toString size ++ " B")
  else
    let r := sizeLoop (size.toNat / 1024) (size.toNat / 1024) 1024 0
    let div := r.1
    let exp := r.2
    match "KMGTPE".data.get? exp with
    | none => none
    | some c =>
      some (sprintF1 (float64 size.toNat) (float64 div) ++ " " ++ String.singleton c ++ "B")

/-- Value of a decimal digit character. -/
def digitVal (c : Char) : Nat :=
  c.toNat - 48

/-- The decimal value of a list of digit characters. -/
def decVal (cs : List Char) : Nat :=
  cs.foldl (fun a c => 10 * a + digitVal c) 0

/-- The number a non-empty string of decimal digits denotes. -/
def parseNat (cs : List Char) : Option Nat :=
  if cs ≠ [] ∧ cs.all Char.isDigit then some (decVal cs) else none

/-- The number of bytes one unit of a size text stands for, as a power of 1024: `B` is
`1024 ^ 0`, `KB` is `1024 ^ 1`, and so on. -/
def parseUnit : List Char → Option Nat
  | ['B'] => some 0
  | ['K', 'B'] => some 1
  | ['M', 'B'] => some 2
  | ['G', 'B'] => some 3
  | ['T', 'B'] => some 4
  | ['P', 'B'] => some 5
  | ['E', 'B'] => some 6
  | _ => none

/-- Reading of a size text `<digits> <unit>` or `<digits>.<digit> <unit>`: ten times the
printed number, and the power of 1024 of the unit. -/
def parseSize (s : String) : Option (Nat × Nat) :=
  match s.data.span (fun c => c != ' ') with
  | (number, ' ' :: unit) =>
    match parseUnit unit with
    | none => none
    | some k =>
      match number.span (fun c => c != '.') with
      | (whole, []) => (parseNat whole).map (fun n => (10 * n, k))
      | (whole, ['.', d]) =>
        if d.isDigit then (parseNat whole).map (fun n => (10 * n + digitVal d, k)) else none
      | _ => none
  | _ => none

/-- Ten times the quantity in bytes a size text denotes: its printed number multiplied by
the value of its unit. -/
def denotedTenths (s : String) : Option Nat :=
  (parseSize s).map (fun p => p.1 * 1024 ^ p.2)

/-- The number `t / 10` is a nearest tenth to `num / den`: they differ by at most one
twentieth. -/
def nearestTenth (t num den : Nat) : Prop :=
  2 * (10 * num) ≤ 2 * (t * den) + den ∧ 2 * (t * den) ≤ 2 * (10 * num) + den

/-- The text of `formatSize` as the specification states it, at one size: below 1024 the
decimal numeral and ` B`; otherwise, with `k` the largest integer with `1024 ^ k ≤ size`,
the number `size / 1024 ^ k` printed with one decimal digit (a nearest tenth `t / 10`), a
space, the `k`-th letter of `KMGTPE` and `B`. -/
def FormatSizeClaim (size : Int) : Prop :=
  (size < 1024 → formatSize size = some (toString size ++ " B")) ∧
  (1024 ≤ size → ∃ k t : Nat, ∃ c : Char,
    1 ≤ k ∧ k ≤ 6 ∧ (1024 : Int) ^ k ≤ size ∧ size < (1024 : Int) ^ (k + 1) ∧
    "KMGTPE".data.get? (k - 1) = some c ∧
    formatSize size =
      some (sprintD (t / 10) ++ "." ++ sprintD (t % 10) ++ " " ++ String.singleton c ++ "B") ∧
    nearestTenth t size.toNat (1024 ^ k))

/-! ## Command-line lists (`main.go`) -/

/-- The test `unicode.IsSpace`: the code points with the Unicode property White_Space. -/
def IsSpace (c : Char) : Bool :=
  (0x09 ≤ c.toNat && c.toNat ≤ 0x0D) || c.toNat = 0x20 || c.toNat = 0x85 || c.toNat = 0xA0 ||
    c.toNat = 0x1680 || (0x2000 ≤ c.toNat && c.toNat ≤ 0x200A) || c.toNat = 0x2028 ||
    c.toNat = 0x2029 || c.toNat = 0x202F || c.toNat = 0x205F || c.toNat = 0x3000

/-- The function `strings.TrimSpace`: the string without its leading and trailing white
space. -/
def TrimSpace (s : String) : String :=
  ⟨((s.data.dropWhile IsSpace).reverse.dropWhile IsSpace).reverse⟩

/-- The pieces `strings.Split(s, ",")` cuts the characters of `s` into: a new piece starts
after every comma. -/
def splitChars : List Char → List (List Char)
  | [] => [[]]
  | c :: cs =>
    if c = ',' then [] :: splitChars cs
    else
      match splitChars cs with
      | [] => [[c]]
      | p :: ps => (c :: p) :: ps

/-- The call `strings.Split(s, ",")`. -/
def Split (s : String) : List String :=
  (splitChars s.data).map String.mk

/-- Split comma-separated string and trim spaces (`main.go`). -/
def splitCommaString (s : String) : List String :=
  if s = "" then []
  else (Split s).map TrimSpace

/-! ## Definitions used to state what a walk writes -/

/-- What `renderDir` writes for one directory: the prefix, the glyph and the name. -/
def dirLine (name : String) (isLast : Bool) (pre : String) (config : Config)
    (treeChars : TreeChars) : List Chunk :=
  (renderDir name isLast pre config treeChars []).1

/-- What the file loop writes for one entry: the line of the file, or the message that its
metadata could not be read. -/
def fileOut (E : GoEnv) (config : Config) (path pre : String) (treeChars : TreeChars)
    (isLast : Bool) (entry : Entry) : List Chunk :=
  match entry.Info with
  | .ok info => renderFile entry.Name isLast pre info.IsSymlink config treeChars []
  | .error err =>
    Print ("Error getting file info for " ++ E.Join path entry.Name ++ ": " ++ err ++ "\n") []

/-- What a walk of a directory writes when it starts on an empty terminal. -/
def walkOut (E : GoEnv) (config : Config) (path pre : String) (depth : Int)
    (treeChars : TreeChars) (read : Except String (List Entry)) : List Chunk :=
  (walkDir E config path pre pre depth treeChars read ⟨Stats.empty, []⟩).out

/-- The flag of the directory at index `i` of a level, in the words of the specification:
`isLast = (i == len(dirs)-1) AND (len(files) == 0)`. -/
def dirIsLast (i nDirs nFiles : Nat) : Bool :=
  decide ((i : Int) = (nDirs : Int) - 1) && decide (nFiles = 0)

/-- The flag of the file at index `i` of a level, in the words of the specification:
`isLast = (i == len(files)-1)`. -/
def fileIsLast (i nFiles : Nat) : Bool :=
  decide ((i : Int) = (nFiles : Int) - 1)

/-- The lines of one directory of a level: its own line, immediately followed by all that
the walk of the directory writes (under the child prefix). -/
def dirOut (E : GoEnv) (config : Config) (path pre : String) (depth : Int)
    (treeChars : TreeChars) (isLast : Bool) (entry : Entry) : List Chunk :=
  dirLine entry.Name isLast pre config treeChars ++
    walkOut E config (E.Join path entry.Name)
      (if isLast then pre ++ treeChars.Indent else pre ++ treeChars.Line) (depth + 1)
      treeChars entry.ReadDir

/-- What is written for the entries of a list, one after the other in list order, when
`f i e` is written for the entry `e` at index `i`; the first entry of the list has index
`i`. -/
def eachIdx (f : Nat → Entry → List Chunk) : Nat → List Entry → List Chunk
  | _, [] => []
  | i, e :: rest => f i e ++ eachIdx f (i + 1) rest

/-- The flags of the direct entries of a level in the order they are rendered: the
directories, then the files. -/
def levelFlags (nDirs nFiles : Nat) : List Bool :=
  (List.range nDirs).map (fun i => dirIsLast i nDirs nFiles) ++
    (List.range nFiles).map (fun i => fileIsLast i nFiles)

/-! ## Definitions used to state that errors are local -/

mutual
/-- The entries of the directory the walker is compared with when there are errors: a
directory that cannot be read is an empty directory, and, when `dropFiles` is on, the
files whose metadata cannot be read are left out. -/
def repairRead (dropFiles : Bool) : Except String (List Entry) → List Entry
  | .error _ => []
  | .ok es => repairList dropFiles es
/-- The same for the entries of one directory. -/
def repairList (dropFiles : Bool) : List Entry → List Entry
  | [] => []
  | e :: es => repairEntry dropFiles e ++ repairList dropFiles es
/-- The same for one entry: what takes its place. -/
def repairEntry (dropFiles : Bool) : Entry → List Entry
  | .mk name isDir info read =>
    if isDir then [.mk name isDir info (.ok (repairRead dropFiles read))]
    else if dropFiles && !infoOk info then []
    else [.mk name isDir info read]
end

/-- The message `walkDir` prints for a directory it cannot read. -/
def readErrorChunk (path msg : String) : Chunk :=
  ⟨[], "Error reading directory " ++ path ++ ": " ++ msg ++ "\n"⟩

/-- The relation `ReadErrorsAdded a b`: the writes `a` are the writes `b` with messages
about unreadable directories put in between; all other writes are the same, in the same
order. -/
inductive ReadErrorsAdded : List Chunk → List Chunk → Prop
  | nil : ReadErrorsAdded [] []
  | keep (c : Chunk) {a b : List Chunk} : ReadErrorsAdded a b →
      ReadErrorsAdded (c :: a) (c :: b)
  | error (path msg : String) {a b : List Chunk} : ReadErrorsAdded a b →
      ReadErrorsAdded (readErrorChunk path msg :: a) b

/-- Whether a file entry stays in the repaired tree. -/
def keepsInfo (dropFiles : Bool) (e : Entry) : Bool :=
  !(dropFiles && !infoOk e.Info)

/-- What takes the place of a directory entry in the repaired tree. -/
def repairDir (dropFiles : Bool) (e : Entry) : Entry :=
  .mk e.Name e.IsDir e.Info (.ok (repairRead dropFiles e.ReadDir))

/-- The tree of the example for local errors: a file whose metadata cannot be read and a
directory that cannot be read, each followed by siblings. -/
def brokenTree : List Entry :=
  [.mk "a.txt" false (.error "gone") (.error "not a directory"),
    .mk "bad" true (.ok ⟨0, false⟩) (.error "permission denied"),
    Entry.dir "good" [Entry.file "c.txt" 7],
    Entry.file "z.txt" 3]

/-- The metadata of a file in the healed tree: its own when it can be read, `m` when it
cannot. -/
def healInfo (m : FileMeta) : Except String FileMeta → Except String FileMeta
  | .ok info => .ok info
  | .error _ => .ok m

mutual
/-- The entries of the healed directory: a directory that cannot be read is an empty
directory, and a file whose metadata cannot be read is a file with the metadata `m`; no
entry is added or left out. -/
def healRead (m : FileMeta) : Except String (List Entry) → List Entry
  | .error _ => []
  | .ok es => healList m es
/-- The same for the entries of one directory. -/
def healList (m : FileMeta) : List Entry → List Entry
  | [] => []
  | e :: es => healEntry m e :: healList m es
/-- The same for one entry. -/
def healEntry (m : FileMeta) : Entry → Entry
  | .mk name isDir info read =>
    if isDir then .mk name isDir info (.ok (healRead m read))
    else .mk name isDir (healInfo m info) read
end

/-- What takes the place of a directory entry in the healed tree. -/
def healDir (m : FileMeta) (e : Entry) : Entry :=
  .mk e.Name e.IsDir e.Info (.ok (healRead m e.ReadDir))

/-- What takes the place of a file entry in the healed tree. -/
def healFile (m : FileMeta) (e : Entry) : Entry :=
  .mk e.Name e.IsDir (healInfo m e.Info) e.ReadDir

/-- The message the file loop prints for a file whose metadata cannot be read. -/
def infoErrorChunk (path err : String) : Chunk :=
  ⟨[], "Error getting file info for " ++ path ++ ": " ++ err ++ "\n"⟩

/-- The relation `ErrorsInPlace config treeChars a b`: the writes `a` are the writes `b`
with messages about unreadable directories put in between and with the lines of some files
replaced, each by a message about unreadable metadata; all other writes are the same, in
the same order. -/
inductive ErrorsInPlace (config : Config) (treeChars : TreeChars) :
    List Chunk → List Chunk → Prop
  | nil : ErrorsInPlace config treeChars [] []
  | keep (c : Chunk) {a b : List Chunk} : ErrorsInPlace config treeChars a b →
      ErrorsInPlace config treeChars (c :: a) (c :: b)
  | dirError (path msg : String) {a b : List Chunk} : ErrorsInPlace config treeChars a b →
      ErrorsInPlace config treeChars (readErrorChunk path msg :: a) b
  | fileError (path err name pre : String) (isLast isSymlink : Bool) {a b : List Chunk} :
      ErrorsInPlace config treeChars a b →
      ErrorsInPlace config treeChars (infoErrorChunk path err :: a)
        (renderFile name isLast pre isSymlink config treeChars [] ++ b)

/-- A directory whose last file has metadata that cannot be read. -/
def failLast : List Entry :=
  [Entry.file "a.txt" 5, .mk "b.txt" false (.error "gone") (.error "not a directory")]

/-- The part of C16 about the rendered lines, in its weakest form: whatever the walk of the
tree without the failing files (and with the unreadable directories emptied) writes, the
walk of the tree writes too. -/
def OtherLinesClaim (E : GoEnv) (config : Config) (path : String) (depth : Int)
    (treeChars : TreeChars) (read : Except String (List Entry)) : Prop :=
  ∀ c ∈ (walkDir E config path "" "" depth treeChars (.ok (repairRead true read))
      ⟨Stats.empty, []⟩).out,
    c ∈ (walkDir E config path "" "" depth treeChars read ⟨Stats.empty, []⟩).out

/-! ## Charts (`charts.go` and `main.go`) -/

/-- TypeInfo is one row of a chart: an extension and the bytes of its files. -/
structure TypeInfo where
  Ext : String
  Size : Int
deriving DecidableEq, Repr

/-- What the Go specification leaves open in the chart code: the order in which `range`
visits a map, the order `sort.Slice` gives to elements that compare equal, the integer a
conversion `int(x)` yields when `x` is NaN or an infinity, and `maxAlloc`, the number of
bytes of the largest string the host can build: it is below `2 ^ 63`, since a length is an
`int`, and a host on which the program runs can build a string of `2 ^ 16` bytes. -/
structure ChartEnv where
  rangeMap : List (String × Int) → List (String × Int)
  sortSlice : List TypeInfo → List TypeInfo
  intOfNaN : Int
  intOfPosInf : Int
  intOfNegInf : Int
  maxAlloc : Int
  rangeMap_perm : ∀ m, (rangeMap m).Perm m
  sortSlice_perm : ∀ l, (sortSlice l).Perm l
  sortSlice_sorted : ∀ l, (sortSlice l).Pairwise (fun a b => ¬ b.Size > a.Size)
  maxAlloc_ge : 65536 ≤ maxAlloc
  maxAlloc_lt : maxAlloc < 9223372036854775808

/-- The order of the chart rows: `less(i, j)` is `Size[i] > Size[j]`, so a sorted slice
is non-increasing. -/
def sizeGe (a b : TypeInfo) : Prop :=
  a.Size ≥ b.Size

instance sizeGe.decidable : DecidableRel sizeGe :=
  fun a b => inferInstanceAs (Decidable (a.Size ≥ b.Size))

instance sizeGe.total : IsTotal TypeInfo sizeGe :=
  ⟨fun a b => Int.le_total b.Size a.Size⟩

instance sizeGe.trans : IsTrans TypeInfo sizeGe :=
  ⟨fun _ _ _ h1 h2 => Int.le_trans h2 h1⟩

/-- A 64-bit Linux host on amd64, with a map that is visited in the order of its list:
`sort.Slice` sorts a slice of at most 12 elements by insertion, which keeps the order of
equal elements, the conversion of NaN and of the infinities yields the least int64, and
the heap has addresses of 48 bits. -/
def ChartEnv.amd64 : ChartEnv where
  rangeMap := id
  sortSlice := List.insertionSort sizeGe
  intOfNaN := -2 ^ 63
  intOfPosInf := -2 ^ 63
  intOfNegInf := -2 ^ 63
  maxAlloc := 281474976710656
  rangeMap_perm := fun _ => List.Perm.refl _
  sortSlice_perm := fun l => List.perm_insertionSort sizeGe l
  sortSlice_sorted := fun l =>
    (List.sorted_insertionSort sizeGe l).imp (fun h => Int.not_lt.mpr h)
  maxAlloc_ge := by decide
  maxAlloc_lt := by decide

/-- The scale of the fixed-point reading of a float64: the float `x` is kept as the natural
number `x * 2 ^ 128`, which is whole for every float of magnitude `2 ^ (-75)` or more. -/
def fscale : Nat :=
  2 ^ 128

/-- The number with a 53-bit significand nearest to `num / den`, ties to the even
significand, for `num / den` at least `2 ^ 53` (below, the nearest whole number). -/
def roundSig (num den : Nat) : Nat :=
  roundHalfEven num (den * 2 ^ ulpShift 200 (num / den)) * 2 ^ ulpShift 200 (num / den)

/-- A float64 value: NaN, an infinity, or the finite value of magnitude `mag / 2 ^ 128`
with its sign bit. -/
inductive F64 where
  | nan
  | inf (neg : Bool)
  | fin (neg : Bool) (mag : Nat)
deriving DecidableEq, Repr

/-- The quotient `float64(a) / float64(b)` of two int64 values (IEEE 754: round to
nearest, ties to even; `0/0` is NaN and `a/0` an infinity with the sign of `a`). -/
def F64.quot (a b : Int) : F64 :=
  if b = 0 then
    if a = 0 then .nan else .inf (decide (a < 0))
  else
    .fin (decide (a < 0) != decide (b < 0))
      (roundSig (float64 a.natAbs * fscale) (float64 b.natAbs))

/-- The product `x * k` of a float with a whole constant `k > 0` such as `50` or `100`. -/
def F64.scale (x : F64) (k : Nat) : F64 :=
  match x with
  | .nan => .nan
  | .inf s => .inf s
  | .fin s m => .fin s (roundSig (m * k) 1)

/-- The conversion `int(x)`: the whole part of a finite value (rounding toward zero), and
what the platform yields for NaN and the infinities. -/
def F64.toInt (E : ChartEnv) : F64 → Int
  | .nan => E.intOfNaN
  | .inf s => if s then E.intOfNegInf else E.intOfPosInf
  | .fin s m => if s then -((m / fscale : Nat) : Int) else ((m / fscale : Nat) : Int)

/-- The text of the verb `%-15s` or `%-50s`: the string padded with spaces on the right to
`width` characters. -/
def padRight (width : Nat) (s : String) : String :=
  s ++ String.mk (List.replicate (width - s.length) ' ')

/-- The text of a verb with a width and no flag: the string padded with spaces on the left
to `width` characters. -/
def padLeft (width : Nat) (s : String) : String :=
  String.mk (List.replicate (width - s.length) ' ') ++ s

/-- The text `fmt.Sprintf("%6.1f", x)`. -/
def sprintF61 : F64 → String
  | .nan => padLeft 6 "NaN"
  | .inf s => padLeft 6 (if s then "-Inf" else "+Inf")
  | .fin s m => padLeft 6 ((if s then "-" else "") ++ sprintF1 m fscale)

/-- The call `strings.Repeat(s, count)`; `none` is the end of the program: the panic on a
negative count, the panic when the length `len(s) * count` of the result overflows `int`,
and the failure to get that many bytes. -/
def Repeat (E : ChartEnv) (s : String) (count : Int) : Option String :=
  if count < 0 then none
  else if (s.utf8ByteSize : Int) * count > E.maxAlloc then none
  else some (String.join (List.replicate count.toNat s))

/-- The loop over `stats.FileTypes` that fills `typeInfos`. -/
def collectTypeInfos (E : ChartEnv) (fileTypes : List (String × Int)) : List TypeInfo :=
  (E.rangeMap fileTypes).map (fun p => ⟨if p.1 = "" then "(no extension)" else p.1, p.2⟩)

/-- The value of `limit` when `typeInfos` has `n` elements. -/
def chartLimit (config : Config) (n : Nat) : Int :=
  if config.StatsCount > (n : Int) then (n : Int) else config.StatsCount

/-- The slice `typeInfos[:limit]` of the sorted rows; `none` is the run-time panic of a
slice bound out of range. -/
def topTypeInfos (E : ChartEnv) (stats : Stats) (config : Config) : Option (List TypeInfo) :=
  let typeInfos := E.sortSlice (collectTypeInfos E stats.FileTypes)
  let limit := chartLimit config typeInfos.length
  if limit < 0 then none else some (typeInfos.take limit.toNat)

/-- The loop that finds the maximum size for scaling, from `maxSize` on. -/
def findMaxSize (maxSize : Int) : List TypeInfo → Int
  | [] => maxSize
  | info :: rest => findMaxSize (if info.Size > maxSize then info.Size else maxSize) rest

/-- The bar width of one row: `int(float64(size) / float64(maxSize) * float64(maxWidth))`
with `maxWidth = 50`, raised to 1. -/
def barWidth (E : ChartEnv) (size maxSize : Int) : Int :=
  let width := F64.toInt E ((F64.quot size maxSize).scale 50)
  if width < 1 then 1 else width

/-- The percentage of one row: `float64(size) / float64(stats.TotalSize) * 100`. -/
def percentage (size totalSize : Int) : F64 :=
  (F64.quot size totalSize).scale 100

/-- One row of a bar chart, as `fmt` formats it; `none` when `strings.Repeat` or
`formatSize` panics. -/
def barRow (E : ChartEnv) (glyph : String) (stats : Stats) (maxSize : Int) (info : TypeInfo) :
    Option String :=
  match Repeat E glyph (barWidth E info.Size maxSize) with
  | none => none
  | some bar =>
    match formatSize info.Size with
    | none => none
    | some size =>
      some ("  " ++ padRight 15 info.Ext ++ " [" ++ padRight 50 bar ++ "] " ++
        sprintF61 (percentage info.Size stats.TotalSize) ++ "% (" ++ size ++ ")\n")

/-- The loop `for _, info := range typeInfos` writing one row after the other to the
builder; `none` when a row panics. -/
def writeRows (row : TypeInfo → Option String) : List TypeInfo → String → Option String
  | [], sb => some sb
  | info :: rest, sb =>
    match row info with
    | none => none
    | some text => writeRows row rest (sb ++ text)

/-- The same loop printing to standard output; an error is a panic and carries what was
written before it. -/
def printRows (row : TypeInfo → Option String) :
    List TypeInfo → List Chunk → Except (List Chunk) (List Chunk)
  | [], out => .ok out
  | info :: rest, out =>
    match row info with
    | none => .error out
    | some text => printRows row rest (Print text out)

/-- The method `renderChart` of `unicodeChartRenderer` (`charts.go`); `none` is a run-time
panic. -/
def unicodeChartRenderer.renderChart (E : ChartEnv) (stats : Stats) (config : Config) :
    Option String :=
  let sb := "\n📊 File Size Distribution Chart:\n"
  match topTypeInfos E stats config with
  | none => none
  | some typeInfos =>
    let maxSize := findMaxSize 0 typeInfos
    writeRows (barRow E "█" stats maxSize) typeInfos sb

/-- The method `renderChart` of `asciiChartRenderer` (`charts.go`). -/
def asciiChartRenderer.renderChart (E : ChartEnv) (stats : Stats) (config : Config) :
    Option String :=
  let sb := "\n# File Size Distribution Chart:\n"
  match topTypeInfos E stats config with
  | none => none
  | some typeInfos =>
    let maxSize := findMaxSize 0 typeInfos
    writeRows (barRow E "#" stats maxSize) typeInfos sb

/-- Sparkline characters for different levels, from lowest to highest. -/
def sparkChars : List Char :=
  ['▁', '▂', '▃', '▄', '▅', '▆', '▇', '█']

/-- The level (0-7) of one sparkline row. -/
def sparkLevel (E : ChartEnv) (size maxSize : Int) : Int :=
  let level := F64.toInt E ((F64.quot size maxSize).scale (sparkChars.length - 1))
  if level < 0 then 0
  else if level ≥ (sparkChars.length : Int) then (sparkChars.length : Int) - 1
  else level

/-- One row of the sparkline chart; `none` when the index into `sparkChars` or
`formatSize` panics. -/
def sparkRow (E : ChartEnv) (stats : Stats) (maxSize : Int) (info : TypeInfo) :
    Option String :=
  let level := sparkLevel E info.Size maxSize
  if level < 0 then none
  else
    match sparkChars.get? level.toNat with
    | none => none
    | some sparkChar =>
      match formatSize info.Size with
      | none => none
      | some size =>
        some ("  " ++ padRight 15 info.Ext ++ " " ++ String.singleton sparkChar ++ " " ++
          sprintF61 (percentage info.Size stats.TotalSize) ++ "% (" ++ size ++ ")\n")

/-- The method `renderChart` of `sparklineChartRenderer` (`charts.go`). -/
def sparklineChartRenderer.renderChart (E : ChartEnv) (stats : Stats) (config : Config) :
    Option String :=
  let sb := "\n⚡ File Size Distribution Sparklines:\n"
  match topTypeInfos E stats config with
  | none => none
  | some typeInfos =>
    let maxSize := findMaxSize 0 typeInfos
    writeRows (sparkRow E stats maxSize) typeInfos sb

/-- The function `getChartRenderer` returns the appropriate chart renderer based on
config. -/
def getChartRenderer (config : Config) : ChartEnv → Stats → Config → Option String :=
  if config.Unicode then unicodeChartRenderer.renderChart
  else asciiChartRenderer.renderChart

/-- Print chart with Unicode block characters (`main.go`). -/
def printUnicodeChart (E : ChartEnv) (stats : Stats) (config : Config) (out : List Chunk) :
    Except (List Chunk) (List Chunk) :=
  let out := Print "\n📊 File Size Distribution Chart:\n" out
  match topTypeInfos E stats config with
  | none => .error out
  | some typeInfos =>
    let maxSize := findMaxSize 0 typeInfos
    printRows (barRow E "█" stats maxSize) typeInfos out

/-- Print chart with ASCII characters (`main.go`). -/
def printAsciiChart (E : ChartEnv) (stats : Stats) (config : Config) (out : List Chunk) :
    Except (List Chunk) (List Chunk) :=
  let out := Print "\n# File Size Distribution Chart:\n" out
  match topTypeInfos E stats config with
  | none => .error out
  | some typeInfos =>
    let maxSize := findMaxSize 0 typeInfos
    printRows (barRow E "#" stats maxSize) typeInfos out

/-- Print ASCII/Unicode chart of file type distribution (`main.go`). -/
def printChart (E : ChartEnv) (stats : Stats) (config : Config) (out : List Chunk) :
    Except (List Chunk) (List Chunk) :=
  if config.Unicode then printUnicodeChart E stats config out
  else printAsciiChart E stats config out

/-- The Stats of `TestChartRenderers`. -/
def chartTestStats : Stats :=
  ⟨5, 10, 102400, [(".txt", 51200), (".go", 30720), (".md", 15360), (".json", 5120)], []⟩

/-- The configuration of `TestChartRenderers`: five rows, Unicode. -/
def chartTestConfig : Config :=
  { specConfig with StatsCount := 5, Unicode := true }

/-- The float `float64(a) / float64(b) * k` for `a ≥ 0`, `b > 0` and a whole constant `k`,
in the fixed-point reading. -/
def scaledRatio (a b k : Nat) : Nat :=
  roundSig (roundSig (float64 a * fscale) (float64 b) * k) 1

theorem ToLower_eq_unix (E : GoEnv) (s : String) (h : ∀ c ∈ s.data, c.val < 128) :
    ToLower E s = ToLower GoEnv.unix s := by
  unfold ToLower
  congr 1
  apply List.map_congr_left
  intro c hc
  exact E.toLowerRune_ascii c (h c hc)

theorem HasSuffix_iff (s suffix : String) :
    HasSuffix s suffix = true ↔ ∃ front : String, s = front ++ suffix := by
  unfold HasSuffix
  rw [List.isSuffixOf_iff_suffix]
  constructor
  · rintro ⟨t, ht⟩
    exact ⟨⟨t⟩, by apply String.ext; simp [ht]⟩
  · rintro ⟨front, h⟩
    exact ⟨front.data, by rw [h]; simp⟩

theorem excludedByName_iff (name : String) (l : List String) :
    excludedByName name l = true ↔ ∃ n ∈ l, name = n := by
  induction l with
  | nil => simp [excludedByName]
  | cons x xs ih =>
    simp only [excludedByName, List.mem_cons]
    split
    · simp [*]
    · simp [*]

theorem excludedByExt_iff (E : GoEnv) (name : String) (l : List String) :
    excludedByExt E name l = true ↔
      ∃ ext ∈ l, ∃ front : String, ToLower E name = front ++ ToLower E ext := by
  induction l with
  | nil => simp [excludedByExt]
  | cons x xs ih =>
    simp only [excludedByExt, List.mem_cons]
    split
    · rename_i h
      rw [HasSuffix_iff] at h
      simp only [true_iff]
      exact ⟨x, Or.inl rfl, h⟩
    · rename_i h
      rw [HasSuffix_iff] at h
      rw [ih]
      constructor
      · rintro ⟨e, he, hf⟩
        exact ⟨e, Or.inr he, hf⟩
      · rintro ⟨e, he | he, hf⟩
        · exact absurd (he ▸ hf) h
        · exact ⟨e, he, hf⟩

theorem excludedByExt_eq_unix (E : GoEnv) (name : String) (l : List String)
    (hn : ∀ c ∈ name.data, c.val < 128) (hl : ∀ x ∈ l, ∀ c ∈ x.data, c.val < 128) :
    excludedByExt E name l = excludedByExt GoEnv.unix name l := by
  induction l with
  | nil => rfl
  | cons x xs ih =>
    simp only [excludedByExt]
    rw [ToLower_eq_unix E name hn, ToLower_eq_unix E x (hl x (List.mem_cons_self _ _)),
      ih (fun y hy => hl y (List.mem_cons_of_mem _ hy))]

theorem shouldExcludeFile_iff (E : GoEnv) (name : String) (excludeFiles excludeNames : List String) :
    shouldExcludeFile E name excludeFiles excludeNames = true ↔
      ((∃ n ∈ excludeNames, name = n) ∨
        ∃ ext ∈ excludeFiles, ∃ front : String, ToLower E name = front ++ ToLower E ext) := by
  rw [← excludedByName_iff, ← excludedByExt_iff]
  unfold shouldExcludeFile
  cases excludedByName name excludeNames <;> cases excludedByExt E name excludeFiles <;> simp

theorem ShouldExcludeFile_eq (E : GoEnv) (name : String) (excludeFiles excludeNames : List String) :
    ShouldExcludeFile E name excludeFiles excludeNames =
      shouldExcludeFile E name excludeFiles excludeNames := rfl

theorem shouldExcludeFolder_iff (name : String) (l : List String) :
    shouldExcludeFolder name l = true ↔ name ∈ l := by
  induction l with
  | nil => simp [shouldExcludeFolder]
  | cons x xs ih =>
    simp only [shouldExcludeFolder, List.mem_cons]
    split
    · simp [*]
    · simp [*]

theorem ShouldExcludeFolder_eq (name : String) (l : List String) :
    ShouldExcludeFolder name l = shouldExcludeFolder name l := by
  induction l with
  | nil => rfl
  | cons x xs ih => simp only [shouldExcludeFolder, ShouldExcludeFolder, ih]

/-- C4: `shouldExcludeFile` (main.go) and `ShouldExcludeFile` (renderer.go) both answer true
exactly when the name is equal to an entry of `excludeNames` or the lowercased name ends
with the lowercased form of an entry of `excludeFiles`; the three cases of the tests
follow, on every host. -/
theorem shouldExcludeFile_spec (E : GoEnv) :
    (∀ (name : String) (excludeFiles excludeNames : List String),
      (shouldExcludeFile E name excludeFiles excludeNames = true ↔
        ((∃ n ∈ excludeNames, name = n) ∨
          ∃ ext ∈ excludeFiles, ∃ front : String,
            ToLower E name = front ++ ToLower E ext)) ∧
      (ShouldExcludeFile E name excludeFiles excludeNames = true ↔
        ((∃ n ∈ excludeNames, name = n) ∨
          ∃ ext ∈ excludeFiles, ∃ front : String,
            ToLower E name = front ++ ToLower E ext))) ∧
    (∀ excludeNames : List String,
      shouldExcludeFile E "program.exe" [".exe", ".dll"] excludeNames = true ∧
      ShouldExcludeFile E "program.exe" [".exe", ".dll"] excludeNames = true) ∧
    (∀ excludeFiles : List String,
      shouldExcludeFile E "config.json" excludeFiles ["config.json", "README.md"] = true ∧
      ShouldExcludeFile E "config.json" excludeFiles ["config.json", "README.md"] = true) ∧
    shouldExcludeFile E "script.js" [".exe", ".dll"] ["config.json", "README.md"] = false ∧
    ShouldExcludeFile E "script.js" [".exe", ".dll"] ["config.json", "README.md"] = false ∧
    shouldExcludeFile E "readme.md" [] ["config.json", "README.md"] = false := by
  have hexe : ∀ excludeNames : List String,
      shouldExcludeFile E "program.exe" [".exe", ".dll"] excludeNames = true := by
    intro excludeNames
    rw [shouldExcludeFile_iff]
    refine Or.inr ⟨".exe", by simp, ToLower E "program", ?_⟩
    apply String.ext
    simp only [ToLower, String.data_append, ← List.map_append]
    rfl
  have hcfg : ∀ excludeFiles : List String,
      shouldExcludeFile E "config.json" excludeFiles ["config.json", "README.md"] = true := by
    intro excludeFiles
    rw [shouldExcludeFile_iff]
    exact Or.inl ⟨"config.json", by simp, rfl⟩
  have hjs : shouldExcludeFile E "script.js" [".exe", ".dll"] ["config.json", "README.md"]
      = false := by
    unfold shouldExcludeFile
    rw [excludedByExt_eq_unix E _ _ (by decide) (by decide)]
    decide
  refine ⟨fun name excludeFiles excludeNames => ⟨shouldExcludeFile_iff E _ _ _, ?_⟩,
    fun excludeNames => ⟨hexe _, ?_⟩, fun excludeFiles => ⟨hcfg _, ?_⟩, hjs, ?_, ?_⟩
  · rw [ShouldExcludeFile_eq]; exact shouldExcludeFile_iff E _ _ _
  · rw [ShouldExcludeFile_eq]; exact hexe _
  · rw [ShouldExcludeFile_eq]; exact hcfg _
  · rw [ShouldExcludeFile_eq]; exact hjs
  · unfold shouldExcludeFile
    rw [excludedByExt_eq_unix E _ _ (by decide) (by decide)]
    decide

/-- C5: `shouldExcludeFolder` (main.go) and `ShouldExcludeFolder` (renderer.go) both answer
true exactly when the name is, as a whole string, an entry of `excludeFolders`; with the
list of the tests, `node_modules`, `bin` and `.git` are excluded and `src`, `lib` are not,
nor is a name that differs from an entry in case or is a part of one. -/
theorem shouldExcludeFolder_spec :
    (∀ (name : String) (excludeFolders : List String),
      (shouldExcludeFolder name excludeFolders = true ↔ name ∈ excludeFolders) ∧
      (ShouldExcludeFolder name excludeFolders = true ↔ name ∈ excludeFolders)) ∧
    (∀ name ∈ ["node_modules", "bin", ".git"],
      shouldExcludeFolder name ["node_modules", "bin", ".git"] = true ∧
      ShouldExcludeFolder name ["node_modules", "bin", ".git"] = true) ∧
    (∀ name ∈ ["src", "lib", "Bin", "node", "*"],
      shouldExcludeFolder name ["node_modules", "bin", ".git"] = false ∧
      ShouldExcludeFolder name ["node_modules", "bin", ".git"] = false) := by
  refine ⟨fun name l => ⟨shouldExcludeFolder_iff name l, ?_⟩, ?_, ?_⟩
  · rw [ShouldExcludeFolder_eq]; exact shouldExcludeFolder_iff name l
  · decide
  · decide

theorem GoEnv.sep_eq (E : GoEnv) (c : Char) (h : c ≠ '\\') :
    E.IsPathSeparator c = (c == '/') := by
  by_cases hc : c = '/'
  · subst hc; rw [E.slash_sep]; rfl
  · have h1 : E.IsPathSeparator c = false := by
      cases hs : E.IsPathSeparator c with
      | false => rfl
      | true => rcases E.sep_cases c hs with h2 | h2 <;> contradiction
    rw [h1]; simp [hc]

theorem extScan_eq_unix (E : GoEnv) (rev acc : List Char) (h : ∀ c ∈ rev, c ≠ '\\') :
    extScan E rev acc = extScan GoEnv.unix rev acc := by
  induction rev generalizing acc with
  | nil => rfl
  | cons c rev ih =>
    simp only [extScan]
    rw [E.sep_eq c (h c (List.mem_cons_self _ _)),
      ih _ (fun d hd => h d (List.mem_cons_of_mem _ hd))]
    rfl

theorem getFileExtension_eq_unix (E : GoEnv) (path : String)
    (h : ∀ c ∈ path.data, c.val < 128 ∧ c ≠ '\\') :
    getFileExtension E path = getFileExtension GoEnv.unix path := by
  have hext : Ext E path = Ext GoEnv.unix path := by
    unfold Ext
    rw [extScan_eq_unix E _ _ (fun c hc => (h c (List.mem_reverse.mp hc)).2)]
  have hsub : ∀ (rev acc : List Char), (∀ c ∈ rev, c.val < 128) → (∀ c ∈ acc, c.val < 128) →
      ∀ c ∈ extScan GoEnv.unix rev acc, c.val < 128 := by
    intro rev
    induction rev with
    | nil => intro acc _ _ c hc; simp [extScan] at hc
    | cons d rev ih =>
      intro acc hr ha c hc
      simp only [extScan] at hc
      split at hc
      · simp at hc
      · split at hc
        · rcases List.mem_cons.mp hc with h1 | h1
          · rw [h1]; exact hr d (List.mem_cons_self _ _)
          · exact ha c h1
        · refine ih (d :: acc) (fun x hx => hr x (List.mem_cons_of_mem _ hx)) ?_ c hc
          intro x hx
          rcases List.mem_cons.mp hx with h1 | h1
          · rw [h1]; exact hr d (List.mem_cons_self _ _)
          · exact ha x h1
  unfold getFileExtension
  rw [hext]
  apply ToLower_eq_unix
  intro c hc
  exact hsub path.data.reverse [] (fun x hx => (h x (List.mem_reverse.mp hx)).1)
    (fun x hx => by simp at hx) c hc

theorem GetFileExtension_eq (E : GoEnv) (path : String) :
    GetFileExtension E path = getFileExtension E path := rfl

theorem GoEnv.dot_not_sep (E : GoEnv) : E.IsPathSeparator '.' = false := by
  cases h : E.IsPathSeparator '.' with
  | false => rfl
  | true => rcases E.sep_cases '.' h with h1 | h1 <;> exact absurd h1 (by decide)

theorem extScan_no_dot (E : GoEnv) (rev acc : List Char) (h : ∀ c ∈ rev, c ≠ '.') :
    extScan E rev acc = [] := by
  induction rev generalizing acc with
  | nil => rfl
  | cons c rev ih =>
    rw [extScan]
    split
    · rfl
    · rw [if_neg (h c (List.mem_cons_self _ _))]
      exact ih _ (fun d hd => h d (List.mem_cons_of_mem _ hd))

theorem extScan_last_dot (E : GoEnv) (r rest acc : List Char)
    (h : ∀ c ∈ r, c ≠ '.' ∧ E.IsPathSeparator c = false) :
    extScan E (r ++ '.' :: rest) acc = '.' :: (r.reverse ++ acc) := by
  induction r generalizing acc with
  | nil =>
    rw [List.nil_append, extScan, E.dot_not_sep]
    simp
  | cons c r ih =>
    obtain ⟨h1, h2⟩ := h c (List.mem_cons_self _ _)
    rw [List.cons_append, extScan, h2, if_neg (by simp), if_neg h1,
      ih _ (fun d hd => h d (List.mem_cons_of_mem _ hd))]
    simp

theorem Ext_no_dot (E : GoEnv) (name : String) (h : ∀ c ∈ name.data, c ≠ '.') :
    Ext E name = "" := by
  unfold Ext
  rw [extScan_no_dot E _ _ (fun c hc => h c (List.mem_reverse.mp hc))]

theorem Ext_last_dot (E : GoEnv) (front ext : List Char)
    (h : ∀ c ∈ ext, c ≠ '.' ∧ E.IsPathSeparator c = false) :
    Ext E ⟨front ++ '.' :: ext⟩ = ⟨'.' :: ext⟩ := by
  unfold Ext
  simp only [List.reverse_append, List.reverse_cons, List.append_assoc,
    List.singleton_append]
  rw [extScan_last_dot E ext.reverse front.reverse []
    (fun c hc => h c (List.mem_reverse.mp hc))]
  simp

/-- C9 (the code departs from the claim at dotfiles): on every host `getFileExtension`
and `GetFileExtension` return the empty string for a name without a dot, and for a name
`front.ext` whose part `ext` after the last dot holds no path separator they return
`.ext` lowercased, also when `front` is empty: a dotfile yields its whole name, so for
".hidden" they return ".hidden" and not the empty string (`filepath.Ext` takes the dot at
index 0 as the start of an extension); the other four cases of `TestGetFileExtension`
hold. -/
theorem getFileExtension_dotfile (E : GoEnv) :
    (∀ name : String, (∀ c ∈ name.data, c ≠ '.') →
      getFileExtension E name = "" ∧ GetFileExtension E name = "") ∧
    (∀ front ext : List Char, (∀ c ∈ ext, c ≠ '.' ∧ E.IsPathSeparator c = false) →
      getFileExtension E ⟨front ++ '.' :: ext⟩ = ToLower E ⟨'.' :: ext⟩ ∧
      GetFileExtension E ⟨front ++ '.' :: ext⟩ = ToLower E ⟨'.' :: ext⟩) ∧
    getFileExtension E ".hidden" = ".hidden" ∧ GetFileExtension E ".hidden" = ".hidden" ∧
    GetFileExtension E ".hidden" ≠ "" ∧
    GetFileExtension E "noextension" = "" ∧ GetFileExtension E "document.PDF" = ".pdf" ∧
    GetFileExtension E "multiple.dots.md" = ".md" ∧
    GetFileExtension E "path/to/image.png" = ".png" := by
  refine ⟨?_, ?_, ?_⟩
  · intro name h
    rw [GetFileExtension, getFileExtension, Ext_no_dot E name h]
    exact ⟨rfl, rfl⟩
  · intro front ext h
    rw [GetFileExtension, getFileExtension, Ext_last_dot E front ext h]
    exact ⟨rfl, rfl⟩
  · simp only [GetFileExtension_eq]
    rw [getFileExtension_eq_unix E ".hidden" (by decide),
      getFileExtension_eq_unix E "noextension" (by decide),
      getFileExtension_eq_unix E "document.PDF" (by decide),
      getFileExtension_eq_unix E "multiple.dots.md" (by decide),
      getFileExtension_eq_unix E "path/to/image.png" (by decide)]
    decide

theorem plainText_append (out : List Chunk) (c : Chunk) :
    plainText (out ++ [c]) = plainText out ++ c.text := by
  simp [plainText, List.foldl_append]

/-- C10: `renderDir` (main.go), `ColorRenderer.RenderDir` and `BasicRenderer.RenderDir`
write the prefix, then the last-item glyph when `isLast` and the mid-item glyph otherwise,
then the name and a newline (the name alone carries the colour attributes), and return
`prefix + Indent` when `isLast` and `prefix + Line` otherwise as child prefix, with
`prefix + Indent` as second component; the returned pair is the same for the three
implementations and does not depend on the colour settings. -/
theorem renderDir_spec (name : String) (isLast : Bool) (pre : String) (config cc : Config)
    (treeChars : TreeChars) (out : List Chunk) :
    let glyph := if isLast then treeChars.LastItem else treeChars.MiddleItem
    let child := if isLast then pre ++ treeChars.Indent else pre ++ treeChars.Line
    let m := renderDir name isLast pre config treeChars out
    let c := ColorRenderer.RenderDir ⟨cc, treeChars⟩ name isLast pre out
    let b := BasicRenderer.RenderDir ⟨treeChars⟩ name isLast pre out
    (∃ attrs, m.1 = out ++ [⟨[], pre⟩, ⟨[], glyph⟩, ⟨attrs, name ++ "\n"⟩]) ∧
    (∃ attrs, c.1 = out ++ [⟨[], pre⟩, ⟨[], glyph⟩, ⟨attrs, name ++ "\n"⟩]) ∧
    b.1 = out ++ [⟨[], pre⟩, ⟨[], glyph⟩, ⟨[], name ++ "\n"⟩] ∧
    plainText m.1 = plainText out ++ pre ++ glyph ++ name ++ "\n" ∧
    plainText c.1 = plainText out ++ pre ++ glyph ++ name ++ "\n" ∧
    plainText b.1 = plainText out ++ pre ++ glyph ++ name ++ "\n" ∧
    m.2 = (child, pre ++ treeChars.Indent) ∧ c.2 = m.2 ∧ b.2 = m.2 := by
  cases isLast <;> cases hC : config.Color <;> cases hB : config.BgColor <;>
    cases hB2 : cc.BgColor <;>
    simp [renderDir, ColorRenderer.RenderDir, BasicRenderer.RenderDir, Print, colorPrint,
      plainText, hC, hB, hB2, String.append_assoc]

/-! ## Properties of the walker -/

theorem Entry.readSize_lt_size (e : Entry) : readSize e.ReadDir < Entry.size e := by
  cases e with
  | mk n d i r => cases r <;> simp [Entry.ReadDir, readSize, Entry.size]

theorem partitionEntries_eq (E : GoEnv) (config : Config) (entries : List Entry) :
    partitionEntries E config entries =
      (entries.filter (keepDir config), entries.filter (keepFile E config)) := by
  induction entries with
  | nil => rfl
  | cons e es ih =>
    simp only [partitionEntries, ih, List.filter_cons, keepDir, keepFile]
    by_cases h1 : e.IsDir = true <;> by_cases h2 : config.ShowFiles = true <;>
      by_cases h3 : shouldExcludeFolder e.Name config.ExcludeFolders = true <;>
      by_cases h4 : shouldExcludeFile E e.Name config.ExcludeFiles config.ExcludeNames = true <;>
      simp [h1, h2, h3, h4]

theorem Entry.mem_sizeList {e : Entry} {l : List Entry} (h : e ∈ l) :
    Entry.size e ≤ Entry.sizeList l := by
  induction l with
  | nil => cases h
  | cons x xs ih =>
    simp only [Entry.sizeList]
    rcases List.mem_cons.mp h with h1 | h1
    · subst h1; omega
    · have := ih h1; omega

/-- Induction over the tree below a directory read. -/
theorem read_induction {P : Except String (List Entry) → Prop}
    (herr : ∀ msg, P (.error msg))
    (hok : ∀ entries, (∀ e ∈ entries, P e.ReadDir) → P (.ok entries)) :
    ∀ read, P read := by
  have key : ∀ n read, readSize read ≤ n → P read := by
    intro n
    induction n with
    | zero =>
      intro read h
      cases read with
      | error msg => exact herr msg
      | ok es => simp [readSize] at h
    | succ n ih =>
      intro read h
      cases read with
      | error msg => exact herr msg
      | ok es =>
        apply hok
        intro e he
        apply ih
        have h1 := Entry.mem_sizeList he
        have h2 := Entry.readSize_lt_size e
        simp only [readSize] at h
        omega
  intro read
  exact key _ read (Nat.le_refl _)

theorem walkDir_ok (E : GoEnv) (config : Config) (path pre lastPrefix : String) (depth : Int)
    (treeChars : TreeChars) (entries : List Entry) (w : World)
    (h : ¬ (config.MaxDepth ≠ -1 ∧ depth > config.MaxDepth)) :
    walkDir E config path pre lastPrefix depth treeChars (.ok entries) w =
      walkFiles E config path pre treeChars (entries.filter (keepFile E config)).length 0
        (entries.filter (keepFile E config))
        (walkDirs E config path pre depth treeChars (entries.filter (keepDir config)).length
          (entries.filter (keepFile E config)).length 0 (entries.filter (keepDir config)) w) := by
  rw [walkDir.eq_def, if_neg h]
  simp only [partitionEntries_eq]

theorem walkDir_cut (E : GoEnv) (config : Config) (path pre lastPrefix : String) (depth : Int)
    (treeChars : TreeChars) (read : Except String (List Entry)) (w : World)
    (h : config.MaxDepth ≠ -1 ∧ depth > config.MaxDepth) :
    walkDir E config path pre lastPrefix depth treeChars read w = w := by
  rw [walkDir.eq_def, if_pos h]

theorem walkDir_error (E : GoEnv) (config : Config) (path pre lastPrefix : String)
    (depth : Int) (treeChars : TreeChars) (msg : String) (w : World)
    (h : ¬ (config.MaxDepth ≠ -1 ∧ depth > config.MaxDepth)) :
    walkDir E config path pre lastPrefix depth treeChars (.error msg) w =
      ⟨w.stats, Print ("Error reading directory " ++ path ++ ": " ++ msg ++ "\n") w.out⟩ := by
  rw [walkDir.eq_def, if_neg h]

/-! ## Wrap-around of int64 sums -/

theorem wrap64_range (x : Int) :
    -9223372036854775808 ≤ wrap64 x ∧ wrap64 x < 9223372036854775808 := by
  unfold wrap64; omega

theorem wrap64_of_range (x : Int) (h1 : -9223372036854775808 ≤ x)
    (h2 : x < 9223372036854775808) : wrap64 x = x := by
  unfold wrap64; omega

theorem wrap64_add (a b : Int) : wrap64 (wrap64 a + b) = wrap64 (a + b) := by
  unfold wrap64; omega

theorem wrap64_congr_add (a b c : Int) (h : wrap64 a = wrap64 b) :
    wrap64 (a + c) = wrap64 (b + c) := by
  unfold wrap64 at *; omega

theorem wrap64_wrap64 (a : Int) : wrap64 (wrap64 a) = wrap64 a := by
  unfold wrap64; omega

@[simp] theorem Stats.addFile_TotalFiles (config : Config) (s : Stats) (p : String) (n : Int)
    (x : String) : (s.addFile config p n x).TotalFiles = s.TotalFiles + 1 := by
  unfold Stats.addFile; split <;> rfl

@[simp] theorem Stats.addFile_TotalSize (config : Config) (s : Stats) (p : String) (n : Int)
    (x : String) : (s.addFile config p n x).TotalSize = add64 s.TotalSize n := by
  unfold Stats.addFile; split <;> rfl

@[simp] theorem Stats.addFile_TotalDirs (config : Config) (s : Stats) (p : String) (n : Int)
    (x : String) : (s.addFile config p n x).TotalDirs = s.TotalDirs := by
  unfold Stats.addFile; split <;> rfl

@[simp] theorem Stats.addFile_FileTypes (config : Config) (s : Stats) (p : String) (n : Int)
    (x : String) : (s.addFile config p n x).FileTypes = mapAdd s.FileTypes x n := by
  unfold Stats.addFile; split <;> rfl

theorem walkFiles_nil (E : GoEnv) (config : Config) (path pre : String) (treeChars : TreeChars)
    (nFiles i : Nat) (w : World) :
    walkFiles E config path pre treeChars nFiles i [] w = w := by
  rw [walkFiles]

theorem walkFiles_cons (E : GoEnv) (config : Config) (path pre : String)
    (treeChars : TreeChars) (nFiles i : Nat) (entry : Entry) (rest : List Entry) (w : World) :
    walkFiles E config path pre treeChars nFiles i (entry :: rest) w =
      walkFiles E config path pre treeChars nFiles (i + 1) rest
        (match entry.Info with
          | .ok info =>
            ⟨w.stats.addFile config (E.Join path entry.Name) info.Size
              (getFileExtension E entry.Name),
              renderFile entry.Name (decide ((i : Int) = (nFiles : Int) - 1)) pre
                info.IsSymlink config treeChars w.out⟩
          | .error err =>
            ⟨w.stats, Print ("Error getting file info for " ++ E.Join path entry.Name ++ ": "
              ++ err ++ "\n") w.out⟩) := by
  rw [walkFiles]
  cases h : entry.Info with
  | error err => rfl
  | ok info => simp only [Stats.addFile]

theorem walkDirs_nil (E : GoEnv) (config : Config) (path pre : String) (depth : Int)
    (treeChars : TreeChars) (nDirs nFiles i : Nat) (w : World) :
    walkDirs E config path pre depth treeChars nDirs nFiles i [] w = w := by
  rw [walkDirs]

theorem walkDirs_cons (E : GoEnv) (config : Config) (path pre : String) (depth : Int)
    (treeChars : TreeChars) (nDirs nFiles i : Nat) (entry : Entry) (rest : List Entry)
    (w : World) :
    walkDirs E config path pre depth treeChars nDirs nFiles i (entry :: rest) w =
      walkDirs E config path pre depth treeChars nDirs nFiles (i + 1) rest
        (walkDir E config (E.Join path entry.Name)
          (renderDir entry.Name (decide ((i : Int) = (nDirs : Int) - 1) && decide (nFiles = 0))
            pre config treeChars w.out).2.1
          (renderDir entry.Name (decide ((i : Int) = (nDirs : Int) - 1) && decide (nFiles = 0))
            pre config treeChars w.out).2.2
          (depth + 1) treeChars entry.ReadDir
          ⟨w.stats.addDir,
            (renderDir entry.Name
              (decide ((i : Int) = (nDirs : Int) - 1) && decide (nFiles = 0))
              pre config treeChars w.out).1⟩) := by
  rw [walkDirs]
  rfl

/-- A property of the Stats that every counting step keeps is kept by the file loop. -/
theorem walkFiles_invariant (E : GoEnv) (config : Config) (I : Stats → Prop)
    (hfile : ∀ s p n x, I s → I (s.addFile config p n x))
    (path pre : String) (treeChars : TreeChars) (nFiles : Nat) (files : List Entry) :
    ∀ (i : Nat) (w : World), I w.stats →
      I (walkFiles E config path pre treeChars nFiles i files w).stats := by
  induction files with
  | nil => intro i w h; rw [walkFiles_nil]; exact h
  | cons e rest ih =>
    intro i w h
    rw [walkFiles_cons]
    apply ih
    cases e.Info with
    | error err => exact h
    | ok info => exact hfile _ _ _ _ h

/-- A property of the Stats that every counting step keeps is kept by a walk. -/
theorem walkDir_invariant (E : GoEnv) (config : Config) (I : Stats → Prop)
    (hdir : ∀ s, I s → I s.addDir)
    (hfile : ∀ s p n x, I s → I (s.addFile config p n x))
    (treeChars : TreeChars) (read : Except String (List Entry)) :
    ∀ (path pre lastPrefix : String) (depth : Int) (w : World), I w.stats →
      I (walkDir E config path pre lastPrefix depth treeChars read w).stats := by
  induction read using read_induction with
  | herr msg =>
    intro path pre lastPrefix depth w h
    by_cases hc : config.MaxDepth ≠ -1 ∧ depth > config.MaxDepth
    · rw [walkDir_cut _ _ _ _ _ _ _ _ _ hc]; exact h
    · rw [walkDir_error _ _ _ _ _ _ _ _ _ hc]; exact h
  | hok entries ih =>
    intro path pre lastPrefix depth w h
    by_cases hc : config.MaxDepth ≠ -1 ∧ depth > config.MaxDepth
    · rw [walkDir_cut _ _ _ _ _ _ _ _ _ hc]; exact h
    · rw [walkDir_ok _ _ _ _ _ _ _ _ _ hc]
      apply walkFiles_invariant E config I hfile
      have hdirs : ∀ (dirs : List Entry), (∀ e ∈ dirs, e ∈ entries) →
          ∀ (nDirs nFiles i : Nat) (w : World), I w.stats →
          I (walkDirs E config path pre depth treeChars nDirs nFiles i dirs w).stats := by
        intro dirs
        induction dirs with
        | nil => intro _ nDirs nFiles i w h; rw [walkDirs_nil]; exact h
        | cons e rest ihd =>
          intro hmem nDirs nFiles i w h
          rw [walkDirs_cons]
          apply ihd (fun x hx => hmem x (List.mem_cons_of_mem _ hx))
          apply ih e (hmem e (List.mem_cons_self _ _))
          exact hdir _ h
      exact hdirs _ (fun e he => (List.mem_filter.mp he).1) _ _ _ _ h

theorem walkFiles_account (E : GoEnv) (config : Config) (path pre : String)
    (treeChars : TreeChars) (nFiles : Nat) (files : List Entry) :
    ∀ (i : Nat) (w : World),
      (walkFiles E config path pre treeChars nFiles i files w).stats.TotalDirs =
        w.stats.TotalDirs ∧
      (walkFiles E config path pre treeChars nFiles i files w).stats.TotalFiles =
        w.stats.TotalFiles + (readableSizes files).length ∧
      wrap64 (walkFiles E config path pre treeChars nFiles i files w).stats.TotalSize =
        wrap64 (w.stats.TotalSize + (readableSizes files).sum) ∧
      (-9223372036854775808 ≤ w.stats.TotalSize ∧ w.stats.TotalSize < 9223372036854775808 →
        -9223372036854775808 ≤
          (walkFiles E config path pre treeChars nFiles i files w).stats.TotalSize ∧
        (walkFiles E config path pre treeChars nFiles i files w).stats.TotalSize <
          9223372036854775808) := by
  induction files with
  | nil => intro i w; rw [walkFiles_nil]; simp [readableSizes]
  | cons e rest ih =>
    intro i w
    rw [walkFiles_cons]
    obtain ⟨h1, h2, h3, h4⟩ := ih (i + 1)
      (match e.Info with
        | .ok info =>
          ⟨w.stats.addFile config (E.Join path e.Name) info.Size (getFileExtension E e.Name),
            renderFile e.Name (decide ((i : Int) = (nFiles : Int) - 1)) pre
              info.IsSymlink config treeChars w.out⟩
        | .error err =>
          ⟨w.stats, Print ("Error getting file info for " ++ E.Join path e.Name ++ ": "
            ++ err ++ "\n") w.out⟩)
    rw [h1, h2, h3]
    cases h : e.Info with
    | error err =>
      rw [h] at h4
      simp only [readableSizes, Entry.readableSize, infoSize, h, List.nil_append]
      exact ⟨trivial, trivial, trivial, h4⟩
    | ok info =>
      rw [h] at h4
      simp only [readableSizes, Entry.readableSize, infoSize, h, Stats.addFile_TotalDirs,
        Stats.addFile_TotalFiles, Stats.addFile_TotalSize, List.singleton_append,
        List.length_cons, List.sum_cons] at h4 ⊢
      refine ⟨trivial, ?_, ?_, ?_⟩
      · push_cast; omega
      · unfold add64
        rw [wrap64_add, Int.add_assoc]
      · intro _
        exact h4 (wrap64_range _)

theorem withinDepth_iff (config : Config) (depth : Int) :
    withinDepth config depth = true ↔ ¬ (config.MaxDepth ≠ -1 ∧ depth > config.MaxDepth) := by
  unfold withinDepth
  simp only [Bool.or_eq_true, decide_eq_true_eq]
  constructor
  · rintro (h | h) ⟨h1, h2⟩
    · exact h1 h
    · omega
  · intro h
    by_cases h1 : config.MaxDepth = -1
    · exact Or.inl h1
    · right
      by_contra h2
      exact h ⟨h1, by omega⟩

theorem countedSizesEntry_eq (E : GoEnv) (config : Config) (depth : Int) (e : Entry) :
    countedSizesEntry E config depth e =
      if keepDir config e then countedSizes E config (depth + 1) e.ReadDir
      else if keepFile E config e then readableSizes [e] else [] := by
  cases e with
  | mk name isDir info read =>
    rw [countedSizesEntry]
    simp only [keepDir, keepFile, Entry.IsDir, Entry.Name, Entry.ReadDir,
      readableSizes, Entry.readableSize, Entry.Info, List.append_nil]
    cases isDir <;> by_cases h : shouldExcludeFolder name config.ExcludeFolders = true <;>
      simp [h]

theorem countedDirsEntry_eq (config : Config) (depth : Int) (e : Entry) :
    countedDirsEntry config depth e =
      if keepDir config e then 1 + countedDirs config (depth + 1) e.ReadDir else 0 := by
  cases e with
  | mk name isDir info read =>
    rw [countedDirsEntry]
    simp only [keepDir, Entry.IsDir, Entry.Name, Entry.ReadDir]

theorem keep_exclusive (E : GoEnv) (config : Config) (e : Entry) :
    keepDir config e = true → keepFile E config e = false := by
  unfold keepDir keepFile
  cases e.IsDir <;> simp

theorem readableSizes_append (l₁ l₂ : List Entry) :
    readableSizes (l₁ ++ l₂) = readableSizes l₁ ++ readableSizes l₂ := by
  induction l₁ with
  | nil => rfl
  | cons e es ih =>
    show readableSizes (e :: (es ++ l₂)) = _
    simp only [readableSizes, ih, List.append_assoc]

theorem countedSizesList_perm (E : GoEnv) (config : Config) (depth : Int)
    (entries : List Entry) :
    (countedSizesList E config depth entries).Perm
      (sizesBelow E config depth (entries.filter (keepDir config)) ++
        readableSizes (entries.filter (keepFile E config))) := by
  induction entries with
  | nil => simp [countedSizesList, sizesBelow, readableSizes]
  | cons e es ih =>
    rw [countedSizesList, countedSizesEntry_eq, List.filter_cons, List.filter_cons]
    by_cases h1 : keepDir config e = true
    · rw [if_pos h1, if_pos h1, keep_exclusive E config e h1]
      simp only [Bool.false_eq_true, if_false, sizesBelow, List.append_assoc]
      exact List.Perm.append_left _ ih
    · rw [if_neg h1, if_neg h1]
      by_cases h2 : keepFile E config e = true
      · rw [if_pos h2, if_pos h2]
        have : readableSizes (e :: es.filter (keepFile E config)) =
            readableSizes [e] ++ readableSizes (es.filter (keepFile E config)) := by
          rw [← readableSizes_append]; rfl
        rw [this]
        refine (List.Perm.append_left _ ih).trans ?_
        rw [← List.append_assoc, ← List.append_assoc]
        exact List.Perm.append_right _ List.perm_append_comm
      · rw [if_neg h2, if_neg h2]
        simpa using ih

theorem countedDirsList_eq (config : Config) (depth : Int)
    (entries : List Entry) :
    countedDirsList config depth entries =
      dirsBelow config depth (entries.filter (keepDir config)) := by
  induction entries with
  | nil => rfl
  | cons e es ih =>
    rw [countedDirsList, countedDirsEntry_eq, List.filter_cons, ih]
    by_cases h1 : keepDir config e = true
    · rw [if_pos h1, if_pos h1]; rfl
    · rw [if_neg h1, if_neg h1]; omega

/-- What a walk adds to the three counters: the counted directories, and the number and
the total size of the counted files; the total size wraps around as an int64 does. -/
theorem walkDir_account (E : GoEnv) (config : Config) (treeChars : TreeChars)
    (read : Except String (List Entry)) :
    ∀ (path pre lastPrefix : String) (depth : Int) (w : World),
      (walkDir E config path pre lastPrefix depth treeChars read w).stats.TotalDirs =
        w.stats.TotalDirs + countedDirs config depth read ∧
      (walkDir E config path pre lastPrefix depth treeChars read w).stats.TotalFiles =
        w.stats.TotalFiles + (countedSizes E config depth read).length ∧
      wrap64 (walkDir E config path pre lastPrefix depth treeChars read w).stats.TotalSize =
        wrap64 (w.stats.TotalSize + (countedSizes E config depth read).sum) ∧
      (-9223372036854775808 ≤ w.stats.TotalSize ∧ w.stats.TotalSize < 9223372036854775808 →
        -9223372036854775808 ≤
          (walkDir E config path pre lastPrefix depth treeChars read w).stats.TotalSize ∧
        (walkDir E config path pre lastPrefix depth treeChars read w).stats.TotalSize <
          9223372036854775808) := by
  induction read using read_induction with
  | herr msg =>
    intro path pre lastPrefix depth w
    by_cases hc : config.MaxDepth ≠ -1 ∧ depth > config.MaxDepth
    · rw [walkDir_cut _ _ _ _ _ _ _ _ _ hc]; simp [countedDirs, countedSizes]
    · rw [walkDir_error _ _ _ _ _ _ _ _ _ hc]; simp [countedDirs, countedSizes]
  | hok entries ih =>
    intro path pre lastPrefix depth w
    by_cases hc : config.MaxDepth ≠ -1 ∧ depth > config.MaxDepth
    · have hw : withinDepth config depth = false := by
        rw [← Bool.not_eq_true, withinDepth_iff]; exact not_not.mpr hc
      rw [walkDir_cut _ _ _ _ _ _ _ _ _ hc]
      simp [countedDirs, countedSizes, hw]
    · have hw : withinDepth config depth = true := (withinDepth_iff _ _).mpr hc
      rw [walkDir_ok _ _ _ _ _ _ _ _ _ hc]
      have hdirs : ∀ (dirs : List Entry), (∀ e ∈ dirs, e ∈ entries) →
          ∀ (nDirs nFiles i : Nat) (w : World),
          (walkDirs E config path pre depth treeChars nDirs nFiles i dirs w).stats.TotalDirs =
            w.stats.TotalDirs + dirsBelow config depth dirs ∧
          (walkDirs E config path pre depth treeChars nDirs nFiles i dirs w).stats.TotalFiles =
            w.stats.TotalFiles + (sizesBelow E config depth dirs).length ∧
          wrap64 (walkDirs E config path pre depth treeChars nDirs nFiles i dirs
              w).stats.TotalSize =
            wrap64 (w.stats.TotalSize + (sizesBelow E config depth dirs).sum) ∧
          (-9223372036854775808 ≤ w.stats.TotalSize ∧
              w.stats.TotalSize < 9223372036854775808 →
            -9223372036854775808 ≤
              (walkDirs E config path pre depth treeChars nDirs nFiles i dirs
                w).stats.TotalSize ∧
            (walkDirs E config path pre depth treeChars nDirs nFiles i dirs
                w).stats.TotalSize < 9223372036854775808) := by
        intro dirs
        induction dirs with
        | nil => intro _ nDirs nFiles i w; rw [walkDirs_nil]; simp [dirsBelow, sizesBelow]
        | cons e rest ihd =>
          intro hmem nDirs nFiles i w
          rw [walkDirs_cons]
          obtain ⟨a1, a2, a3, a4⟩ := ihd (fun x hx => hmem x (List.mem_cons_of_mem _ hx))
            nDirs nFiles (i + 1)
            (walkDir E config (E.Join path e.Name)
              (renderDir e.Name (decide ((i : Int) = (nDirs : Int) - 1) && decide (nFiles = 0))
                pre config treeChars w.out).2.1
              (renderDir e.Name (decide ((i : Int) = (nDirs : Int) - 1) && decide (nFiles = 0))
                pre config treeChars w.out).2.2
              (depth + 1) treeChars e.ReadDir
              ⟨w.stats.addDir,
                (renderDir e.Name
                  (decide ((i : Int) = (nDirs : Int) - 1) && decide (nFiles = 0))
                  pre config treeChars w.out).1⟩)
          obtain ⟨b1, b2, b3, b4⟩ := ih e (hmem e (List.mem_cons_self _ _))
            (E.Join path e.Name)
            (renderDir e.Name (decide ((i : Int) = (nDirs : Int) - 1) && decide (nFiles = 0))
              pre config treeChars w.out).2.1
            (renderDir e.Name (decide ((i : Int) = (nDirs : Int) - 1) && decide (nFiles = 0))
              pre config treeChars w.out).2.2
            (depth + 1)
            ⟨w.stats.addDir,
              (renderDir e.Name
                (decide ((i : Int) = (nDirs : Int) - 1) && decide (nFiles = 0))
                pre config treeChars w.out).1⟩
          rw [a1, a2, a3, b1, b2]
          have b3s := wrap64_congr_add _ _ (sizesBelow E config depth rest).sum b3
          simp only [Stats.addDir, dirsBelow, sizesBelow, List.length_append,
            List.sum_append] at b3s b4 ⊢
          refine ⟨?_, ?_, ?_, ?_⟩
          · omega
          · push_cast; omega
          · rw [b3s, Int.add_assoc]
          · intro hr
            exact a4 (b4 hr)
      obtain ⟨f1, f2, f3, f4⟩ := walkFiles_account E config path pre treeChars
        (entries.filter (keepFile E config)).length (entries.filter (keepFile E config)) 0
        (walkDirs E config path pre depth treeChars (entries.filter (keepDir config)).length
          (entries.filter (keepFile E config)).length 0 (entries.filter (keepDir config)) w)
      obtain ⟨d1, d2, d3, d4⟩ := hdirs (entries.filter (keepDir config))
        (fun e he => (List.mem_filter.mp he).1) (entries.filter (keepDir config)).length
        (entries.filter (keepFile E config)).length 0 w
      have hp := countedSizesList_perm E config depth entries
      have d3s := wrap64_congr_add _ _ (readableSizes (entries.filter (keepFile E config))).sum
        d3
      rw [f1, f2, f3, d1, d2, d3s]
      simp only [countedDirs, countedSizes, hw, if_true, countedDirsList_eq, hp.length_eq,
        hp.sum_eq, List.length_append, List.sum_append]
      refine ⟨trivial, ?_, ?_, ?_⟩
      · push_cast; omega
      · rw [Int.add_assoc]
      · intro hr
        exact f4 (d4 hr)

/-- C2 as amended: after a walk from the empty Stats, `TotalFiles` is the number of the
counted files (the files that passed the Filter, were reached within the depth limit and
whose metadata was read), and `TotalSize` is the integer sum of their sizes reduced to the
int64 range by the wrap-around of `+=`: it is exactly that sum, with no rounding, whenever
the sum is an int64 value. -/
theorem walkDir_TotalSize_exact (E : GoEnv) (config : Config) (path pre lastPrefix : String)
    (depth : Int) (treeChars : TreeChars) (read : Except String (List Entry))
    (out : List Chunk) :
    (walkDir E config path pre lastPrefix depth treeChars read ⟨Stats.empty, out⟩).stats.TotalFiles
      = (countedSizes E config depth read).length ∧
    (walkDir E config path pre lastPrefix depth treeChars read ⟨Stats.empty, out⟩).stats.TotalSize
      = wrap64 (countedSizes E config depth read).sum ∧
    (-9223372036854775808 ≤ (countedSizes E config depth read).sum →
      (countedSizes E config depth read).sum < 9223372036854775808 →
      (walkDir E config path pre lastPrefix depth treeChars read
          ⟨Stats.empty, out⟩).stats.TotalSize = (countedSizes E config depth read).sum) := by
  obtain ⟨_, h2, h3, h4⟩ := walkDir_account E config treeChars read path pre lastPrefix depth
    ⟨Stats.empty, out⟩
  have hr := h4 (by simp [Stats.empty])
  have h5 : (walkDir E config path pre lastPrefix depth treeChars read
      ⟨Stats.empty, out⟩).stats.TotalSize = wrap64 (countedSizes E config depth read).sum := by
    rw [← wrap64_of_range _ hr.1 hr.2, h3]
    simp [Stats.empty]
  refine ⟨?_, h5, ?_⟩
  · rw [h2]; simp [Stats.empty]
  · intro l u
    rw [h5, wrap64_of_range _ l u]

/-- The counterexample to C2 as stated: two files of `2 ^ 62` bytes are both counted, the
sum of their sizes is `2 ^ 63`, and `TotalSize` is `-2 ^ 63`. -/
theorem walkDir_TotalSize_claim_fails :
    ¬ TotalSizeClaim GoEnv.unix specConfig "root" 0 (getTreeChars true false) (.ok hugeTree) ∧
    (walkDir GoEnv.unix specConfig "root" "" "" 0 (getTreeChars true false) (.ok hugeTree)
      ⟨Stats.empty, []⟩).stats.TotalFiles = 2 ∧
    (walkDir GoEnv.unix specConfig "root" "" "" 0 (getTreeChars true false) (.ok hugeTree)
      ⟨Stats.empty, []⟩).stats.TotalSize = -9223372036854775808 ∧
    (countedSizes GoEnv.unix specConfig 0 (.ok hugeTree)).sum = 9223372036854775808 := by
  have hs : countedSizes GoEnv.unix specConfig 0 (.ok hugeTree) =
      [4611686018427387904, 4611686018427387904] := by decide
  have t1 : getFileExtension GoEnv.unix "a.bin" = ".bin" := by decide
  have t2 : getFileExtension GoEnv.unix "b.bin" = ".bin" := by decide
  have x1 : shouldExcludeFile GoEnv.unix "a.bin" [] [] = false := by decide
  have x2 : shouldExcludeFile GoEnv.unix "b.bin" [] [] = false := by decide
  have hj : ∀ a b : String, GoEnv.unix.Join a b = a ++ "/" ++ b := fun _ _ => rfl
  have hw : (walkDir GoEnv.unix specConfig "root" "" "" 0 (getTreeChars true false)
      (.ok hugeTree) ⟨Stats.empty, []⟩).stats =
      ⟨0, 2, -9223372036854775808, [(".bin", -9223372036854775808)],
        [⟨"root/a.bin", 4611686018427387904, ".bin"⟩,
          ⟨"root/b.bin", 4611686018427387904, ".bin"⟩]⟩ := by
    simp [walkDir_ok, walkDirs_nil, walkFiles_cons, walkFiles_nil, hugeTree, specConfig,
      keepDir, keepFile, Entry.file, Entry.Name, Entry.IsDir, Entry.Info, Entry.ReadDir,
      Stats.empty, Stats.addFile, mapAdd, add64, wrap64, t1, t2, x1, x2, hj]
  refine ⟨?_, by rw [hw], by rw [hw], by rw [hs]; decide⟩
  unfold TotalSizeClaim
  rw [hw, hs]
  decide

theorem NoReadErrors_cons (e : Entry) (es : List Entry) :
    NoReadErrors (e :: es) = true ↔ NoReadErrorsEntry e = true ∧ NoReadErrors es = true := by
  rw [NoReadErrors, Bool.and_eq_true]

theorem counted_entry_eq (E : GoEnv) (config : Config) (hfiles : config.ShowFiles = true)
    (hdepth : config.MaxDepth = -1) (e : Entry)
    (H : ∀ cs, e.ReadDir = .ok cs → walkReadable E config cs = true → ∀ depth : Int,
      ((countedSizesList E config depth cs).length : Int) = countFiles E config cs ∧
      countedDirsList config depth cs = countDirs config cs)
    (hne : walkReadableEntry E config e = true) (depth : Int) :
    ((countedSizesEntry E config depth e).length : Int) = countFilesEntry E config e ∧
      countedDirsEntry config depth e = countDirsEntry config e := by
  have hw : ∀ depth, withinDepth config depth = true := by
    intro depth; simp [withinDepth, hdepth]
  cases e with
  | mk name isDir info read =>
    rw [countedSizesEntry, countFilesEntry, countedDirsEntry, countDirsEntry]
    rw [walkReadableEntry] at hne
    cases isDir with
    | true =>
      by_cases hx : shouldExcludeFolder name config.ExcludeFolders = true
      · simp [hx]
      · cases read with
        | error msg => rw [walkReadableRead] at hne; simp [hx] at hne
        | ok cs =>
          have hcs : walkReadable E config cs = true := by
            rw [walkReadableRead] at hne; simpa [hx] using hne
          obtain ⟨c1, c2⟩ := H cs rfl hcs (depth + 1)
          rw [countedSizes, countedDirs, countFilesRead, countDirsRead]
          simp [hx, hw, c1, c2]
    | false =>
      by_cases hx : shouldExcludeFile E name config.ExcludeFiles config.ExcludeNames = true
      · simp [hx]
      · cases info with
        | error msg => simp [infoOk, hx, hfiles] at hne
        | ok m => simp [hx, hfiles, infoSize]

/-- When the walk meets no read error, with files shown and no depth limit, the counted
files and directories are the ones the Filter does not exclude. -/
theorem counted_eq_count (E : GoEnv) (config : Config) (hfiles : config.ShowFiles = true)
    (hdepth : config.MaxDepth = -1) (read : Except String (List Entry)) :
    ∀ entries, read = .ok entries → walkReadable E config entries = true → ∀ depth : Int,
      ((countedSizesList E config depth entries).length : Int) = countFiles E config entries ∧
      countedDirsList config depth entries = countDirs config entries := by
  induction read using read_induction with
  | herr msg => intro entries h; cases h
  | hok es ih =>
    intro entries h
    cases h
    have main : ∀ l : List Entry, (∀ e ∈ l, e ∈ es) → walkReadable E config l = true →
        ∀ depth : Int,
        ((countedSizesList E config depth l).length : Int) = countFiles E config l ∧
        countedDirsList config depth l = countDirs config l := by
      intro l
      induction l with
      | nil => intro _ _ depth; simp [countedSizesList, countFiles, countedDirsList, countDirs]
      | cons e rest ihl =>
        intro hmem hne depth
        rw [walkReadable, Bool.and_eq_true] at hne
        obtain ⟨r1, r2⟩ := ihl (fun x hx => hmem x (List.mem_cons_of_mem _ hx)) hne.2 depth
        obtain ⟨e1, e2⟩ := counted_entry_eq E config hfiles hdepth e
          (ih e (hmem e (List.mem_cons_self _ _))) hne.1 depth
        rw [countedSizesList, countFiles, countedDirsList, countDirs, List.length_append]
        push_cast
        rw [r1, r2, e1, e2]
        exact ⟨rfl, rfl⟩
    exact main es (fun e he => he)

/-- The counts of non-excluded files and directories, and the absence of read errors,
do not depend on the order in which directories enumerate their entries. -/
theorem Reorder.counts {E : GoEnv} {config : Config} {l l' : List Entry} (h : Reorder l l') :
    countFiles E config l = countFiles E config l' ∧ countDirs config l = countDirs config l' ∧
      NoReadErrors l = NoReadErrors l' ∧ walkReadable E config l = walkReadable E config l' := by
  induction h with
  | nil => exact ⟨rfl, rfl, rfl, rfl⟩
  | cons e _ ih =>
    obtain ⟨a, b, c, d⟩ := ih
    rw [countFiles, countFiles, countDirs, countDirs, NoReadErrors, NoReadErrors,
      walkReadable, walkReadable, a, b, c, d]
    exact ⟨rfl, rfl, rfl, rfl⟩
  | inside name isDir info _ _ ih1 ih2 =>
    obtain ⟨a1, b1, c1, d1⟩ := ih1
    obtain ⟨a2, b2, c2, d2⟩ := ih2
    rw [countFiles, countFiles, countDirs, countDirs, NoReadErrors, NoReadErrors,
      walkReadable, walkReadable,
      countFilesEntry, countFilesEntry, countDirsEntry, countDirsEntry, NoReadErrorsEntry,
      NoReadErrorsEntry, walkReadableEntry, walkReadableEntry, countFilesRead,
      countFilesRead, countDirsRead, countDirsRead,
      NoReadErrorsRead, NoReadErrorsRead, walkReadableRead, walkReadableRead,
      a1, b1, c1, d1, a2, b2, c2, d2]
    exact ⟨rfl, rfl, rfl, rfl⟩
  | swap a b l =>
    rw [countFiles, countFiles, countFiles, countFiles, countDirs, countDirs, countDirs,
      countDirs, NoReadErrors, NoReadErrors, NoReadErrors, NoReadErrors, walkReadable,
      walkReadable, walkReadable, walkReadable]
    refine ⟨by omega, by omega, ?_, ?_⟩
    · cases NoReadErrorsEntry a <;> cases NoReadErrorsEntry b <;> rfl
    · cases walkReadableEntry E config a <;> cases walkReadableEntry E config b <;> rfl
  | trans _ _ ih1 ih2 =>
    exact ⟨ih1.1.trans ih2.1, ih1.2.1.trans ih2.2.1, ih1.2.2.1.trans ih2.2.2.1,
      ih1.2.2.2.trans ih2.2.2.2⟩

theorem getFileExtension_txt (E : GoEnv) :
    getFileExtension E "a.txt" = ".txt" ∧ getFileExtension E "b.txt" = ".txt" := by
  rw [getFileExtension_eq_unix E "a.txt" (by decide),
    getFileExtension_eq_unix E "b.txt" (by decide)]
  decide

/-- C1: with files shown, no depth limit and no read error met by the walk (what lies under
an excluded directory and the metadata of excluded files are never read and may be
unreadable), a walk from the empty Stats ends with `TotalFiles` the number of files the
Filter does not exclude and `TotalDirs` the number of directories below the root it does
not exclude (nothing under an excluded directory counts), whatever the order in which the
directories enumerate their entries;
on the example tree of the specification the result is `TotalDirs = 1`, `TotalFiles = 2`,
`TotalSize = 15` and `FileTypes[".txt"] = 15`. -/
theorem walkDir_counts (E : GoEnv) (config : Config) (path pre lastPrefix : String)
    (treeChars : TreeChars) (entries : List Entry) (out : List Chunk)
    (hfiles : config.ShowFiles = true) (hdepth : config.MaxDepth = -1)
    (herr : walkReadable E config entries = true) :
    ((walkDir E config path pre lastPrefix 0 treeChars (.ok entries)
        ⟨Stats.empty, out⟩).stats.TotalFiles = countFiles E config entries ∧
      (walkDir E config path pre lastPrefix 0 treeChars (.ok entries)
        ⟨Stats.empty, out⟩).stats.TotalDirs = countDirs config entries) ∧
    (∀ entries', Reorder entries entries' →
      (walkDir E config path pre lastPrefix 0 treeChars (.ok entries')
          ⟨Stats.empty, out⟩).stats.TotalFiles =
        (walkDir E config path pre lastPrefix 0 treeChars (.ok entries)
          ⟨Stats.empty, out⟩).stats.TotalFiles ∧
      (walkDir E config path pre lastPrefix 0 treeChars (.ok entries')
          ⟨Stats.empty, out⟩).stats.TotalDirs =
        (walkDir E config path pre lastPrefix 0 treeChars (.ok entries)
          ⟨Stats.empty, out⟩).stats.TotalDirs) ∧
    ((walkDir E specConfig path pre lastPrefix 0 treeChars (.ok specTree)
        ⟨Stats.empty, out⟩).stats.TotalDirs = 1 ∧
      (walkDir E specConfig path pre lastPrefix 0 treeChars (.ok specTree)
        ⟨Stats.empty, out⟩).stats.TotalFiles = 2 ∧
      (walkDir E specConfig path pre lastPrefix 0 treeChars (.ok specTree)
        ⟨Stats.empty, out⟩).stats.TotalSize = 15 ∧
      mapGet (walkDir E specConfig path pre lastPrefix 0 treeChars (.ok specTree)
        ⟨Stats.empty, out⟩).stats.FileTypes ".txt" = 15) := by
  have key : ∀ l : List Entry, walkReadable E config l = true →
      (walkDir E config path pre lastPrefix 0 treeChars (.ok l)
          ⟨Stats.empty, out⟩).stats.TotalFiles = countFiles E config l ∧
        (walkDir E config path pre lastPrefix 0 treeChars (.ok l)
          ⟨Stats.empty, out⟩).stats.TotalDirs = countDirs config l := by
    intro l hl
    obtain ⟨h1, h2, _, _⟩ := walkDir_account E config treeChars (.ok l) path pre lastPrefix 0
      ⟨Stats.empty, out⟩
    obtain ⟨c1, c2⟩ := counted_eq_count E config hfiles hdepth (.ok l) l rfl hl 0
    have hw : withinDepth config 0 = true := by simp [withinDepth, hdepth]
    rw [h1, h2]
    simp only [countedSizes, countedDirs, hw, if_true, c1, c2, Stats.empty]
    omega
  refine ⟨key entries herr, ?_, ?_⟩
  · intro entries' hre
    obtain ⟨r1, r2, _, r3⟩ := @Reorder.counts E config _ _ hre
    obtain ⟨k1, k2⟩ := key entries herr
    obtain ⟨k3, k4⟩ := key entries' (by rw [← r3]; exact herr)
    rw [k1, k2, k3, k4, r1, r2]
    exact ⟨rfl, rfl⟩
  · obtain ⟨t1, t2⟩ := getFileExtension_txt E
    simp [walkDir_ok, walkDirs_cons, walkDirs_nil, walkFiles_cons, walkFiles_nil, specTree,
      specConfig, keepDir, keepFile, Entry.file, Entry.dir, Entry.Name, Entry.IsDir,
      Entry.Info, Entry.ReadDir, shouldExcludeFolder, shouldExcludeFile, excludedByName,
      excludedByExt, Stats.empty, Stats.addDir, Stats.addFile, mapAdd, mapGet, add64, wrap64,
      t1, t2]

/-- Witness for C1 on the example tree of the specification when the excluded directory
`node_modules` cannot be read, on a Unix host, also with the first two entries of the root
enumerated in the other order. -/
theorem walkDir_counts_witness :
    specConfig.ShowFiles = true ∧ specConfig.MaxDepth = -1 ∧
    walkReadable GoEnv.unix specConfig lockedTree = true ∧
    NoReadErrors lockedTree = false ∧
    Reorder lockedTree
      [Entry.dir "sub" [Entry.file "b.txt" 10], Entry.file "a.txt" 5,
        .mk "node_modules" true (.ok ⟨0, false⟩) (.error "permission denied")] ∧
    ((walkDir GoEnv.unix specConfig "root" "" "" 0 (getTreeChars true false) (.ok lockedTree)
        ⟨Stats.empty, []⟩).stats.TotalFiles = countFiles GoEnv.unix specConfig lockedTree ∧
      (walkDir GoEnv.unix specConfig "root" "" "" 0 (getTreeChars true false) (.ok lockedTree)
        ⟨Stats.empty, []⟩).stats.TotalDirs = countDirs specConfig lockedTree) ∧
    ((walkDir GoEnv.unix specConfig "root" "" "" 0 (getTreeChars true false)
        (.ok [Entry.dir "sub" [Entry.file "b.txt" 10], Entry.file "a.txt" 5,
          .mk "node_modules" true (.ok ⟨0, false⟩) (.error "permission denied")])
        ⟨Stats.empty, []⟩).stats.TotalFiles =
      (walkDir GoEnv.unix specConfig "root" "" "" 0 (getTreeChars true false) (.ok lockedTree)
        ⟨Stats.empty, []⟩).stats.TotalFiles ∧
    (walkDir GoEnv.unix specConfig "root" "" "" 0 (getTreeChars true false)
        (.ok [Entry.dir "sub" [Entry.file "b.txt" 10], Entry.file "a.txt" 5,
          .mk "node_modules" true (.ok ⟨0, false⟩) (.error "permission denied")])
        ⟨Stats.empty, []⟩).stats.TotalDirs =
      (walkDir GoEnv.unix specConfig "root" "" "" 0 (getTreeChars true false) (.ok lockedTree)
        ⟨Stats.empty, []⟩).stats.TotalDirs) :=
  ⟨rfl, rfl, by decide, by decide, Reorder.swap _ _ _,
    (walkDir_counts GoEnv.unix specConfig "root" "" "" (getTreeChars true false) lockedTree []
      rfl rfl (by decide)).1,
    (walkDir_counts GoEnv.unix specConfig "root" "" "" (getTreeChars true false) lockedTree []
      rfl rfl (by decide)).2.1 _ (Reorder.swap _ _ _)⟩

/-- The model reproduces what `TestWalkDir` expects: 4 directories, 3 files, a `.txt`
entry in `FileTypes` and no `.exe` entry. -/
theorem walkDir_TestWalkDir :
    (walkDir GoEnv.unix testConfig "tmp" "" "" 0 (getTreeChars true false) (.ok testTree)
        ⟨Stats.empty, []⟩).stats.TotalDirs = 4 ∧
    (walkDir GoEnv.unix testConfig "tmp" "" "" 0 (getTreeChars true false) (.ok testTree)
        ⟨Stats.empty, []⟩).stats.TotalFiles = 3 ∧
    (walkDir GoEnv.unix testConfig "tmp" "" "" 0 (getTreeChars true false) (.ok testTree)
        ⟨Stats.empty, []⟩).stats.FileTypes = [(".txt", 96)] := by
  have t1 : getFileExtension GoEnv.unix "file1.txt" = ".txt" := by decide
  have t3 : getFileExtension GoEnv.unix "file3.txt" = ".txt" := by decide
  have t4 : getFileExtension GoEnv.unix "file4.txt" = ".txt" := by decide
  have x1 : shouldExcludeFile GoEnv.unix "file1.txt" [".exe"] ["README.md"] = false := by
    decide
  have x2 : shouldExcludeFile GoEnv.unix "file2.exe" [".exe"] ["README.md"] = true := by
    decide
  have x3 : shouldExcludeFile GoEnv.unix "file3.txt" [".exe"] ["README.md"] = false := by
    decide
  have x4 : shouldExcludeFile GoEnv.unix "file4.txt" [".exe"] ["README.md"] = false := by
    decide
  have x5 : shouldExcludeFile GoEnv.unix "README.md" [".exe"] ["README.md"] = true := by
    decide
  simp [walkDir_ok, walkDirs_cons, walkDirs_nil, walkFiles_cons, walkFiles_nil, testTree,
    testConfig, keepDir, keepFile, Entry.file, Entry.dir, Entry.Name, Entry.IsDir,
    Entry.Info, Entry.ReadDir, shouldExcludeFolder, Stats.empty, Stats.addDir, Stats.addFile,
    mapAdd, add64, wrap64, t1, t3, t4, x1, x2, x3, x4, x5]

theorem cutEntry_Name (k : Nat) (e : Entry) : (cutEntry k e).Name = e.Name := by
  cases e; rw [cutEntry]; rfl

theorem cutEntry_IsDir (k : Nat) (e : Entry) : (cutEntry k e).IsDir = e.IsDir := by
  cases e; rw [cutEntry]; rfl

theorem cutEntry_Info (k : Nat) (e : Entry) : (cutEntry k e).Info = e.Info := by
  cases e; rw [cutEntry]; rfl

theorem cutEntry_ReadDir (k : Nat) (e : Entry) :
    (cutEntry k e).ReadDir = cutRead k e.ReadDir := by
  cases e; rw [cutEntry]; rfl

theorem cutList_filter (k : Nat) (p : Entry → Bool) (hp : ∀ e, p (cutEntry k e) = p e)
    (es : List Entry) : (cutList k es).filter p = cutList k (es.filter p) := by
  induction es with
  | nil => rw [cutList]; rfl
  | cons e es ih =>
    rw [cutList, List.filter_cons, List.filter_cons, hp, ih]
    split
    · rw [cutList]
    · rfl

theorem cutList_length (k : Nat) (es : List Entry) : (cutList k es).length = es.length := by
  induction es with
  | nil => rw [cutList]
  | cons e es ih => rw [cutList, List.length_cons, List.length_cons, ih]

theorem keepDir_cut (config : Config) (k : Nat) (e : Entry) :
    keepDir config.unlimited (cutEntry k e) = keepDir config e := by
  simp only [keepDir, cutEntry_Name, cutEntry_IsDir, Config.unlimited]

theorem keepFile_cut (E : GoEnv) (config : Config) (k : Nat) (e : Entry) :
    keepFile E config.unlimited (cutEntry k e) = keepFile E config e := by
  simp only [keepFile, cutEntry_Name, cutEntry_IsDir, Config.unlimited]

theorem renderDir_unlimited (name : String) (isLast : Bool) (pre : String) (config : Config)
    (treeChars : TreeChars) (out : List Chunk) :
    renderDir name isLast pre config.unlimited treeChars out =
      renderDir name isLast pre config treeChars out := rfl

theorem walkFiles_cut (E : GoEnv) (config : Config) (path pre : String)
    (treeChars : TreeChars) (nFiles k : Nat) (files : List Entry) :
    ∀ (i : Nat) (w : World),
      walkFiles E config.unlimited path pre treeChars nFiles i (cutList k files) w =
        walkFiles E config path pre treeChars nFiles i files w := by
  induction files with
  | nil => intro i w; rw [cutList, walkFiles_nil, walkFiles_nil]
  | cons e rest ih =>
    intro i w
    rw [cutList, walkFiles_cons, walkFiles_cons, ih, cutEntry_Info, cutEntry_Name]
    rfl

theorem walkDir_unlimited_nil (E : GoEnv) (config : Config) (path pre lastPrefix : String)
    (depth : Int) (treeChars : TreeChars) (w : World) :
    walkDir E config.unlimited path pre lastPrefix depth treeChars (.ok []) w = w := by
  rw [walkDir_ok _ _ _ _ _ _ _ _ _ (by simp [Config.unlimited])]
  simp only [List.filter_nil, walkDirs_nil, walkFiles_nil]

/-- A walk limited to depth `d`, at a directory of depth `depth` with `levels` levels left
to show, is the unlimited walk of the tree cut to these levels. -/
theorem walkDir_eq_cut (E : GoEnv) (config : Config) (d : Nat) (hd : config.MaxDepth = d)
    (treeChars : TreeChars) (read : Except String (List Entry)) :
    ∀ (path pre lastPrefix : String) (depth : Int) (levels : Nat) (w : World),
      depth + levels = d + 1 →
      walkDir E config path pre lastPrefix depth treeChars read w =
        walkDir E config.unlimited path pre lastPrefix depth treeChars (cutRead levels read)
          w := by
  have hcut0 : ∀ (depth : Int), depth + (0 : Nat) = d + 1 →
      config.MaxDepth ≠ -1 ∧ depth > config.MaxDepth := by
    intro depth h
    rw [hd]
    constructor <;> omega
  have hin : ∀ (depth : Int) (levels : Nat), levels ≠ 0 → depth + levels = d + 1 →
      ¬ (config.MaxDepth ≠ -1 ∧ depth > config.MaxDepth) := by
    intro depth levels h0 h
    rw [hd]
    rintro ⟨_, h2⟩
    omega
  have hun : ∀ depth : Int,
      ¬ (config.unlimited.MaxDepth ≠ -1 ∧ depth > config.unlimited.MaxDepth) := by
    intro depth; simp [Config.unlimited]
  induction read using read_induction with
  | herr msg =>
    intro path pre lastPrefix depth levels w h
    rw [cutRead]
    by_cases h0 : levels = 0
    · subst h0
      rw [if_pos rfl, walkDir_unlimited_nil, walkDir_cut _ _ _ _ _ _ _ _ _ (hcut0 depth h)]
    · rw [if_neg h0, walkDir_error _ _ _ _ _ _ _ _ _ (hin depth levels h0 h),
        walkDir_error _ _ _ _ _ _ _ _ _ (hun depth)]
  | hok entries ih =>
    intro path pre lastPrefix depth levels w h
    rw [cutRead]
    by_cases h0 : levels = 0
    · subst h0
      rw [if_pos rfl, walkDir_unlimited_nil, walkDir_cut _ _ _ _ _ _ _ _ _ (hcut0 depth h)]
    · rw [if_neg h0, walkDir_ok _ _ _ _ _ _ _ _ _ (hin depth levels h0 h),
        walkDir_ok _ _ _ _ _ _ _ _ _ (hun depth),
        cutList_filter _ _ (keepDir_cut config (levels - 1)),
        cutList_filter _ _ (keepFile_cut E config (levels - 1)),
        cutList_length, cutList_length, walkFiles_cut]
      congr 1
      have hdirs : ∀ (dirs : List Entry), (∀ e ∈ dirs, e ∈ entries) →
          ∀ (nDirs nFiles i : Nat) (w : World),
          walkDirs E config path pre depth treeChars nDirs nFiles i dirs w =
            walkDirs E config.unlimited path pre depth treeChars nDirs nFiles i
              (cutList (levels - 1) dirs) w := by
        intro dirs
        induction dirs with
        | nil => intro _ nDirs nFiles i w; rw [cutList, walkDirs_nil, walkDirs_nil]
        | cons e rest ihd =>
          intro hmem nDirs nFiles i w
          rw [cutList, walkDirs_cons, walkDirs_cons, cutEntry_Name, cutEntry_ReadDir,
            renderDir_unlimited,
            ← ih e (hmem e (List.mem_cons_self _ _)) _ _ _ (depth + 1) (levels - 1) _
              (by omega)]
          exact ihd (fun x hx => hmem x (List.mem_cons_of_mem _ hx)) _ _ _ _
      exact hdirs _ (fun e he => (List.mem_filter.mp he).1) _ _ _ _

theorem dirsBelow_limit (config : Config) (depth : Int)
    (h : withinDepth config (depth + 1) = false) (l : List Entry) :
    dirsBelow config depth l = l.length := by
  induction l with
  | nil => rfl
  | cons e es ih =>
    have h0 : countedDirs config (depth + 1) e.ReadDir = 0 := by
      cases e.ReadDir with
      | error msg => rw [countedDirs]
      | ok cs => rw [countedDirs, h]; rfl
    rw [dirsBelow, ih, h0, List.length_cons]
    push_cast
    omega

theorem sizesBelow_limit (E : GoEnv) (config : Config) (depth : Int)
    (h : withinDepth config (depth + 1) = false) (l : List Entry) :
    sizesBelow E config depth l = [] := by
  induction l with
  | nil => rfl
  | cons e es ih =>
    have h0 : countedSizes E config (depth + 1) e.ReadDir = [] := by
      cases e.ReadDir with
      | error msg => rw [countedSizes]
      | ok cs => rw [countedSizes, h]; rfl
    rw [sizesBelow, ih, h0]; rfl

/-- C6: with `MaxDepth = d ≥ 0` a walk started at depth 0 is the unlimited walk of the tree
cut to the `d + 1` levels below the root (same Stats, same output), so it does not depend
on anything deeper: no directory at depth greater than `d` is read, and what is rendered
and counted are the entries an unlimited walk renders and counts in these `d + 1` levels
(`TotalSize` grows by their sizes, with the wrap-around of an int64 sum);
with `MaxDepth = 0` these are the root's own entries: the directories and files the
partition keeps, and nothing below them. -/
theorem walkDir_depth_limit (E : GoEnv) (config : Config) (d : Nat)
    (hd : config.MaxDepth = d) (path pre lastPrefix : String) (treeChars : TreeChars)
    (read : Except String (List Entry)) (w : World) :
    walkDir E config path pre lastPrefix 0 treeChars read w =
      walkDir E config.unlimited path pre lastPrefix 0 treeChars (cutRead (d + 1) read) w ∧
    (∀ read', cutRead (d + 1) read' = cutRead (d + 1) read →
      walkDir E config path pre lastPrefix 0 treeChars read' w =
        walkDir E config path pre lastPrefix 0 treeChars read w) ∧
    ((walkDir E config path pre lastPrefix 0 treeChars read w).stats.TotalDirs =
        w.stats.TotalDirs + countedDirs config.unlimited 0 (cutRead (d + 1) read) ∧
      (walkDir E config path pre lastPrefix 0 treeChars read w).stats.TotalFiles =
        w.stats.TotalFiles + (countedSizes E config.unlimited 0 (cutRead (d + 1) read)).length ∧
      wrap64 (walkDir E config path pre lastPrefix 0 treeChars read w).stats.TotalSize =
        wrap64 (w.stats.TotalSize +
          (countedSizes E config.unlimited 0 (cutRead (d + 1) read)).sum) ∧
      (-9223372036854775808 ≤ w.stats.TotalSize ∧ w.stats.TotalSize < 9223372036854775808 →
        (walkDir E config path pre lastPrefix 0 treeChars read w).stats.TotalSize =
          wrap64 (w.stats.TotalSize +
            (countedSizes E config.unlimited 0 (cutRead (d + 1) read)).sum)) ∧
      (-9223372036854775808 ≤ w.stats.TotalSize ∧ w.stats.TotalSize < 9223372036854775808 →
        -9223372036854775808 ≤ w.stats.TotalSize +
            (countedSizes E config.unlimited 0 (cutRead (d + 1) read)).sum ∧
          w.stats.TotalSize + (countedSizes E config.unlimited 0 (cutRead (d + 1) read)).sum <
            9223372036854775808 →
        (walkDir E config path pre lastPrefix 0 treeChars read w).stats.TotalSize =
          w.stats.TotalSize +
            (countedSizes E config.unlimited 0 (cutRead (d + 1) read)).sum)) ∧
    (d = 0 → ∀ entries, read = .ok entries →
      (walkDir E config path pre lastPrefix 0 treeChars read w).stats.TotalDirs =
        w.stats.TotalDirs + ((entries.filter (keepDir config)).length : Int) ∧
      (walkDir E config path pre lastPrefix 0 treeChars read w).stats.TotalFiles =
        w.stats.TotalFiles +
          ((readableSizes (entries.filter (keepFile E config))).length : Int)) := by
  have ha : ∀ r, walkDir E config path pre lastPrefix 0 treeChars r w =
      walkDir E config.unlimited path pre lastPrefix 0 treeChars (cutRead (d + 1) r) w := by
    intro r
    exact walkDir_eq_cut E config d hd treeChars r path pre lastPrefix 0 (d + 1) w
      (by push_cast; omega)
  refine ⟨ha read, ?_, ?_, ?_⟩
  · intro read' h
    rw [ha read', ha read, h]
  · rw [ha read]
    obtain ⟨a1, a2, a3, a4⟩ := walkDir_account E config.unlimited treeChars
      (cutRead (d + 1) read) path pre lastPrefix 0 w
    have a5 : -9223372036854775808 ≤ w.stats.TotalSize ∧
        w.stats.TotalSize < 9223372036854775808 →
        (walkDir E config.unlimited path pre lastPrefix 0 treeChars (cutRead (d + 1) read)
          w).stats.TotalSize =
          wrap64 (w.stats.TotalSize +
            (countedSizes E config.unlimited 0 (cutRead (d + 1) read)).sum) := by
      intro hr
      have r := a4 hr
      rw [← a3, wrap64_of_range _ r.1 r.2]
    refine ⟨a1, a2, a3, a5, ?_⟩
    intro hr hs
    rw [a5 hr, wrap64_of_range _ hs.1 hs.2]
  · intro h0 entries hr
    subst h0
    subst hr
    obtain ⟨a1, a2, _, _⟩ := walkDir_account E config treeChars (.ok entries) path pre
      lastPrefix 0 w
    have hw0 : withinDepth config 0 = true := by simp [withinDepth, hd]
    have hw1 : withinDepth config (0 + 1) = false := by simp [withinDepth, hd]
    have hp := countedSizesList_perm E config 0 entries
    rw [a1, a2, countedDirs, countedSizes, hw0, if_pos rfl, if_pos rfl, countedDirsList_eq,
      dirsBelow_limit config 0 hw1, hp.length_eq, sizesBelow_limit E config 0 hw1]
    exact ⟨rfl, rfl⟩

/-- Witness for C6: the example of the specification with the depth limit 0 on a Unix
host; only `sub` and `a.txt` are counted, `b.txt` one level deeper is not. -/
theorem walkDir_depth_limit_witness :
    (Config.MaxDepth { specConfig with MaxDepth := 0 } = ((0 : Nat) : Int)) ∧
    walkDir GoEnv.unix { specConfig with MaxDepth := 0 } "root" "" "" 0
        (getTreeChars true false) (.ok specTree) ⟨Stats.empty, []⟩ =
      walkDir GoEnv.unix (Config.unlimited { specConfig with MaxDepth := 0 }) "root" "" "" 0
        (getTreeChars true false) (cutRead (0 + 1) (.ok specTree)) ⟨Stats.empty, []⟩ ∧
    ((walkDir GoEnv.unix { specConfig with MaxDepth := 0 } "root" "" "" 0
        (getTreeChars true false) (.ok specTree) ⟨Stats.empty, []⟩).stats.TotalDirs =
      (World.mk Stats.empty []).stats.TotalDirs +
        ((specTree.filter (keepDir { specConfig with MaxDepth := 0 })).length : Int) ∧
    (walkDir GoEnv.unix { specConfig with MaxDepth := 0 } "root" "" "" 0
        (getTreeChars true false) (.ok specTree) ⟨Stats.empty, []⟩).stats.TotalFiles =
      (World.mk Stats.empty []).stats.TotalFiles +
        ((readableSizes (specTree.filter
          (keepFile GoEnv.unix { specConfig with MaxDepth := 0 }))).length : Int)) ∧
    (walkDir GoEnv.unix { specConfig with MaxDepth := 0 } "root" "" "" 0
        (getTreeChars true false) (.ok specTree) ⟨Stats.empty, []⟩).stats =
      ⟨1, 1, 5, [(".txt", 5)], [⟨"root/a.txt", 5, ".txt"⟩]⟩ := by
  refine ⟨rfl, (walkDir_depth_limit GoEnv.unix { specConfig with MaxDepth := 0 } 0 rfl "root"
    "" "" (getTreeChars true false) (.ok specTree) ⟨Stats.empty, []⟩).1,
    (walkDir_depth_limit GoEnv.unix { specConfig with MaxDepth := 0 } 0 rfl "root"
    "" "" (getTreeChars true false) (.ok specTree) ⟨Stats.empty, []⟩).2.2.2 rfl specTree rfl,
    ?_⟩
  have t1 : getFileExtension GoEnv.unix "a.txt" = ".txt" := by decide
  have t2 : GoEnv.unix.Join "root" "a.txt" = "root/a.txt" := by decide
  simp [walkDir_ok, walkDir_cut, walkDirs_cons, walkDirs_nil, walkFiles_cons, walkFiles_nil,
    specTree, specConfig, keepDir, keepFile, Entry.file, Entry.dir, Entry.Name, Entry.IsDir,
    Entry.Info, Entry.ReadDir, shouldExcludeFolder, shouldExcludeFile, excludedByName,
    excludedByExt, Stats.empty, Stats.addDir, Stats.addFile, mapAdd, add64, wrap64, t1, t2]

/-! ## The sums kept in the Stats -/

theorem mapSum_mapAdd (m : List (String × Int)) (key : String) (delta : Int) :
    wrap64 (mapSum (mapAdd m key delta)) = wrap64 (mapSum m + delta) := by
  induction m with
  | nil =>
    simp only [mapAdd, mapSum, add64, List.map_cons, List.map_nil, List.sum_cons,
      List.sum_nil]
    unfold wrap64; omega
  | cons kv m ih =>
    obtain ⟨k, v⟩ := kv
    simp only [mapAdd]
    split
    · simp only [mapSum, List.map_cons, List.sum_cons, add64]
      unfold wrap64; omega
    · simp only [mapSum, List.map_cons, List.sum_cons] at ih ⊢
      unfold wrap64 at ih ⊢; omega

theorem mapSum_nonneg (m : List (String × Int)) (h : ∀ p ∈ m, 0 ≤ p.2) : 0 ≤ mapSum m := by
  induction m with
  | nil => simp [mapSum]
  | cons kv m ih =>
    have h1 := h kv (List.mem_cons_self _ _)
    have h2 := ih (fun p hp => h p (List.mem_cons_of_mem _ hp))
    simp only [mapSum, List.map_cons, List.sum_cons] at h2 ⊢
    omega

/-- Adding a non-negative size to a map of non-negative sizes whose sum stays below
`2 ^ 63` does not wrap. -/
theorem mapAdd_exact (m : List (String × Int)) (key : String) (delta : Int)
    (hm : ∀ p ∈ m, 0 ≤ p.2) (hd : 0 ≤ delta)
    (hs : mapSum m + delta < 9223372036854775808) :
    (∀ p ∈ mapAdd m key delta, 0 ≤ p.2) ∧ mapSum (mapAdd m key delta) = mapSum m + delta := by
  induction m with
  | nil =>
    have e : add64 0 delta = delta := by
      simp only [mapSum, List.map_nil, List.sum_nil] at hs
      unfold add64 wrap64; omega
    simp only [mapAdd, e, mapSum, List.map_cons, List.map_nil, List.sum_cons, List.sum_nil]
    refine ⟨?_, by omega⟩
    intro p hp
    rw [List.mem_singleton] at hp
    subst hp
    exact hd
  | cons kv m ih =>
    obtain ⟨k, v⟩ := kv
    have hv : 0 ≤ v := hm (k, v) (List.mem_cons_self _ _)
    have hm2 : ∀ p ∈ m, 0 ≤ p.2 := fun p hp => hm p (List.mem_cons_of_mem _ hp)
    have hn := mapSum_nonneg m hm2
    simp only [mapSum, List.map_cons, List.sum_cons] at hs hn
    simp only [mapAdd]
    split
    · have e : add64 v delta = v + delta := by unfold add64 wrap64; omega
      rw [e]
      refine ⟨?_, ?_⟩
      · intro p hp
        rcases List.mem_cons.mp hp with h1 | h1
        · subst h1; show 0 ≤ v + delta; omega
        · exact hm2 p h1
      · simp only [mapSum, List.map_cons, List.sum_cons]; omega
    · obtain ⟨i1, i2⟩ := ih hm2 (by simp only [mapSum]; omega)
      refine ⟨?_, ?_⟩
      · intro p hp
        rcases List.mem_cons.mp hp with h1 | h1
        · subst h1; exact hv
        · exact i1 p h1
      · simp only [mapSum, List.map_cons, List.sum_cons] at i2 ⊢; omega

theorem sumSizes_append_one (l : List FileInfo) (f : FileInfo) :
    sumSizes (l ++ [f]) = sumSizes l + f.Size := by
  simp [sumSizes]

theorem list_sum_nonneg (l : List Int) (h : ∀ x ∈ l, 0 ≤ x) : 0 ≤ l.sum := by
  induction l with
  | nil => simp
  | cons a l ih =>
    have h1 := h a (List.mem_cons_self _ _)
    have h2 := ih (fun x hx => h x (List.mem_cons_of_mem _ hx))
    simp only [List.sum_cons]
    omega

/-- What the file loop adds to the two collections: every size to `LargeFiles` when the
table is on, and, as long as nothing wraps, every size to `FileTypes`. -/
theorem walkFiles_sums (E : GoEnv) (config : Config) (path pre : String)
    (treeChars : TreeChars) (nFiles : Nat) (files : List Entry) :
    ∀ (i : Nat) (w : World),
      (config.StatTable = true →
        sumSizes (walkFiles E config path pre treeChars nFiles i files w).stats.LargeFiles =
          sumSizes w.stats.LargeFiles + (readableSizes files).sum) ∧
      ((∀ p ∈ w.stats.FileTypes, 0 ≤ p.2) → (∀ x ∈ readableSizes files, 0 ≤ x) →
        mapSum w.stats.FileTypes + (readableSizes files).sum < 9223372036854775808 →
        (∀ p ∈ (walkFiles E config path pre treeChars nFiles i files w).stats.FileTypes,
          0 ≤ p.2) ∧
        mapSum (walkFiles E config path pre treeChars nFiles i files w).stats.FileTypes =
          mapSum w.stats.FileTypes + (readableSizes files).sum) := by
  induction files with
  | nil =>
    intro i w
    rw [walkFiles_nil]
    simp only [readableSizes, List.sum_nil, Int.add_zero]
    exact ⟨fun _ => trivial, fun h _ _ => ⟨h, trivial⟩⟩
  | cons e rest ih =>
    intro i w
    rw [walkFiles_cons]
    obtain ⟨h1, h2⟩ := ih (i + 1)
      (match e.Info with
        | .ok info =>
          ⟨w.stats.addFile config (E.Join path e.Name) info.Size (getFileExtension E e.Name),
            renderFile e.Name (decide ((i : Int) = (nFiles : Int) - 1)) pre
              info.IsSymlink config treeChars w.out⟩
        | .error err =>
          ⟨w.stats, Print ("Error getting file info for " ++ E.Join path e.Name ++ ": "
            ++ err ++ "\n") w.out⟩)
    cases h : e.Info with
    | error err =>
      rw [h] at h1 h2
      simp only [readableSizes, Entry.readableSize, infoSize, h, List.nil_append] at h1 h2 ⊢
      exact ⟨h1, h2⟩
    | ok info =>
      rw [h] at h1 h2
      simp only [readableSizes, Entry.readableSize, infoSize, h, List.singleton_append,
        List.sum_cons, List.mem_cons, Stats.addFile_FileTypes] at h1 h2 ⊢
      refine ⟨?_, ?_⟩
      · intro hT
        rw [h1 hT]
        simp only [Stats.addFile, hT, if_true, sumSizes_append_one]
        omega
      · intro hm hx hs
        have hrest : 0 ≤ (readableSizes rest).sum :=
          list_sum_nonneg _ (fun x hx2 => hx x (Or.inr hx2))
        obtain ⟨m1, m2⟩ := mapAdd_exact w.stats.FileTypes (getFileExtension E e.Name)
          info.Size hm (hx _ (Or.inl rfl)) (by omega)
        obtain ⟨r1, r2⟩ := h2 m1 (fun x hx2 => hx x (Or.inr hx2)) (by rw [m2]; omega)
        exact ⟨r1, by rw [r2, m2]; omega⟩

/-- What a walk adds to the two collections: the size of every counted file to
`LargeFiles` when the table is on, and, as long as nothing wraps, to `FileTypes`. -/
theorem walkDir_sums (E : GoEnv) (config : Config) (treeChars : TreeChars)
    (read : Except String (List Entry)) :
    ∀ (path pre lastPrefix : String) (depth : Int) (w : World),
      (config.StatTable = true →
        sumSizes (walkDir E config path pre lastPrefix depth treeChars read
            w).stats.LargeFiles =
          sumSizes w.stats.LargeFiles + (countedSizes E config depth read).sum) ∧
      ((∀ p ∈ w.stats.FileTypes, 0 ≤ p.2) →
        (∀ x ∈ countedSizes E config depth read, 0 ≤ x) →
        mapSum w.stats.FileTypes + (countedSizes E config depth read).sum <
          9223372036854775808 →
        (∀ p ∈ (walkDir E config path pre lastPrefix depth treeChars read
            w).stats.FileTypes, 0 ≤ p.2) ∧
        mapSum (walkDir E config path pre lastPrefix depth treeChars read
            w).stats.FileTypes =
          mapSum w.stats.FileTypes + (countedSizes E config depth read).sum) := by
  induction read using read_induction with
  | herr msg =>
    intro path pre lastPrefix depth w
    by_cases hc : config.MaxDepth ≠ -1 ∧ depth > config.MaxDepth
    · rw [walkDir_cut _ _ _ _ _ _ _ _ _ hc]
      simp only [countedSizes, List.sum_nil, Int.add_zero]
      exact ⟨fun _ => trivial, fun h _ _ => ⟨h, trivial⟩⟩
    · rw [walkDir_error _ _ _ _ _ _ _ _ _ hc]
      simp only [countedSizes, List.sum_nil, Int.add_zero]
      exact ⟨fun _ => trivial, fun h _ _ => ⟨h, trivial⟩⟩
  | hok entries ih =>
    intro path pre lastPrefix depth w
    by_cases hc : config.MaxDepth ≠ -1 ∧ depth > config.MaxDepth
    · have hw : withinDepth config depth = false := by
        rw [← Bool.not_eq_true, withinDepth_iff]; exact not_not.mpr hc
      rw [walkDir_cut _ _ _ _ _ _ _ _ _ hc]
      simp only [countedSizes, hw, Bool.false_eq_true, if_false, List.sum_nil, Int.add_zero]
      exact ⟨fun _ => trivial, fun h _ _ => ⟨h, trivial⟩⟩
    · have hw : withinDepth config depth = true := (withinDepth_iff _ _).mpr hc
      rw [walkDir_ok _ _ _ _ _ _ _ _ _ hc]
      have hdirs : ∀ (dirs : List Entry), (∀ e ∈ dirs, e ∈ entries) →
          ∀ (nDirs nFiles i : Nat) (w : World),
          (config.StatTable = true →
            sumSizes (walkDirs E config path pre depth treeChars nDirs nFiles i dirs
                w).stats.LargeFiles =
              sumSizes w.stats.LargeFiles + (sizesBelow E config depth dirs).sum) ∧
          ((∀ p ∈ w.stats.FileTypes, 0 ≤ p.2) →
            (∀ x ∈ sizesBelow E config depth dirs, 0 ≤ x) →
            mapSum w.stats.FileTypes + (sizesBelow E config depth dirs).sum <
              9223372036854775808 →
            (∀ p ∈ (walkDirs E config path pre depth treeChars nDirs nFiles i dirs
                w).stats.FileTypes, 0 ≤ p.2) ∧
            mapSum (walkDirs E config path pre depth treeChars nDirs nFiles i dirs
                w).stats.FileTypes =
              mapSum w.stats.FileTypes + (sizesBelow E config depth dirs).sum) := by
        intro dirs
        induction dirs with
        | nil =>
          intro _ nDirs nFiles i w
          rw [walkDirs_nil]
          simp only [sizesBelow, List.sum_nil, Int.add_zero]
          exact ⟨fun _ => trivial, fun h _ _ => ⟨h, trivial⟩⟩
        | cons e rest ihd =>
          intro hmem nDirs nFiles i w
          rw [walkDirs_cons]
          obtain ⟨a1, a2⟩ := ihd (fun x hx => hmem x (List.mem_cons_of_mem _ hx))
            nDirs nFiles (i + 1)
            (walkDir E config (E.Join path e.Name)
              (renderDir e.Name (decide ((i : Int) = (nDirs : Int) - 1) && decide (nFiles = 0))
                pre config treeChars w.out).2.1
              (renderDir e.Name (decide ((i : Int) = (nDirs : Int) - 1) && decide (nFiles = 0))
                pre config treeChars w.out).2.2
              (depth + 1) treeChars e.ReadDir
              ⟨w.stats.addDir,
                (renderDir e.Name
                  (decide ((i : Int) = (nDirs : Int) - 1) && decide (nFiles = 0))
                  pre config treeChars w.out).1⟩)
          obtain ⟨b1, b2⟩ := ih e (hmem e (List.mem_cons_self _ _))
            (E.Join path e.Name)
            (renderDir e.Name (decide ((i : Int) = (nDirs : Int) - 1) && decide (nFiles = 0))
              pre config treeChars w.out).2.1
            (renderDir e.Name (decide ((i : Int) = (nDirs : Int) - 1) && decide (nFiles = 0))
              pre config treeChars w.out).2.2
            (depth + 1)
            ⟨w.stats.addDir,
              (renderDir e.Name
                (decide ((i : Int) = (nDirs : Int) - 1) && decide (nFiles = 0))
                pre config treeChars w.out).1⟩
          simp only [Stats.addDir, sizesBelow, List.sum_append, List.mem_append] at b1 b2 a1 a2 ⊢
          refine ⟨?_, ?_⟩
          · intro hT
            rw [a1 hT, b1 hT]
            omega
          · intro hm hx hs
            have hrest : 0 ≤ (sizesBelow E config depth rest).sum :=
              list_sum_nonneg _ (fun x hx2 => hx x (Or.inr hx2))
            obtain ⟨m1, m2⟩ := b2 hm (fun x hx2 => hx x (Or.inl hx2)) (by omega)
            obtain ⟨r1, r2⟩ := a2 m1 (fun x hx2 => hx x (Or.inr hx2)) (by rw [m2]; omega)
            exact ⟨r1, by rw [r2, m2]; omega⟩
      obtain ⟨f1, f2⟩ := walkFiles_sums E config path pre treeChars
        (entries.filter (keepFile E config)).length (entries.filter (keepFile E config)) 0
        (walkDirs E config path pre depth treeChars (entries.filter (keepDir config)).length
          (entries.filter (keepFile E config)).length 0 (entries.filter (keepDir config)) w)
      obtain ⟨d1, d2⟩ := hdirs (entries.filter (keepDir config))
        (fun e he => (List.mem_filter.mp he).1) (entries.filter (keepDir config)).length
        (entries.filter (keepFile E config)).length 0 w
      have hp := countedSizesList_perm E config depth entries
      simp only [countedSizes, hw, if_true, hp.sum_eq, hp.mem_iff, List.sum_append,
        List.mem_append]
      refine ⟨?_, ?_⟩
      · intro hT
        rw [f1 hT, d1 hT]
        omega
      · intro hm hx hs
        have hrest : 0 ≤ (readableSizes (entries.filter (keepFile E config))).sum :=
          list_sum_nonneg _ (fun x hx2 => hx x (Or.inr hx2))
        obtain ⟨m1, m2⟩ := d2 hm (fun x hx2 => hx x (Or.inl hx2)) (by omega)
        obtain ⟨r1, r2⟩ := f2 m1 (fun x hx2 => hx x (Or.inr hx2)) (by rw [m2]; omega)
        exact ⟨r1, by rw [r2, m2]; omega⟩

/-- The counterexample to C3 as stated: before the walk of the specification's example the
Stats holds one file of `2 ^ 63 - 1` bytes and satisfies the three invariants; after it
`TotalSize` has wrapped to `-9223372036854775794`, while the values of `FileTypes` and the
sizes in `LargeFiles` both add up to `2 ^ 63 + 14`. -/
theorem walkDir_keeps_sums_claim_fails :
    ¬ SumInvariantClaim GoEnv.unix specConfig "root" 0 (getTreeChars true false)
      (.ok specTree) ⟨fullStats, []⟩ ∧
    fullStats.TotalSize = mapSum fullStats.FileTypes ∧
    (fullStats.LargeFiles.length : Int) = fullStats.TotalFiles ∧
    sumSizes fullStats.LargeFiles = fullStats.TotalSize ∧
    (walkDir GoEnv.unix specConfig "root" "" "" 0 (getTreeChars true false) (.ok specTree)
      ⟨fullStats, []⟩).stats.TotalSize = -9223372036854775794 ∧
    mapSum (walkDir GoEnv.unix specConfig "root" "" "" 0 (getTreeChars true false)
      (.ok specTree) ⟨fullStats, []⟩).stats.FileTypes = 9223372036854775822 ∧
    sumSizes (walkDir GoEnv.unix specConfig "root" "" "" 0 (getTreeChars true false)
      (.ok specTree) ⟨fullStats, []⟩).stats.LargeFiles = 9223372036854775822 := by
  have t1 : getFileExtension GoEnv.unix "a.txt" = ".txt" := by decide
  have t2 : getFileExtension GoEnv.unix "b.txt" = ".txt" := by decide
  have hw : (walkDir GoEnv.unix specConfig "root" "" "" 0 (getTreeChars true false)
      (.ok specTree) ⟨fullStats, []⟩).stats =
      ⟨1, 3, -9223372036854775794, [(".bin", 9223372036854775807), (".txt", 15)],
        [⟨"root/big.bin", 9223372036854775807, ".bin"⟩, ⟨"root/sub/b.txt", 10, ".txt"⟩,
          ⟨"root/a.txt", 5, ".txt"⟩]⟩ := by
    have hj : ∀ a b : String, GoEnv.unix.Join a b = a ++ "/" ++ b := fun _ _ => rfl
    simp [walkDir_ok, walkDirs_cons, walkDirs_nil, walkFiles_cons, walkFiles_nil, specTree,
      specConfig, fullStats, keepDir, keepFile, Entry.file, Entry.dir, Entry.Name,
      Entry.IsDir, Entry.Info, Entry.ReadDir, shouldExcludeFolder, shouldExcludeFile,
      excludedByName, excludedByExt, Stats.addDir, Stats.addFile, mapAdd, add64, wrap64,
      t1, t2, hj]
  refine ⟨?_, by decide, by decide, by decide, by rw [hw], by rw [hw]; decide,
    by rw [hw]; decide⟩
  unfold SumInvariantClaim
  rw [hw]
  decide

/-- C3 as amended: `+=` on `TotalSize` and on a value of `FileTypes` wraps around as int64,
so a walk keeps `TotalSize = sum of the values of FileTypes` and, with `StatTable` on,
`sum of LargeFiles[i].Size = TotalSize` as equalities of int64 sums (modulo `2 ^ 64`), and
keeps `len(LargeFiles) = TotalFiles` exactly.  They are kept as equalities of integers when
nothing overflows: for `FileTypes` when its values and the counted sizes are non-negative
and `TotalSize` plus the counted sizes stays below `2 ^ 63`, for `LargeFiles` when
`TotalSize` plus the counted sizes is an int64.  Hence after a walk from the empty Stats
with `StatTable` on, over counted files of non-negative sizes with a sum below `2 ^ 63`,
`TotalSize`, the sum of the `FileTypes` values and the sum of the `LargeFiles` sizes are
equal and `LargeFiles` has one record per counted file. -/
theorem walkDir_keeps_sums (E : GoEnv) (config : Config) (path pre lastPrefix : String)
    (depth : Int) (treeChars : TreeChars) (read : Except String (List Entry)) (w : World) :
    (wrap64 (mapSum w.stats.FileTypes) = wrap64 w.stats.TotalSize →
      wrap64 (mapSum
          (walkDir E config path pre lastPrefix depth treeChars read w).stats.FileTypes) =
        wrap64 (walkDir E config path pre lastPrefix depth treeChars read w).stats.TotalSize) ∧
    (config.StatTable = true → (w.stats.LargeFiles.length : Int) = w.stats.TotalFiles →
      ((walkDir E config path pre lastPrefix depth treeChars read w).stats.LargeFiles.length
          : Int) =
        (walkDir E config path pre lastPrefix depth treeChars read w).stats.TotalFiles) ∧
    (config.StatTable = true →
      wrap64 (sumSizes w.stats.LargeFiles) = wrap64 w.stats.TotalSize →
      wrap64 (sumSizes
          (walkDir E config path pre lastPrefix depth treeChars read w).stats.LargeFiles) =
        wrap64 (walkDir E config path pre lastPrefix depth treeChars read w).stats.TotalSize) ∧
    (mapSum w.stats.FileTypes = w.stats.TotalSize → (∀ p ∈ w.stats.FileTypes, 0 ≤ p.2) →
      (∀ x ∈ countedSizes E config depth read, 0 ≤ x) →
      w.stats.TotalSize + (countedSizes E config depth read).sum < 9223372036854775808 →
      mapSum (walkDir E config path pre lastPrefix depth treeChars read w).stats.FileTypes =
        (walkDir E config path pre lastPrefix depth treeChars read w).stats.TotalSize) ∧
    (config.StatTable = true → sumSizes w.stats.LargeFiles = w.stats.TotalSize →
      (-9223372036854775808 ≤ w.stats.TotalSize ∧ w.stats.TotalSize < 9223372036854775808) →
      (-9223372036854775808 ≤ w.stats.TotalSize + (countedSizes E config depth read).sum ∧
        w.stats.TotalSize + (countedSizes E config depth read).sum < 9223372036854775808) →
      sumSizes (walkDir E config path pre lastPrefix depth treeChars read w).stats.LargeFiles =
        (walkDir E config path pre lastPrefix depth treeChars read w).stats.TotalSize) ∧
    (config.StatTable = true → w.stats = Stats.empty →
      (∀ x ∈ countedSizes E config depth read, 0 ≤ x) →
      (countedSizes E config depth read).sum < 9223372036854775808 →
      (walkDir E config path pre lastPrefix depth treeChars read w).stats.TotalSize =
        mapSum (walkDir E config path pre lastPrefix depth treeChars read w).stats.FileTypes ∧
      mapSum (walkDir E config path pre lastPrefix depth treeChars read w).stats.FileTypes =
        sumSizes (walkDir E config path pre lastPrefix depth treeChars read w).stats.LargeFiles ∧
      ((walkDir E config path pre lastPrefix depth treeChars read w).stats.LargeFiles.length
          : Int) =
        (walkDir E config path pre lastPrefix depth treeChars read w).stats.TotalFiles) := by
  obtain ⟨_, _, a3, a4⟩ := walkDir_account E config treeChars read path pre lastPrefix depth w
  obtain ⟨s1, s2⟩ := walkDir_sums E config treeChars read path pre lastPrefix depth w
  have h1 : wrap64 (mapSum w.stats.FileTypes) = wrap64 w.stats.TotalSize →
      wrap64 (mapSum
          (walkDir E config path pre lastPrefix depth treeChars read w).stats.FileTypes) =
        wrap64 (walkDir E config path pre lastPrefix depth treeChars read
          w).stats.TotalSize := by
    apply walkDir_invariant E config
      (fun s => wrap64 (mapSum s.FileTypes) = wrap64 s.TotalSize)
    · intro s h; exact h
    · intro s p n x h
      simp only [Stats.addFile_FileTypes, Stats.addFile_TotalSize, mapSum_mapAdd, add64,
        wrap64_wrap64]
      exact wrap64_congr_add _ _ _ h
  have h2 : config.StatTable = true → (w.stats.LargeFiles.length : Int) = w.stats.TotalFiles →
      ((walkDir E config path pre lastPrefix depth treeChars read w).stats.LargeFiles.length
          : Int) =
        (walkDir E config path pre lastPrefix depth treeChars read w).stats.TotalFiles := by
    intro hT
    apply walkDir_invariant E config (fun s => (s.LargeFiles.length : Int) = s.TotalFiles)
    · intro s h; exact h
    · intro s p n x h
      simp only [Stats.addFile, hT, if_true, List.length_append, List.length_singleton]
      push_cast
      omega
  have h3 : config.StatTable = true →
      wrap64 (sumSizes w.stats.LargeFiles) = wrap64 w.stats.TotalSize →
      wrap64 (sumSizes
          (walkDir E config path pre lastPrefix depth treeChars read w).stats.LargeFiles) =
        wrap64 (walkDir E config path pre lastPrefix depth treeChars read
          w).stats.TotalSize := by
    intro hT h
    rw [s1 hT, a3]
    exact wrap64_congr_add _ _ _ h
  have h4 : mapSum w.stats.FileTypes = w.stats.TotalSize →
      (∀ p ∈ w.stats.FileTypes, 0 ≤ p.2) →
      (∀ x ∈ countedSizes E config depth read, 0 ≤ x) →
      w.stats.TotalSize + (countedSizes E config depth read).sum < 9223372036854775808 →
      mapSum (walkDir E config path pre lastPrefix depth treeChars read w).stats.FileTypes =
        (walkDir E config path pre lastPrefix depth treeChars read w).stats.TotalSize := by
    intro hm hp hx hs
    have n1 := mapSum_nonneg _ hp
    have n2 := list_sum_nonneg _ hx
    obtain ⟨_, e⟩ := s2 hp hx (by rw [hm]; exact hs)
    have r := a4 ⟨by omega, by omega⟩
    rw [e, hm, ← wrap64_of_range _ r.1 r.2, a3, wrap64_of_range _ (by omega) hs]
  have h5 : config.StatTable = true → sumSizes w.stats.LargeFiles = w.stats.TotalSize →
      (-9223372036854775808 ≤ w.stats.TotalSize ∧ w.stats.TotalSize < 9223372036854775808) →
      (-9223372036854775808 ≤ w.stats.TotalSize + (countedSizes E config depth read).sum ∧
        w.stats.TotalSize + (countedSizes E config depth read).sum < 9223372036854775808) →
      sumSizes (walkDir E config path pre lastPrefix depth treeChars read w).stats.LargeFiles =
        (walkDir E config path pre lastPrefix depth treeChars read w).stats.TotalSize := by
    intro hT hm hr hs
    have r := a4 hr
    rw [s1 hT, hm, ← wrap64_of_range _ r.1 r.2, a3, wrap64_of_range _ hs.1 hs.2]
  refine ⟨h1, h2, h3, h4, h5, ?_⟩
  intro hT hw hx hs
  have n2 := list_sum_nonneg _ hx
  have e1 := h4 (by rw [hw]; rfl) (by rw [hw]; simp [Stats.empty])
    hx (by rw [hw]; simpa [Stats.empty] using hs)
  have e2 := h2 hT (by rw [hw]; rfl)
  have e3 := h5 hT (by rw [hw]; rfl) (by rw [hw]; simp [Stats.empty])
    (by rw [hw]; simp only [Stats.empty, Int.zero_add]; omega)
  exact ⟨e1.symm, e1.trans e3.symm, e2⟩

/-- Witness for C3: the walk of the specification's example, whose configuration has the
table of largest files on, started from the empty Stats. -/
theorem walkDir_keeps_sums_witness :
    specConfig.StatTable = true ∧ (World.mk Stats.empty []).stats = Stats.empty ∧
    countedSizes GoEnv.unix specConfig 0 (.ok specTree) = [5, 10] ∧
    (walkDir GoEnv.unix specConfig "root" "" "" 0 (getTreeChars true false)
        (.ok specTree) ⟨Stats.empty, []⟩).stats.TotalSize =
      mapSum (walkDir GoEnv.unix specConfig "root" "" "" 0 (getTreeChars true false)
        (.ok specTree) ⟨Stats.empty, []⟩).stats.FileTypes ∧
    mapSum (walkDir GoEnv.unix specConfig "root" "" "" 0 (getTreeChars true false)
        (.ok specTree) ⟨Stats.empty, []⟩).stats.FileTypes =
      sumSizes (walkDir GoEnv.unix specConfig "root" "" "" 0 (getTreeChars true false)
        (.ok specTree) ⟨Stats.empty, []⟩).stats.LargeFiles ∧
    ((walkDir GoEnv.unix specConfig "root" "" "" 0 (getTreeChars true false)
        (.ok specTree) ⟨Stats.empty, []⟩).stats.LargeFiles.length : Int) =
      (walkDir GoEnv.unix specConfig "root" "" "" 0 (getTreeChars true false)
        (.ok specTree) ⟨Stats.empty, []⟩).stats.TotalFiles :=
  ⟨rfl, rfl, by decide,
    (walkDir_keeps_sums GoEnv.unix specConfig "root" "" "" 0 (getTreeChars true false)
      (.ok specTree) ⟨Stats.empty, []⟩).2.2.2.2.2 rfl rfl (by decide) (by decide)⟩

/-! ## Properties of the size formatting -/

theorem digitChar_isDigit (m : Nat) (h : m < 10) :
    (Nat.digitChar m).isDigit = true ∧ digitVal (Nat.digitChar m) = m ∧
      Nat.digitChar m ≠ ' ' ∧ Nat.digitChar m ≠ '.' := by
  interval_cases m <;> decide

theorem decVal_append_one (l : List Char) (c : Char) :
    decVal (l ++ [c]) = 10 * decVal l + digitVal c := by
  simp [decVal, List.foldl_append]

theorem toDigitsCore_spec (fuel : Nat) :
    ∀ (n : Nat) (ds : List Char), n < fuel →
      ∃ l, Nat.toDigitsCore 10 fuel n ds = l ++ ds ∧ l ≠ [] ∧
        (∀ c ∈ l, c.isDigit = true ∧ c ≠ ' ' ∧ c ≠ '.') ∧ decVal l = n := by
  induction fuel with
  | zero => intro n ds h; omega
  | succ fuel ih =>
    intro n ds h
    obtain ⟨d1, d2, d3, d4⟩ := digitChar_isDigit (n % 10) (Nat.mod_lt _ (by decide))
    rw [Nat.toDigitsCore]
    by_cases h0 : n / 10 = 0
    · simp only [h0, if_true]
      refine ⟨[Nat.digitChar (n % 10)], rfl, by simp, ?_, ?_⟩
      · intro c hc
        rw [List.mem_singleton] at hc
        subst hc
        exact ⟨d1, d3, d4⟩
      · simp only [decVal, List.foldl_cons, List.foldl_nil, d2]
        omega
    · simp only [h0, if_false]
      obtain ⟨l, hl, _, hd, hv⟩ := ih (n / 10) (Nat.digitChar (n % 10) :: ds) (by omega)
      refine ⟨l ++ [Nat.digitChar (n % 10)], ?_, by simp, ?_, ?_⟩
      · rw [hl]; simp
      · intro c hc
        rcases List.mem_append.mp hc with h1 | h1
        · exact hd c h1
        · rw [List.mem_singleton] at h1
          subst h1
          exact ⟨d1, d3, d4⟩
      · rw [decVal_append_one, hv, d2]
        omega

theorem sprintD_spec (n : Nat) :
    (sprintD n).data ≠ [] ∧
      (∀ c ∈ (sprintD n).data, c.isDigit = true ∧ c ≠ ' ' ∧ c ≠ '.') ∧
      decVal (sprintD n).data = n := by
  obtain ⟨l, hl, h1, h2, h3⟩ := toDigitsCore_spec (n + 1) n [] (Nat.lt_succ_self n)
  have : (sprintD n).data = l := by
    simp only [sprintD, Nat.repr, Nat.toDigits, List.asString, hl, List.append_nil]
  rw [this]
  exact ⟨h1, h2, h3⟩

theorem parseNat_sprintD (n : Nat) : parseNat (sprintD n).data = some n := by
  obtain ⟨h1, h2, h3⟩ := sprintD_spec n
  unfold parseNat
  rw [if_pos]
  · exact congrArg some h3
  · exact ⟨h1, List.all_eq_true.mpr (fun c hc => (h2 c hc).1)⟩

theorem span_digits (l rest : List Char) (c : Char) (p : Char → Bool)
    (hl : ∀ x ∈ l, p x = true) (hc : p c = false) :
    (l ++ c :: rest).span p = (l, c :: rest) := by
  rw [List.span_eq_take_drop, List.takeWhile_append_of_pos hl,
    List.dropWhile_append_of_pos hl, List.takeWhile_cons_of_neg (by simp [hc]),
    List.dropWhile_cons_of_neg (by simp [hc])]
  simp

theorem span_all (l : List Char) (p : Char → Bool) (hl : ∀ x ∈ l, p x = true) :
    l.span p = (l, []) := by
  have := @List.takeWhile_append_of_pos Char p l [] hl
  have h2 := @List.dropWhile_append_of_pos Char p l [] hl
  simp only [List.append_nil, List.takeWhile_nil, List.dropWhile_nil] at this h2
  rw [List.span_eq_take_drop, this, h2]

/-- Reading back a text `<n> B`. -/
theorem parseSize_bytes (n : Nat) : parseSize (sprintD n ++ " B") = some (10 * n, 0) := by
  obtain ⟨h1, h2, h3⟩ := sprintD_spec n
  unfold parseSize
  have e1 : (sprintD n ++ " B").data = (sprintD n).data ++ ' ' :: ['B'] := by
    simp [String.data_append]
  rw [e1, span_digits _ _ _ _ (fun x hx => by simpa using (h2 x hx).2.1) (by decide)]
  simp only [parseUnit]
  rw [span_all _ _ (fun x hx => by simpa using (h2 x hx).2.2)]
  simp only [parseNat_sprintD, Option.map_some']

/-- Reading back a text `<a>.<d> <c>B`. -/
theorem parseSize_tenths (a d k : Nat) (c : Char) (hd : d < 10)
    (hc : parseUnit [c, 'B'] = some k) :
    parseSize (sprintD a ++ "." ++ sprintD d ++ " " ++ String.singleton c ++ "B") =
      some (10 * a + d, k) := by
  obtain ⟨h1, h2, h3⟩ := sprintD_spec a
  have hdd : (sprintD d).data = [Nat.digitChar d] := by
    interval_cases d <;> decide
  obtain ⟨d1, d2, d3, d4⟩ := digitChar_isDigit d hd
  unfold parseSize
  have e1 : (sprintD a ++ "." ++ sprintD d ++ " " ++ String.singleton c ++ "B").data =
      ((sprintD a).data ++ '.' :: [Nat.digitChar d]) ++ ' ' :: [c, 'B'] := by
    simp [String.data_append, hdd, String.singleton]
  have hnum : ∀ x ∈ (sprintD a).data ++ '.' :: [Nat.digitChar d], (x != ' ') = true := by
    intro x hx
    rcases List.mem_append.mp hx with h | h
    · simpa using (h2 x h).2.1
    · rcases List.mem_cons.mp h with h | h
      · subst h; decide
      · rw [List.mem_singleton] at h; subst h; simpa using d3
  rw [e1, span_digits _ _ _ _ hnum (by decide)]
  simp only [hc]
  rw [span_digits _ _ _ _ (fun x hx => by simpa using (h2 x hx).2.2) (by decide)]
  simp only [d1, if_true, parseNat_sprintD, Option.map_some', d2]

theorem roundHalfEven_cases (num den : Nat) :
    (roundHalfEven num den = num / den ∧ 2 * (num % den) ≤ den) ∨
      (roundHalfEven num den = num / den + 1 ∧ den ≤ 2 * (num % den)) := by
  unfold roundHalfEven
  split
  · right; refine ⟨rfl, ?_⟩; omega
  · left; refine ⟨rfl, ?_⟩; omega

/-- The rounded quotient is a nearest integer: it differs from `num / den` by at most
one half. -/
theorem roundHalfEven_near (num den : Nat) (hden : 0 < den) :
    2 * num ≤ 2 * (roundHalfEven num den * den) + den ∧
      2 * (roundHalfEven num den * den) ≤ 2 * num + den := by
  have h1 := Nat.div_add_mod num den
  have h2 := Nat.mod_lt num hden
  rcases roundHalfEven_cases num den with ⟨e, h⟩ | ⟨e, h⟩
  · rw [e, Nat.mul_comm (num / den) den]
    constructor <;> omega
  · rw [e, Nat.add_mul, Nat.mul_comm (num / den) den]
    constructor <;> omega

theorem roundHalfEven_exact (q den : Nat) (hden : 0 < den) :
    roundHalfEven (q * den) den = q := by
  unfold roundHalfEven
  rw [Nat.mul_mod_left, Nat.mul_div_cancel _ hden, if_neg]
  omega

theorem roundHalfEven_mono (a b den : Nat) (_hden : 0 < den) (h : a ≤ b) :
    roundHalfEven a den ≤ roundHalfEven b den := by
  have hq : a / den ≤ b / den := Nat.div_le_div_right h
  have ha := Nat.div_add_mod a den
  have hb := Nat.div_add_mod b den
  rcases Nat.lt_or_ge (a / den) (b / den) with hlt | hge
  · rcases roundHalfEven_cases a den with ⟨e, _⟩ | ⟨e, _⟩ <;>
      rcases roundHalfEven_cases b den with ⟨e', _⟩ | ⟨e', _⟩ <;> omega
  · have heq : a / den = b / den := Nat.le_antisymm hq hge
    have hr : a % den ≤ b % den := by
      rw [heq] at ha
      omega
    unfold roundHalfEven
    rw [heq]
    split
    · rw [if_pos]
      omega
    · split <;> omega

theorem roundHalfEven_ge (q num den : Nat) (hden : 0 < den) (h : q * den ≤ num) :
    q ≤ roundHalfEven num den := by
  have := roundHalfEven_mono _ _ den hden h
  rwa [roundHalfEven_exact q den hden] at this

theorem roundHalfEven_le (q num den : Nat) (hden : 0 < den) (h : num ≤ q * den) :
    roundHalfEven num den ≤ q := by
  have := roundHalfEven_mono _ _ den hden h
  rwa [roundHalfEven_exact q den hden] at this

theorem ulpShift_spec (fuel : Nat) :
    ∀ n, n < 2 ^ (53 + fuel) →
      (ulpShift fuel n = 0 ∧ n < 2 ^ 53) ∨
        (1 ≤ ulpShift fuel n ∧ 2 ^ (52 + ulpShift fuel n) ≤ n ∧
          n < 2 ^ (53 + ulpShift fuel n)) := by
  induction fuel with
  | zero => intro n h; left; exact ⟨rfl, h⟩
  | succ fuel ih =>
    intro n h
    rw [ulpShift]
    by_cases h0 : n < 2 ^ 53
    · left; rw [if_pos h0]; exact ⟨rfl, h0⟩
    · right
      rw [if_neg h0]
      have hn2 : n / 2 < 2 ^ (53 + fuel) := by
        have : 2 ^ (53 + (fuel + 1)) = 2 * 2 ^ (53 + fuel) := by
          rw [← Nat.add_assoc, Nat.pow_succ, Nat.mul_comm]
        omega
      rcases ih (n / 2) hn2 with ⟨e, hlt⟩ | ⟨h1, h2, h3⟩
      · rw [e]
        refine ⟨Nat.le_refl _, ?_, ?_⟩
        · show 2 ^ 53 ≤ n; omega
        · show n < 2 ^ 54
          have : (2 : Nat) ^ 54 = 2 * 2 ^ 53 := by norm_num
          omega
      · refine ⟨by omega, ?_, ?_⟩
        · have : 2 ^ (52 + (ulpShift fuel (n / 2) + 1)) = 2 * 2 ^ (52 + ulpShift fuel (n / 2)) := by
            rw [← Nat.add_assoc, Nat.pow_succ, Nat.mul_comm]
          omega
        · have : 2 ^ (53 + (ulpShift fuel (n / 2) + 1)) = 2 * 2 ^ (53 + ulpShift fuel (n / 2)) := by
            rw [← Nat.add_assoc, Nat.pow_succ, Nat.mul_comm]
          omega

/-- An integer below `2 ^ 53` is a float64: the conversion is exact. -/
theorem float64_exact (n : Nat) (h : n < 2 ^ 53) : float64 n = n := by
  have hs : ulpShift 64 n = 0 := by
    rw [ulpShift, if_pos h]
  unfold float64
  rw [hs]
  have := roundHalfEven_exact n 1 (by decide)
  simp only [Nat.mul_one, Nat.pow_zero] at this ⊢
  exact this

theorem float64_bounds (n : Nat) (hn : n < 2 ^ 117) :
    float64 n ≤ 2 ^ (53 + ulpShift 64 n) ∧
      (1 ≤ ulpShift 64 n → 2 ^ (52 + ulpShift 64 n) ≤ float64 n) := by
  have hpos : 0 < 2 ^ ulpShift 64 n := Nat.pow_pos (by decide)
  have hsp := ulpShift_spec 64 n (by simpa using hn)
  have hlt : n < 2 ^ (53 + ulpShift 64 n) := by
    rcases hsp with ⟨e, h⟩ | ⟨_, _, h⟩
    · rw [e]; exact h
    · exact h
  unfold float64
  constructor
  · rw [Nat.pow_add]
    apply Nat.mul_le_mul_right
    apply roundHalfEven_le _ _ _ hpos
    rw [← Nat.pow_add]
    omega
  · intro h1
    rcases hsp with ⟨e, _⟩ | ⟨_, h2, _⟩
    · omega
    · rw [Nat.pow_add]
      apply Nat.mul_le_mul_right
      apply roundHalfEven_ge _ _ _ hpos
      rw [← Nat.pow_add]
      exact h2

/-- The conversion to float64 is monotone. -/
theorem float64_mono (a b : Nat) (hb : b < 2 ^ 117) (h : a ≤ b) : float64 a ≤ float64 b := by
  have ha : a < 2 ^ 117 := Nat.lt_of_le_of_lt h hb
  have hsa := ulpShift_spec 64 a (by simpa using ha)
  have hsb := ulpShift_spec 64 b (by simpa using hb)
  obtain ⟨ua, _⟩ := float64_bounds a ha
  obtain ⟨_, lb⟩ := float64_bounds b hb
  rcases Nat.lt_trichotomy (ulpShift 64 a) (ulpShift 64 b) with hlt | heq | hgt
  · have l2 := lb (by omega)
    have : 2 ^ (53 + ulpShift 64 a) ≤ 2 ^ (52 + ulpShift 64 b) :=
      Nat.pow_le_pow_right (by decide) (by omega)
    omega
  · unfold float64
    rw [heq]
    exact Nat.mul_le_mul_right _ (roundHalfEven_mono _ _ _ (Nat.pow_pos (by decide)) h)
  · exfalso
    have h1 : 2 ^ (52 + ulpShift 64 a) ≤ a := by
      rcases hsa with ⟨e, _⟩ | ⟨_, h2, _⟩
      · omega
      · exact h2
    have h2 : b < 2 ^ (53 + ulpShift 64 b) := by
      rcases hsb with ⟨e, h⟩ | ⟨_, _, h⟩
      · rw [e]; exact h
      · exact h
    have : 2 ^ (53 + ulpShift 64 b) ≤ 2 ^ (52 + ulpShift 64 a) :=
      Nat.pow_le_pow_right (by decide) (by omega)
    omega

theorem float64_pow1024 (k : Nat) (hk : k ≤ 7) : float64 (1024 ^ k) = 1024 ^ k := by
  interval_cases k <;> decide

theorem sizeLoop_spec (fuel : Nat) :
    ∀ n div exp : Nat, n ≤ fuel → 1 ≤ n →
      ∃ j, sizeLoop fuel n div exp = (div * 1024 ^ j, exp + j) ∧ 1024 ^ j ≤ n ∧
        n < 1024 ^ (j + 1) := by
  induction fuel with
  | zero => intro n div exp h1 h2; omega
  | succ fuel ih =>
    intro n div exp h1 h2
    rw [sizeLoop]
    by_cases h : n ≥ 1024
    · rw [if_pos h]
      obtain ⟨j, e, l, u⟩ := ih (n / 1024) (div * 1024) (exp + 1) (by omega) (by omega)
      refine ⟨j + 1, ?_, ?_, ?_⟩
      · rw [e, Nat.pow_succ, Nat.mul_assoc, Nat.mul_comm 1024 (1024 ^ j), Nat.add_assoc,
          Nat.add_comm 1 j]
      · rw [Nat.pow_succ]; omega
      · rw [Nat.pow_succ]; omega
    · rw [if_neg h]
      exact ⟨0, by simp, by simpa using h2, by simpa using Nat.lt_of_not_le h⟩

theorem unitLetter_spec (j : Nat) (hj : j ≤ 5) :
    ∃ c, "KMGTPE".data.get? j = some c ∧ parseUnit [c, 'B'] = some (j + 1) := by
  interval_cases j <;> exact ⟨_, rfl, rfl⟩

/-- What `formatSize` returns from 1024 on. -/
theorem formatSize_large (s : Nat) (h1 : 1024 ≤ s) (h2 : s < 2 ^ 63) :
    ∃ (k : Nat) (c : Char), 1 ≤ k ∧ k ≤ 6 ∧ 1024 ^ k ≤ s ∧ s < 1024 ^ (k + 1) ∧
      "KMGTPE".data.get? (k - 1) = some c ∧ parseUnit [c, 'B'] = some k ∧
      formatSize (s : Int) =
        some (sprintF1 (float64 s) (1024 ^ k) ++ " " ++ String.singleton c ++ "B") := by
  obtain ⟨j, e, l, u⟩ := sizeLoop_spec (s / 1024) (s / 1024) 1024 0 (Nat.le_refl _) (by omega)
  have hl : 1024 ^ (j + 1) ≤ s := by rw [Nat.pow_succ]; omega
  have hu : s < 1024 ^ (j + 1 + 1) := by rw [Nat.pow_succ]; omega
  have hj : j ≤ 5 := by
    by_contra hc
    have : (1024 : Nat) ^ 7 ≤ 1024 ^ (j + 1) := Nat.pow_le_pow_right (by decide) (by omega)
    have h7 : (1024 : Nat) ^ 7 = 2 ^ 70 := by norm_num
    have : (2 : Nat) ^ 63 < 2 ^ 70 := by norm_num
    omega
  obtain ⟨c, hc, hp⟩ := unitLetter_spec j hj
  refine ⟨j + 1, c, by omega, by omega, hl, hu, by simpa using hc, hp, ?_⟩
  unfold formatSize
  rw [if_neg (by omega)]
  simp only [Int.toNat_ofNat, e, Nat.zero_add, hc]
  rw [show 1024 * 1024 ^ j = 1024 ^ (j + 1) by rw [Nat.pow_succ, Nat.mul_comm],
    float64_pow1024 (j + 1) (by omega)]

theorem toString_natCast (n : Nat) : toString (n : Int) = sprintD n := rfl

/-- Ten times the quantity the text of `formatSize` denotes. -/
theorem denoted_formatSize (s : Nat) (h2 : s < 2 ^ 63) :
    (s < 1024 → (formatSize (s : Int)).bind denotedTenths = some (10 * s)) ∧
    (1024 ≤ s → ∃ k, 1 ≤ k ∧ 1024 ^ k ≤ s ∧ s < 1024 ^ (k + 1) ∧
      (formatSize (s : Int)).bind denotedTenths =
        some (roundHalfEven (10 * float64 s) (1024 ^ k) * 1024 ^ k)) := by
  constructor
  · intro h
    unfold formatSize
    rw [if_pos (by omega), toString_natCast, Option.some_bind, denotedTenths, parseSize_bytes]
    simp
  · intro h
    obtain ⟨k, c, k1, _, l, u, _, hp, e⟩ := formatSize_large s h h2
    refine ⟨k, k1, l, u, ?_⟩
    rw [e, Option.some_bind, denotedTenths, sprintF1,
      parseSize_tenths _ _ k c (Nat.mod_lt _ (by decide)) hp]
    have ht : ∀ t : Nat, 10 * (t / 10) + t % 10 = t := fun t => by omega
    simp only [Option.map_some', ht]

/-- C7 as the code has it: below 1024 the text is the decimal numeral and ` B`; from 1024
on it is `float64(size) / 1024 ^ k` printed with one decimal digit (the nearest tenth,
the even digit in a tie), a space, the `k`-th letter of `KMGTPE` and `B`, where `k` is
the largest integer with `1024 ^ k ≤ size`, so `1 ≤ k ≤ 6` and the index is in range;
`float64(size)` is `size` itself below `2 ^ 53`, where the claim holds as stated; and the
eight listed values are produced. -/
theorem formatSize_spec (size : Int) (h0 : 0 ≤ size) (h1 : size ≤ 2 ^ 63 - 1) :
    (size < 1024 → formatSize size = some (toString size ++ " B")) ∧
    (1024 ≤ size → ∃ (k : Nat) (c : Char),
      1 ≤ k ∧ k ≤ 6 ∧ (1024 : Int) ^ k ≤ size ∧ size < (1024 : Int) ^ (k + 1) ∧
      "KMGTPE".data.get? (k - 1) = some c ∧
      formatSize size =
        some (sprintF1 (float64 size.toNat) (1024 ^ k) ++ " " ++ String.singleton c ++ "B") ∧
      nearestTenth (roundHalfEven (10 * float64 size.toNat) (1024 ^ k)) (float64 size.toNat)
        (1024 ^ k)) ∧
    (size < 2 ^ 53 → float64 size.toNat = size.toNat ∧ FormatSizeClaim size) ∧
    (formatSize 0 = some "0 B" ∧ formatSize 1023 = some "1023 B" ∧
      formatSize 1024 = some "1.0 KB" ∧ formatSize 1536 = some "1.5 KB" ∧
      formatSize 1500 = some "1.5 KB" ∧ formatSize (1024 * 1024) = some "1.0 MB" ∧
      formatSize (1024 ^ 3) = some "1.0 GB" ∧ formatSize (1024 ^ 4) = some "1.0 TB") := by
  obtain ⟨s, rfl⟩ := Int.eq_ofNat_of_zero_le h0
  have hs : s < 2 ^ 63 := by
    have : ((2 : Int) ^ 63 - 1) = ((2 ^ 63 - 1 : Nat) : Int) := by norm_num
    rw [this] at h1
    have := Int.ofNat_le.mp h1
    omega
  have hsmall : ((s : Int) < 1024 → formatSize (s : Int) = some (toString (s : Int) ++ " B")) := by
    intro h
    unfold formatSize
    rw [if_pos h]
  have hlarge : (1024 : Int) ≤ (s : Int) → ∃ (k : Nat) (c : Char),
      1 ≤ k ∧ k ≤ 6 ∧ (1024 : Int) ^ k ≤ (s : Int) ∧ (s : Int) < (1024 : Int) ^ (k + 1) ∧
      "KMGTPE".data.get? (k - 1) = some c ∧
      formatSize (s : Int) =
        some (sprintF1 (float64 s) (1024 ^ k) ++ " " ++ String.singleton c ++ "B") ∧
      nearestTenth (roundHalfEven (10 * float64 s) (1024 ^ k)) (float64 s) (1024 ^ k) := by
    intro h
    obtain ⟨k, c, k1, k6, l, u, hc, _, e⟩ := formatSize_large s (by omega) hs
    refine ⟨k, c, k1, k6, by exact_mod_cast l, by exact_mod_cast u, hc, e, ?_⟩
    exact roundHalfEven_near _ _ (Nat.pow_pos (by decide))
  refine ⟨hsmall, ?_, ?_, by decide⟩
  · intro h
    simpa using hlarge h
  · intro h53
    have h53' : s < 2 ^ 53 := by exact_mod_cast h53
    have hf : float64 s = s := float64_exact s h53'
    refine ⟨by simpa using hf, hsmall, ?_⟩
    intro h
    obtain ⟨k, c, k1, k6, l, u, hc, e, near⟩ := hlarge h
    refine ⟨k, roundHalfEven (10 * float64 s) (1024 ^ k), c, k1, k6, l, u, hc, ?_, ?_⟩
    · rw [e]; rfl
    · simp only [hf, Int.toNat_ofNat] at near ⊢
      exact near

/-- Witness for C7 at size 1536, which is above 1024 and below `2 ^ 53`. -/
theorem formatSize_spec_witness :
    (0 : Int) ≤ 1536 ∧ (1536 : Int) ≤ 2 ^ 63 - 1 ∧ (1024 : Int) ≤ 1536 ∧
    (1536 : Int) < 2 ^ 53 ∧
    (∃ (k : Nat) (c : Char),
      1 ≤ k ∧ k ≤ 6 ∧ (1024 : Int) ^ k ≤ 1536 ∧ (1536 : Int) < (1024 : Int) ^ (k + 1) ∧
      "KMGTPE".data.get? (k - 1) = some c ∧
      formatSize 1536 =
        some (sprintF1 (float64 (1536 : Int).toNat) (1024 ^ k) ++ " " ++ String.singleton c
          ++ "B") ∧
      nearestTenth (roundHalfEven (10 * float64 (1536 : Int).toNat) (1024 ^ k))
        (float64 (1536 : Int).toNat) (1024 ^ k)) ∧
    (float64 (1536 : Int).toNat = (1536 : Int).toNat ∧ FormatSizeClaim 1536) ∧
    formatSize 1536 = some "1.5 KB" :=
  ⟨by decide, by decide, by decide, by decide,
    (formatSize_spec 1536 (by decide) (by decide)).2.1 (by decide),
    (formatSize_spec 1536 (by decide) (by decide)).2.2.1 (by decide),
    (formatSize_spec 1536 (by decide) (by decide)).2.2.2.2.2.2.1⟩

/-- C7 does not hold as stated at size 9288674231451649 (`33 * 2 ^ 48 + 1`, above
`2 ^ 53`): the size is first converted to float64, which rounds it to `33 * 2 ^ 48`, and
the text is `8.2 PB`, although `size / 1024 ^ 5` exceeds 8.25 and its nearest tenth is
8.3. -/
theorem formatSize_claim_fails :
    formatSize 9288674231451649 = some "8.2 PB" ∧ ¬ FormatSizeClaim 9288674231451649 := by
  have hv : formatSize 9288674231451649 = some "8.2 PB" := by decide
  refine ⟨hv, ?_⟩
  rintro ⟨_, h⟩
  obtain ⟨k, t, c, k1, k6, l, u, hc, e, near⟩ := h (by decide)
  have hk : k = 5 := by
    interval_cases k <;> first | rfl | (exfalso; revert l u; norm_num)
  subst hk
  have hcP : c = 'P' := by
    have : "KMGTPE".data.get? (5 - 1) = some 'P' := rfl
    rw [this] at hc
    exact (Option.some.inj hc).symm
  subst hcP
  rw [hv] at e
  have hp := parseSize_tenths (t / 10) (t % 10) 5 'P' (Nat.mod_lt _ (by decide)) rfl
  rw [← Option.some.inj e] at hp
  have h82 : parseSize "8.2 PB" = some (82, 5) := by decide
  rw [h82] at hp
  have ht : t = 82 := by
    have := congrArg Prod.fst (Option.some.inj hp)
    simp only at this
    omega
  subst ht
  have hn : Int.toNat 9288674231451649 = 9288674231451649 := rfl
  rw [hn] at near
  revert near
  unfold nearestTenth
  norm_num

theorem denoted_ge (s k : Nat) (hs : s < 2 ^ 63) (l : 1024 ^ k ≤ s) (hk : k ≤ 7) :
    10 ≤ roundHalfEven (10 * float64 s) (1024 ^ k) := by
  apply roundHalfEven_ge _ _ _ (Nat.pow_pos (by decide))
  have h1 := float64_mono (1024 ^ k) s
    (Nat.lt_trans hs (Nat.pow_lt_pow_right (by decide) (by decide))) l
  rw [float64_pow1024 k hk] at h1
  omega

theorem denoted_le (s k : Nat) (u : s < 1024 ^ (k + 1)) (hk : k ≤ 6) :
    roundHalfEven (10 * float64 s) (1024 ^ k) ≤ 10240 := by
  apply roundHalfEven_le _ _ _ (Nat.pow_pos (by decide))
  have h7 : (1024 : Nat) ^ (k + 1) < 2 ^ 117 := by
    calc (1024 : Nat) ^ (k + 1) ≤ 1024 ^ 7 := Nat.pow_le_pow_right (by decide) (by omega)
      _ < 2 ^ 117 := by norm_num
  have h1 := float64_mono s (1024 ^ (k + 1)) h7 (Nat.le_of_lt u)
  rw [float64_pow1024 (k + 1) (by omega), Nat.pow_succ] at h1
  omega

/-- C8: `formatSize` is monotonic: for `0 ≤ a ≤ b` the quantity the text of
`formatSize(a)` denotes (its printed number times the bytes of its unit) is at most the
one the text of `formatSize(b)` denotes, also across a change of unit; at the boundaries
1023 to 1024 and `1024 * 1024 - 1` to `1024 * 1024` the denoted quantities are 1023 and
1024 bytes, and `1024.0 KB` and `1.0 MB`, which are the same quantity. (Quantities are
given in tenths of a byte.) -/
theorem formatSize_monotone (a b : Int) (h0 : 0 ≤ a) (hab : a ≤ b) (hb : b ≤ 2 ^ 63 - 1) :
    (∃ qa qb : Nat, (formatSize a).bind denotedTenths = some qa ∧
      (formatSize b).bind denotedTenths = some qb ∧ qa ≤ qb) ∧
    ((formatSize 1023).bind denotedTenths = some (10 * 1023) ∧
      (formatSize 1024).bind denotedTenths = some (10 * 1024) ∧
      formatSize (1024 * 1024 - 1) = some "1024.0 KB" ∧
      (formatSize (1024 * 1024 - 1)).bind denotedTenths = some (10 * (1024 * 1024)) ∧
      formatSize (1024 * 1024) = some "1.0 MB" ∧
      (formatSize (1024 * 1024)).bind denotedTenths = some (10 * (1024 * 1024))) := by
  refine ⟨?_, by decide⟩
  obtain ⟨x, rfl⟩ := Int.eq_ofNat_of_zero_le h0
  obtain ⟨y, rfl⟩ := Int.eq_ofNat_of_zero_le (Int.le_trans h0 hab)
  have hxy : x ≤ y := Int.ofNat_le.mp hab
  have hy : y < 2 ^ 63 := by
    have : ((2 : Int) ^ 63 - 1) = ((2 ^ 63 - 1 : Nat) : Int) := by norm_num
    rw [this] at hb
    have := Int.ofNat_le.mp hb
    omega
  have hx : x < 2 ^ 63 := Nat.lt_of_le_of_lt hxy hy
  obtain ⟨xs, xl⟩ := denoted_formatSize x hx
  obtain ⟨ys, yl⟩ := denoted_formatSize y hy
  have k6 : ∀ s k : Nat, s < 2 ^ 63 → 1024 ^ k ≤ s → k ≤ 6 := by
    intro s k hs l
    by_contra hc
    have : (1024 : Nat) ^ 7 ≤ 1024 ^ k := Nat.pow_le_pow_right (by decide) (by omega)
    have h7 : (1024 : Nat) ^ 7 = 2 ^ 70 := by norm_num
    have : (2 : Nat) ^ 63 < 2 ^ 70 := by norm_num
    omega
  by_cases hx1 : x < 1024
  · by_cases hy1 : y < 1024
    · exact ⟨_, _, xs hx1, ys hy1, by omega⟩
    · obtain ⟨k, k1, l, u, e⟩ := yl (by omega)
      refine ⟨_, _, xs hx1, e, ?_⟩
      have hge := denoted_ge y k hy l (by have := k6 y k hy l; omega)
      have hp : 1024 ^ 1 ≤ 1024 ^ k := Nat.pow_le_pow_right (by decide) k1
      calc 10 * x ≤ 10 * 1024 ^ 1 := by omega
        _ ≤ 10 * 1024 ^ k := Nat.mul_le_mul_left _ hp
        _ ≤ roundHalfEven (10 * float64 y) (1024 ^ k) * 1024 ^ k :=
          Nat.mul_le_mul_right _ hge
  · obtain ⟨j, j1, lj, uj, ej⟩ := xl (by omega)
    obtain ⟨k, k1, lk, uk, ek⟩ := yl (by omega)
    refine ⟨_, _, ej, ek, ?_⟩
    have hjk : j ≤ k := by
      by_contra hc
      have : (1024 : Nat) ^ (k + 1) ≤ 1024 ^ j := Nat.pow_le_pow_right (by decide) (by omega)
      omega
    have hj6 := k6 x j hx lj
    have hk6 := k6 y k hy lk
    rcases Nat.lt_or_ge j k with hlt | hge
    · have h1 := denoted_le x j uj hj6
      have h2 := denoted_ge y k hy lk (by omega)
      have hp : 1024 ^ (j + 1) ≤ 1024 ^ k := Nat.pow_le_pow_right (by decide) hlt
      calc roundHalfEven (10 * float64 x) (1024 ^ j) * 1024 ^ j
          ≤ 10240 * 1024 ^ j := Nat.mul_le_mul_right _ h1
        _ = 10 * 1024 ^ (j + 1) := by rw [Nat.pow_succ]; omega
        _ ≤ 10 * 1024 ^ k := Nat.mul_le_mul_left _ hp
        _ ≤ roundHalfEven (10 * float64 y) (1024 ^ k) * 1024 ^ k :=
          Nat.mul_le_mul_right _ h2
    · have hjk' : j = k := Nat.le_antisymm hjk hge
      subst hjk'
      apply Nat.mul_le_mul_right
      apply roundHalfEven_mono _ _ _ (Nat.pow_pos (by decide))
      have := float64_mono x y (Nat.lt_trans hy (Nat.pow_lt_pow_right (by decide) (by decide)))
        hxy
      omega

/-- Witness for C8: the step over the first unit boundary. -/
theorem formatSize_monotone_witness :
    (0 : Int) ≤ 1023 ∧ (1023 : Int) ≤ 1024 ∧ (1024 : Int) ≤ 2 ^ 63 - 1 ∧
    ∃ qa qb : Nat, (formatSize 1023).bind denotedTenths = some qa ∧
      (formatSize 1024).bind denotedTenths = some qb ∧ qa ≤ qb :=
  ⟨by decide, by decide, by decide,
    (formatSize_monotone 1023 1024 (by decide) (by decide) (by decide)).1⟩

/-! ## The glyph table and the command-line lists -/

/-- C17: `getTreeChars` returns one of four fixed glyph sets: the Unicode and the ASCII
non-compact sets are the ones listed, in both compact sets each of the five strings is one
character (mid-item `+` for ASCII, `├` for Unicode), and in every set Line and Indent have
as many characters as LastItem and MiddleItem. -/
theorem getTreeChars_spec :
    getTreeChars true false = ⟨"│   ", "├── ", "└── ", "├── ", "    "⟩ ∧
    getTreeChars false false = ⟨"|   ", "|-- ", "`-- ", "+-- ", "    "⟩ ∧
    (∀ u : Bool,
      (getTreeChars u true).Line.length = 1 ∧ (getTreeChars u true).Branch.length = 1 ∧
      (getTreeChars u true).LastItem.length = 1 ∧
      (getTreeChars u true).MiddleItem.length = 1 ∧
      (getTreeChars u true).Indent.length = 1) ∧
    (getTreeChars false true).MiddleItem = "+" ∧
    (getTreeChars true true).MiddleItem = "├" ∧
    (∀ u c : Bool,
      (getTreeChars u c).Line.length = (getTreeChars u c).LastItem.length ∧
      (getTreeChars u c).Line.length = (getTreeChars u c).MiddleItem.length ∧
      (getTreeChars u c).Indent.length = (getTreeChars u c).LastItem.length ∧
      (getTreeChars u c).Indent.length = (getTreeChars u c).MiddleItem.length) ∧
    (∀ u c : Bool, ∀ pre : String,
      (pre ++ (getTreeChars u c).Line).length = (pre ++ (getTreeChars u c).LastItem).length ∧
      (pre ++ (getTreeChars u c).Indent).length =
        (pre ++ (getTreeChars u c).MiddleItem).length) := by
  have key : ∀ u c : Bool,
      (getTreeChars u c).Line.length = (getTreeChars u c).LastItem.length ∧
      (getTreeChars u c).Line.length = (getTreeChars u c).MiddleItem.length ∧
      (getTreeChars u c).Indent.length = (getTreeChars u c).LastItem.length ∧
      (getTreeChars u c).Indent.length = (getTreeChars u c).MiddleItem.length := by decide
  refine ⟨by decide, by decide, by decide, by decide, by decide, key, ?_⟩
  intro u c pre
  simp only [String.length_append]
  exact ⟨by rw [(key u c).1], by rw [(key u c).2.2.2]⟩

theorem splitChars_ne_nil (l : List Char) : splitChars l ≠ [] := by
  cases l with
  | nil => simp [splitChars]
  | cons c cs =>
    rw [splitChars]
    split
    · simp
    · split <;> simp

theorem splitChars_cons_ne (c : Char) (cs : List Char) (h : c ≠ ',') :
    ∃ p ps, splitChars cs = p :: ps ∧ splitChars (c :: cs) = (c :: p) :: ps := by
  cases hs : splitChars cs with
  | nil => exact absurd hs (splitChars_ne_nil cs)
  | cons p ps => exact ⟨p, ps, rfl, by rw [splitChars, if_neg h, hs]⟩

theorem splitChars_length (l : List Char) : (splitChars l).length = l.count ',' + 1 := by
  induction l with
  | nil => simp [splitChars]
  | cons c cs ih =>
    by_cases h : c = ','
    · subst h
      rw [splitChars, if_pos rfl]
      simp [ih]
    · obtain ⟨p, ps, h1, h2⟩ := splitChars_cons_ne c cs h
      rw [h2, List.count_cons_of_ne (Ne.symm h), ← ih, h1]
      simp

theorem splitChars_intercalate (l : List Char) : List.intercalate [','] (splitChars l) = l := by
  induction l with
  | nil => simp [splitChars, List.intercalate]
  | cons c cs ih =>
    by_cases h : c = ','
    · subst h
      rw [splitChars, if_pos rfl]
      cases hs : splitChars cs with
      | nil => exact absurd hs (splitChars_ne_nil cs)
      | cons p ps =>
        rw [hs] at ih
        simp only [List.intercalate] at ih ⊢
        simp [List.intersperse, ih]
    · obtain ⟨p, ps, h1, h2⟩ := splitChars_cons_ne c cs h
      rw [h2]
      rw [h1] at ih
      simp only [List.intercalate] at ih ⊢
      cases ps with
      | nil => simp [List.intersperse] at ih ⊢; exact ih
      | cons q qs => simp [List.intersperse] at ih ⊢; exact ih

theorem splitChars_no_comma (l : List Char) : ∀ p ∈ splitChars l, ',' ∉ p := by
  induction l with
  | nil => simp [splitChars]
  | cons c cs ih =>
    by_cases h : c = ','
    · subst h
      rw [splitChars, if_pos rfl]
      intro p hp
      rcases List.mem_cons.1 hp with rfl | hp
      · simp
      · exact ih p hp
    · obtain ⟨p, ps, h1, h2⟩ := splitChars_cons_ne c cs h
      rw [h2]
      rw [h1] at ih
      intro q hq
      rcases List.mem_cons.1 hq with rfl | hq
      · intro hmem
        rcases List.mem_cons.1 hmem with hc | hc
        · exact h hc.symm
        · exact ih p (List.mem_cons_self _ _) hc
      · exact ih q (List.mem_cons_of_mem _ hq)

theorem splitChars_of_no_comma (p : List Char) (h : ',' ∉ p) : splitChars p = [p] := by
  induction p with
  | nil => simp [splitChars]
  | cons c cs ih =>
    have hc : c ≠ ',' := fun e => h (by simp [e])
    have hcs : ',' ∉ cs := fun e => h (List.mem_cons_of_mem _ e)
    rw [splitChars, if_neg hc, ih hcs]

theorem splitChars_append_comma (a b : List Char) :
    splitChars (a ++ ',' :: b) = splitChars a ++ splitChars b := by
  induction a with
  | nil => simp [splitChars]
  | cons c cs ih =>
    by_cases h : c = ','
    · subst h
      simp only [List.cons_append]
      rw [splitChars, if_pos rfl, ih, splitChars, if_pos rfl]
      rfl
    · obtain ⟨p, ps, h1, h2⟩ := splitChars_cons_ne c cs h
      simp only [List.cons_append]
      rw [splitChars, if_neg h, ih, h2, h1]
      rfl

/-- A list of comma-free pieces is what `splitChars` returns on its comma-join. -/
theorem splitChars_unique (ps : List (List Char)) (hne : ps ≠ []) (h : ∀ p ∈ ps, ',' ∉ p) :
    splitChars (List.intercalate [','] ps) = ps := by
  induction ps with
  | nil => exact absurd rfl hne
  | cons p ps ih =>
    cases ps with
    | nil =>
      have e : List.intercalate [','] [p] = p := by simp [List.intercalate, List.intersperse]
      rw [e]
      exact splitChars_of_no_comma p (h p (List.mem_cons_self _ _))
    | cons q qs =>
      have ih := ih (by simp) (fun x hx => h x (List.mem_cons_of_mem _ hx))
      have e : List.intercalate [','] (p :: q :: qs) =
          p ++ ',' :: List.intercalate [','] (q :: qs) := by
        simp [List.intercalate, List.intersperse]
      rw [e, splitChars_append_comma, ih, splitChars_of_no_comma p (h p (List.mem_cons_self _ _))]
      rfl

theorem TrimSpace_decomp (s : String) :
    ∃ lead trail, s.data = lead ++ (TrimSpace s).data ++ trail ∧
      (∀ c ∈ lead, IsSpace c = true) ∧ (∀ c ∈ trail, IsSpace c = true) := by
  refine ⟨s.data.takeWhile IsSpace,
    ((s.data.dropWhile IsSpace).reverse.takeWhile IsSpace).reverse, ?_, ?_, ?_⟩
  · have h1 := List.takeWhile_append_dropWhile IsSpace s.data
    have h2 := List.takeWhile_append_dropWhile IsSpace (s.data.dropWhile IsSpace).reverse
    have h3 : s.data.dropWhile IsSpace =
        ((s.data.dropWhile IsSpace).reverse.dropWhile IsSpace).reverse ++
          ((s.data.dropWhile IsSpace).reverse.takeWhile IsSpace).reverse := by
      rw [← List.reverse_append, h2, List.reverse_reverse]
    simp only [TrimSpace, List.append_assoc]
    rw [← h3, h1]
  · intro c hc
    exact List.mem_takeWhile_imp hc
  · intro c hc
    exact List.mem_takeWhile_imp (List.mem_reverse.1 hc)

theorem TrimSpace_head (s : String) (c : Char) (rest : List Char)
    (h : (TrimSpace s).data = c :: rest) : IsSpace c = false := by
  obtain ⟨lead, trail, h1, -, -⟩ := TrimSpace_decomp s
  have h3 : s.data.dropWhile IsSpace =
      ((s.data.dropWhile IsSpace).reverse.dropWhile IsSpace).reverse ++
        ((s.data.dropWhile IsSpace).reverse.takeWhile IsSpace).reverse := by
    rw [← List.reverse_append, List.takeWhile_append_dropWhile, List.reverse_reverse]
  have h4 : (TrimSpace s).data =
      ((s.data.dropWhile IsSpace).reverse.dropWhile IsSpace).reverse := rfl
  rw [← h4, h] at h3
  have h5 := List.head?_dropWhile_not IsSpace s.data
  rw [h3] at h5
  simpa using h5

theorem TrimSpace_last (s : String) (front : List Char) (c : Char)
    (h : (TrimSpace s).data = front ++ [c]) : IsSpace c = false := by
  have h4 : (TrimSpace s).data =
      ((s.data.dropWhile IsSpace).reverse.dropWhile IsSpace).reverse := rfl
  rw [h4] at h
  have h5 := List.head?_dropWhile_not IsSpace (s.data.dropWhile IsSpace).reverse
  have h6 : (s.data.dropWhile IsSpace).reverse.dropWhile IsSpace = c :: front.reverse := by
    have := congrArg List.reverse h
    simpa using this
  rw [h6] at h5
  simpa using h5

theorem TrimSpace_blank (s : String) (h : ∀ c ∈ s.data, IsSpace c = true) :
    TrimSpace s = "" := by
  have h1 : s.data.dropWhile IsSpace = [] := by
    rw [List.dropWhile_eq_nil_iff]
    exact h
  simp only [TrimSpace, h1]
  rfl

theorem splitCommaString_of_ne (s : String) (h : s ≠ "") :
    splitCommaString s = (splitChars s.data).map (fun p => TrimSpace ⟨p⟩) := by
  simp [splitCommaString, h, Split, List.map_map, Function.comp_def]

/-- C18: `splitCommaString("")` is the empty list; for a non-empty `s` the result is the
list of the pieces of `s` between the commas (the comma-free strings whose comma-join is
`s`), in order, each with its leading and trailing white space removed, and it has one
element more than `s` has commas. -/
theorem splitCommaString_spec :
    splitCommaString "" = [] ∧
    (∀ s : String, s ≠ "" →
      ∃ pieces : List (List Char),
        List.intercalate [','] pieces = s.data ∧ (∀ p ∈ pieces, ',' ∉ p) ∧
        splitCommaString s = pieces.map (fun p => TrimSpace ⟨p⟩) ∧
        (splitCommaString s).length = s.data.count ',' + 1) ∧
    (∀ pieces : List (List Char), pieces ≠ [] → (∀ p ∈ pieces, ',' ∉ p) →
      List.intercalate [','] pieces ≠ [] →
      splitCommaString ⟨List.intercalate [','] pieces⟩ =
        pieces.map (fun p => TrimSpace ⟨p⟩)) ∧
    (∀ p : String, ∃ lead trail : List Char,
      p.data = lead ++ (TrimSpace p).data ++ trail ∧
      (∀ c ∈ lead, IsSpace c = true) ∧ (∀ c ∈ trail, IsSpace c = true) ∧
      (∀ c rest, (TrimSpace p).data = c :: rest → IsSpace c = false) ∧
      (∀ front c, (TrimSpace p).data = front ++ [c] → IsSpace c = false)) ∧
    splitCommaString "node_modules, bin, obj" = ["node_modules", "bin", "obj"] ∧
    splitCommaString "node_modules,bin,obj" = ["node_modules", "bin", "obj"] ∧
    splitCommaString "node_modules" = ["node_modules"] := by
  refine ⟨by decide, ?_, ?_, ?_, by decide, by decide, by decide⟩
  · intro s hs
    refine ⟨splitChars s.data, splitChars_intercalate _, splitChars_no_comma _,
      splitCommaString_of_ne s hs, ?_⟩
    rw [splitCommaString_of_ne s hs, List.length_map, splitChars_length]
  · intro pieces hne hp hs
    have hs2 : (⟨List.intercalate [','] pieces⟩ : String) ≠ "" :=
      fun e => hs (congrArg String.data e)
    rw [splitCommaString_of_ne _ hs2]
    exact congrArg _ (splitChars_unique pieces hne hp)
  · intro p
    obtain ⟨lead, trail, h1, h2, h3⟩ := TrimSpace_decomp p
    exact ⟨lead, trail, h1, h2, h3, TrimSpace_head p, TrimSpace_last p⟩

/-! ## An empty entry in the extension list -/

theorem keepFile_of_empty_ext (E : GoEnv) (config : Config) (h : "" ∈ config.ExcludeFiles)
    (e : Entry) : keepFile E config e = false := by
  have hx : shouldExcludeFile E e.Name config.ExcludeFiles config.ExcludeNames = true := by
    rw [shouldExcludeFile_iff]
    refine Or.inr ⟨"", h, ToLower E e.Name, ?_⟩
    apply String.ext
    simp [ToLower]
  simp [keepFile, hx]

/-- When the Filter keeps no file for two configurations that agree on the folders, the
depth limit and the colours, their walks are the same. -/
theorem walkDir_files_hidden (E : GoEnv) (config config2 : Config) (treeChars : TreeChars)
    (hk : ∀ e, keepFile E config e = false) (hk2 : ∀ e, keepFile E config2 e = false)
    (hF : config2.ExcludeFolders = config.ExcludeFolders)
    (hM : config2.MaxDepth = config.MaxDepth) (hC : config2.Color = config.Color)
    (hB : config2.BgColor = config.BgColor) (read : Except String (List Entry)) :
    ∀ (path pre lastPrefix : String) (depth : Int) (w : World),
      walkDir E config path pre lastPrefix depth treeChars read w =
        walkDir E config2 path pre lastPrefix depth treeChars read w := by
  have hd : keepDir config2 = keepDir config := by
    funext e; simp [keepDir, hF]
  have hr : ∀ name isLast pre out, renderDir name isLast pre config2 treeChars out =
      renderDir name isLast pre config treeChars out := by
    intro name isLast pre out; simp [renderDir, hC, hB]
  induction read using read_induction with
  | herr msg =>
    intro path pre lastPrefix depth w
    by_cases hc : config.MaxDepth ≠ -1 ∧ depth > config.MaxDepth
    · rw [walkDir_cut _ _ _ _ _ _ _ _ _ hc, walkDir_cut _ _ _ _ _ _ _ _ _ (hM ▸ hc)]
    · rw [walkDir_error _ _ _ _ _ _ _ _ _ hc, walkDir_error _ _ _ _ _ _ _ _ _ (hM ▸ hc)]
  | hok entries ih =>
    intro path pre lastPrefix depth w
    by_cases hc : config.MaxDepth ≠ -1 ∧ depth > config.MaxDepth
    · rw [walkDir_cut _ _ _ _ _ _ _ _ _ hc, walkDir_cut _ _ _ _ _ _ _ _ _ (hM ▸ hc)]
    · rw [walkDir_ok _ _ _ _ _ _ _ _ _ hc, walkDir_ok _ _ _ _ _ _ _ _ _ (hM ▸ hc)]
      have hf1 : entries.filter (keepFile E config) = [] :=
        List.filter_eq_nil_iff.2 (fun e _ => by simp [hk e])
      have hf2 : entries.filter (keepFile E config2) = [] :=
        List.filter_eq_nil_iff.2 (fun e _ => by simp [hk2 e])
      rw [hf1, hf2, hd, walkFiles_nil, walkFiles_nil]
      have hdirs : ∀ (dirs : List Entry), (∀ e ∈ dirs, e ∈ entries) →
          ∀ (nDirs nFiles i : Nat) (w : World),
          walkDirs E config path pre depth treeChars nDirs nFiles i dirs w =
            walkDirs E config2 path pre depth treeChars nDirs nFiles i dirs w := by
        intro dirs
        induction dirs with
        | nil => intro _ nDirs nFiles i w; rw [walkDirs_nil, walkDirs_nil]
        | cons e rest ihd =>
          intro hmem nDirs nFiles i w
          rw [walkDirs_cons, walkDirs_cons,
            ihd (fun x hx => hmem x (List.mem_cons_of_mem _ hx)),
            ih e (hmem e (List.mem_cons_self _ _)), hr]
      exact hdirs _ (fun e he => (List.mem_filter.mp he).1) _ _ _ _

/-- When the Filter keeps no file, a walk changes nothing but the directory counter. -/
theorem walkDir_no_file_counted (E : GoEnv) (config : Config) (treeChars : TreeChars)
    (hk : ∀ e, keepFile E config e = false) (read : Except String (List Entry)) :
    ∀ (path pre lastPrefix : String) (depth : Int) (w : World),
      (walkDir E config path pre lastPrefix depth treeChars read w).stats.TotalFiles =
        w.stats.TotalFiles ∧
      (walkDir E config path pre lastPrefix depth treeChars read w).stats.TotalSize =
        w.stats.TotalSize ∧
      (walkDir E config path pre lastPrefix depth treeChars read w).stats.FileTypes =
        w.stats.FileTypes ∧
      (walkDir E config path pre lastPrefix depth treeChars read w).stats.LargeFiles =
        w.stats.LargeFiles := by
  induction read using read_induction with
  | herr msg =>
    intro path pre lastPrefix depth w
    by_cases hc : config.MaxDepth ≠ -1 ∧ depth > config.MaxDepth
    · rw [walkDir_cut _ _ _ _ _ _ _ _ _ hc]; simp
    · rw [walkDir_error _ _ _ _ _ _ _ _ _ hc]; simp
  | hok entries ih =>
    intro path pre lastPrefix depth w
    by_cases hc : config.MaxDepth ≠ -1 ∧ depth > config.MaxDepth
    · rw [walkDir_cut _ _ _ _ _ _ _ _ _ hc]; simp
    · rw [walkDir_ok _ _ _ _ _ _ _ _ _ hc]
      have hf1 : entries.filter (keepFile E config) = [] :=
        List.filter_eq_nil_iff.2 (fun e _ => by simp [hk e])
      rw [hf1, walkFiles_nil]
      have hdirs : ∀ (dirs : List Entry), (∀ e ∈ dirs, e ∈ entries) →
          ∀ (nDirs nFiles i : Nat) (w : World),
          (walkDirs E config path pre depth treeChars nDirs nFiles i dirs w).stats.TotalFiles =
            w.stats.TotalFiles ∧
          (walkDirs E config path pre depth treeChars nDirs nFiles i dirs w).stats.TotalSize =
            w.stats.TotalSize ∧
          (walkDirs E config path pre depth treeChars nDirs nFiles i dirs w).stats.FileTypes =
            w.stats.FileTypes ∧
          (walkDirs E config path pre depth treeChars nDirs nFiles i dirs w).stats.LargeFiles =
            w.stats.LargeFiles := by
        intro dirs
        induction dirs with
        | nil => intro _ nDirs nFiles i w; rw [walkDirs_nil]; simp
        | cons e rest ihd =>
          intro hmem nDirs nFiles i w
          rw [walkDirs_cons]
          obtain ⟨a1, a2, a3, a4⟩ := ihd (fun x hx => hmem x (List.mem_cons_of_mem _ hx))
            nDirs nFiles (i + 1)
            (walkDir E config (E.Join path e.Name)
              (renderDir e.Name (decide ((i : Int) = (nDirs : Int) - 1) && decide (nFiles = 0))
                pre config treeChars w.out).2.1
              (renderDir e.Name (decide ((i : Int) = (nDirs : Int) - 1) && decide (nFiles = 0))
                pre config treeChars w.out).2.2
              (depth + 1) treeChars e.ReadDir
              ⟨w.stats.addDir,
                (renderDir e.Name
                  (decide ((i : Int) = (nDirs : Int) - 1) && decide (nFiles = 0))
                  pre config treeChars w.out).1⟩)
          obtain ⟨b1, b2, b3, b4⟩ := ih e (hmem e (List.mem_cons_self _ _))
            (E.Join path e.Name)
            (renderDir e.Name (decide ((i : Int) = (nDirs : Int) - 1) && decide (nFiles = 0))
              pre config treeChars w.out).2.1
            (renderDir e.Name (decide ((i : Int) = (nDirs : Int) - 1) && decide (nFiles = 0))
              pre config treeChars w.out).2.2
            (depth + 1)
            ⟨w.stats.addDir,
              (renderDir e.Name
                (decide ((i : Int) = (nDirs : Int) - 1) && decide (nFiles = 0))
                pre config treeChars w.out).1⟩
          rw [a1, a2, a3, a4, b1, b2, b3, b4]
          simp [Stats.addDir]
      exact hdirs _ (fun e he => (List.mem_filter.mp he).1) _ _ _ _

theorem splitCommaString_blank (s : String) (hs : s ≠ "") (p : List Char)
    (hp : p ∈ splitChars s.data) (hb : ∀ c ∈ p, IsSpace c = true) :
    "" ∈ splitCommaString s := by
  rw [splitCommaString_of_ne s hs, List.mem_map]
  exact ⟨p, hp, TrimSpace_blank ⟨p⟩ hb⟩

theorem blank_no_comma (ws : List Char) (hb : ∀ c ∈ ws, IsSpace c = true) : ',' ∉ ws :=
  fun h => absurd (hb ',' h) (by decide)

/-- C20: an empty entry in the extension list excludes every file; `splitCommaString`
yields such an entry for a non-empty input with a blank piece, in particular with a
leading, a trailing or a doubled comma; and a walk whose extension list has an empty entry
is the walk that shows no files: it renders none and leaves TotalFiles, TotalSize,
FileTypes and LargeFiles as they were (TotalFiles = 0 from the empty Stats). -/
theorem empty_extension_excludes_all (E : GoEnv) :
    (∀ (name : String) (excludeFiles excludeNames : List String), "" ∈ excludeFiles →
      shouldExcludeFile E name excludeFiles excludeNames = true) ∧
    (∀ s : String, s ≠ "" → (∃ p ∈ Split s, ∀ c ∈ p.data, IsSpace c = true) →
      "" ∈ splitCommaString s) ∧
    (∀ ws b : List Char, (∀ c ∈ ws, IsSpace c = true) →
      "" ∈ splitCommaString ⟨ws ++ ',' :: b⟩) ∧
    (∀ a ws : List Char, (∀ c ∈ ws, IsSpace c = true) →
      "" ∈ splitCommaString ⟨a ++ ',' :: ws⟩) ∧
    (∀ a ws b : List Char, (∀ c ∈ ws, IsSpace c = true) →
      "" ∈ splitCommaString ⟨a ++ ',' :: (ws ++ ',' :: b)⟩) ∧
    splitCommaString ".exe," = [".exe", ""] ∧
    splitCommaString ",.exe" = ["", ".exe"] ∧
    splitCommaString ".exe,,.dll" = [".exe", "", ".dll"] ∧
    splitCommaString ".exe, ,.dll" = [".exe", "", ".dll"] ∧
    (∀ (config : Config) (treeChars : TreeChars) (read : Except String (List Entry))
      (path pre lastPrefix : String) (depth : Int) (w : World),
      "" ∈ config.ExcludeFiles →
      walkDir E config path pre lastPrefix depth treeChars read w =
        walkDir E { config with ShowFiles := false } path pre lastPrefix depth treeChars
          read w ∧
      (walkDir E config path pre lastPrefix depth treeChars read w).stats.TotalFiles =
        w.stats.TotalFiles ∧
      (walkDir E config path pre lastPrefix depth treeChars read w).stats.TotalSize =
        w.stats.TotalSize ∧
      (walkDir E config path pre lastPrefix depth treeChars read w).stats.FileTypes =
        w.stats.FileTypes ∧
      (walkDir E config path pre lastPrefix depth treeChars read w).stats.LargeFiles =
        w.stats.LargeFiles) ∧
    (∀ (config : Config) (treeChars : TreeChars) (read : Except String (List Entry))
      (path pre lastPrefix s : String) (depth : Int),
      config.ExcludeFiles = splitCommaString s → s ≠ "" →
      (∃ p ∈ Split s, ∀ c ∈ p.data, IsSpace c = true) →
      (walkDir E config path pre lastPrefix depth treeChars read
        ⟨Stats.empty, []⟩).stats.TotalFiles = 0) := by
  have hblank : ∀ s : String, s ≠ "" → (∃ p ∈ Split s, ∀ c ∈ p.data, IsSpace c = true) →
      "" ∈ splitCommaString s := by
    rintro s hs ⟨p, hp, hb⟩
    obtain ⟨q, hq, rfl⟩ := List.mem_map.1 hp
    exact splitCommaString_blank s hs q hq hb
  have hwalk : ∀ (config : Config) (treeChars : TreeChars)
      (read : Except String (List Entry)) (path pre lastPrefix : String) (depth : Int)
      (w : World), "" ∈ config.ExcludeFiles →
      (walkDir E config path pre lastPrefix depth treeChars read w).stats.TotalFiles =
        w.stats.TotalFiles ∧
      (walkDir E config path pre lastPrefix depth treeChars read w).stats.TotalSize =
        w.stats.TotalSize ∧
      (walkDir E config path pre lastPrefix depth treeChars read w).stats.FileTypes =
        w.stats.FileTypes ∧
      (walkDir E config path pre lastPrefix depth treeChars read w).stats.LargeFiles =
        w.stats.LargeFiles := by
    intro config treeChars read path pre lastPrefix depth w h
    exact walkDir_no_file_counted E config treeChars (keepFile_of_empty_ext E config h) read
      path pre lastPrefix depth w
  refine ⟨?_, hblank, ?_, ?_, ?_, by decide, by decide, by decide, by decide, ?_, ?_⟩
  · intro name excludeFiles excludeNames h
    rw [shouldExcludeFile_iff]
    refine Or.inr ⟨"", h, ToLower E name, ?_⟩
    apply String.ext
    simp [ToLower]
  · intro ws b hb
    refine splitCommaString_blank _ (fun e => ?_) ws ?_ hb
    · have := congrArg String.data e
      simp at this
    · show ws ∈ splitChars (ws ++ ',' :: b)
      rw [splitChars_append_comma, splitChars_of_no_comma ws (blank_no_comma ws hb)]
      simp
  · intro a ws hb
    refine splitCommaString_blank _ (fun e => ?_) ws ?_ hb
    · have := congrArg String.data e
      simp at this
    · show ws ∈ splitChars (a ++ ',' :: ws)
      rw [splitChars_append_comma, splitChars_of_no_comma ws (blank_no_comma ws hb)]
      simp
  · intro a ws b hb
    refine splitCommaString_blank _ (fun e => ?_) ws ?_ hb
    · have := congrArg String.data e
      simp at this
    · show ws ∈ splitChars (a ++ ',' :: (ws ++ ',' :: b))
      rw [splitChars_append_comma, splitChars_append_comma,
        splitChars_of_no_comma ws (blank_no_comma ws hb)]
      simp
  · intro config treeChars read path pre lastPrefix depth w h
    refine ⟨?_, hwalk config treeChars read path pre lastPrefix depth w h⟩
    exact walkDir_files_hidden E config { config with ShowFiles := false } treeChars
      (keepFile_of_empty_ext E config h) (fun e => by simp [keepFile]) rfl rfl rfl rfl read
      path pre lastPrefix depth w
  · intro config treeChars read path pre lastPrefix s depth hcfg hs hb
    have h : "" ∈ config.ExcludeFiles := hcfg ▸ hblank s hs hb
    exact (hwalk config treeChars read path pre lastPrefix depth ⟨Stats.empty, []⟩ h).1

/-! ## What a walk writes -/

theorem renderDir_out (name : String) (isLast : Bool) (pre : String) (config : Config)
    (treeChars : TreeChars) (out : List Chunk) :
    (renderDir name isLast pre config treeChars out).1 =
      out ++ dirLine name isLast pre config treeChars ∧
    (renderDir name isLast pre config treeChars out).2.1 =
      (if isLast then pre ++ treeChars.Indent else pre ++ treeChars.Line) := by
  cases isLast <;> cases hC : config.Color <;> cases hB : config.BgColor <;>
    simp [dirLine, renderDir, Print, colorPrint, hC, hB]

theorem renderFile_out (name : String) (isLast : Bool) (pre : String) (isSymlink : Bool)
    (config : Config) (treeChars : TreeChars) (out : List Chunk) :
    renderFile name isLast pre isSymlink config treeChars out =
      out ++ renderFile name isLast pre isSymlink config treeChars [] := by
  cases isLast <;> cases isSymlink <;> cases hC : config.Color <;>
    cases hB : config.BgColor <;>
    simp [renderFile, Print, colorPrint, hC, hB]

theorem walkFiles_out (E : GoEnv) (config : Config) (path pre : String)
    (treeChars : TreeChars) (nFiles : Nat) (files : List Entry) :
    ∀ (i : Nat) (w : World),
      (walkFiles E config path pre treeChars nFiles i files w).out =
        w.out ++ eachIdx (fun j f =>
          fileOut E config path pre treeChars (fileIsLast j nFiles) f) i files := by
  induction files with
  | nil => intro i w; rw [walkFiles_nil]; simp [eachIdx]
  | cons e rest ih =>
    intro i w
    rw [walkFiles_cons, ih, eachIdx, ← List.append_assoc]
    congr 1
    unfold fileOut fileIsLast
    cases e.Info with
    | error err => simp [Print]
    | ok info => exact renderFile_out _ _ _ _ _ _ _

/-- What a walk of a listed directory writes after what is already on the terminal: the
lines of the kept directories, each followed by what the walk of that directory writes on
its own, then the lines of the kept files. -/
theorem walkDir_out (E : GoEnv) (config : Config) (treeChars : TreeChars)
    (read : Except String (List Entry)) :
    ∀ (path pre lastPrefix : String) (depth : Int) (w : World),
      (walkDir E config path pre lastPrefix depth treeChars read w).out =
        w.out ++ walkOut E config path pre depth treeChars read := by
  induction read using read_induction with
  | herr msg =>
    intro path pre lastPrefix depth w
    unfold walkOut
    by_cases hc : config.MaxDepth ≠ -1 ∧ depth > config.MaxDepth
    · rw [walkDir_cut _ _ _ _ _ _ _ _ _ hc, walkDir_cut _ _ _ _ _ _ _ _ _ hc]; simp
    · rw [walkDir_error _ _ _ _ _ _ _ _ _ hc, walkDir_error _ _ _ _ _ _ _ _ _ hc]
      simp [Print]
  | hok entries ih =>
    intro path pre lastPrefix depth w
    unfold walkOut
    by_cases hc : config.MaxDepth ≠ -1 ∧ depth > config.MaxDepth
    · rw [walkDir_cut _ _ _ _ _ _ _ _ _ hc, walkDir_cut _ _ _ _ _ _ _ _ _ hc]; simp
    · have hdirs : ∀ (dirs : List Entry), (∀ e ∈ dirs, e ∈ entries) →
          ∀ (nDirs nFiles i : Nat) (w : World),
          (walkDirs E config path pre depth treeChars nDirs nFiles i dirs w).out =
            w.out ++ eachIdx (fun j d => dirOut E config path pre depth treeChars
              (dirIsLast j nDirs nFiles) d) i dirs := by
        intro dirs
        induction dirs with
        | nil => intro _ nDirs nFiles i w; rw [walkDirs_nil]; simp [eachIdx]
        | cons e rest ihd =>
          intro hmem nDirs nFiles i w
          rw [walkDirs_cons, ihd (fun x hx => hmem x (List.mem_cons_of_mem _ hx)),
            ih e (hmem e (List.mem_cons_self _ _)), eachIdx]
          simp only [(renderDir_out _ _ _ _ _ _).1, (renderDir_out _ _ _ _ _ _).2, dirOut,
            dirIsLast, List.append_assoc]
      have key : ∀ w : World,
          (walkDir E config path pre lastPrefix depth treeChars (.ok entries) w).out =
            w.out ++ (eachIdx (fun j d => dirOut E config path pre depth treeChars
              (dirIsLast j (entries.filter (keepDir config)).length
                (entries.filter (keepFile E config)).length) d) 0
                (entries.filter (keepDir config)) ++
              eachIdx (fun j f => fileOut E config path pre treeChars
                (fileIsLast j (entries.filter (keepFile E config)).length) f) 0
                (entries.filter (keepFile E config))) := by
        intro w
        rw [walkDir_ok _ _ _ _ _ _ _ _ _ hc, walkFiles_out,
          hdirs _ (fun e he => (List.mem_filter.mp he).1), List.append_assoc]
      have key2 : ∀ w : World,
          (walkDir E config path pre pre depth treeChars (.ok entries) w).out =
          (walkDir E config path pre lastPrefix depth treeChars (.ok entries) w).out := by
        intro w
        rw [walkDir_ok _ _ _ _ _ _ _ _ _ hc, walkDir_ok _ _ _ _ _ _ _ _ _ hc]
      rw [key2, key w, key ⟨Stats.empty, []⟩]
      simp

theorem walkDirs_out (E : GoEnv) (config : Config) (path pre : String) (depth : Int)
    (treeChars : TreeChars) (nDirs nFiles : Nat) (dirs : List Entry) :
    ∀ (i : Nat) (w : World),
      (walkDirs E config path pre depth treeChars nDirs nFiles i dirs w).out =
        w.out ++ eachIdx (fun j d => dirOut E config path pre depth treeChars
          (dirIsLast j nDirs nFiles) d) i dirs := by
  induction dirs with
  | nil => intro i w; rw [walkDirs_nil]; simp [eachIdx]
  | cons e rest ihd =>
    intro i w
    rw [walkDirs_cons, ihd, walkDir_out, eachIdx]
    simp only [(renderDir_out _ _ _ _ _ _).1, (renderDir_out _ _ _ _ _ _).2, dirOut,
      dirIsLast, List.append_assoc]

theorem walkOut_ok (E : GoEnv) (config : Config) (path pre : String) (depth : Int)
    (treeChars : TreeChars) (entries : List Entry)
    (h : ¬ (config.MaxDepth ≠ -1 ∧ depth > config.MaxDepth)) :
    walkOut E config path pre depth treeChars (.ok entries) =
      eachIdx (fun j d => dirOut E config path pre depth treeChars
        (dirIsLast j (entries.filter (keepDir config)).length
          (entries.filter (keepFile E config)).length) d) 0
          (entries.filter (keepDir config)) ++
        eachIdx (fun j f => fileOut E config path pre treeChars
          (fileIsLast j (entries.filter (keepFile E config)).length) f) 0
          (entries.filter (keepFile E config)) := by
  unfold walkOut
  rw [walkDir_ok _ _ _ _ _ _ _ _ _ h, walkFiles_out, walkDirs_out]
  simp

theorem walkOut_cut (E : GoEnv) (config : Config) (path pre : String) (depth : Int)
    (treeChars : TreeChars) (read : Except String (List Entry))
    (h : config.MaxDepth ≠ -1 ∧ depth > config.MaxDepth) :
    walkOut E config path pre depth treeChars read = [] := by
  unfold walkOut
  rw [walkDir_cut _ _ _ _ _ _ _ _ _ h]

theorem walkOut_error (E : GoEnv) (config : Config) (path pre : String) (depth : Int)
    (treeChars : TreeChars) (msg : String)
    (h : ¬ (config.MaxDepth ≠ -1 ∧ depth > config.MaxDepth)) :
    walkOut E config path pre depth treeChars (.error msg) =
      [⟨[], "Error reading directory " ++ path ++ ": " ++ msg ++ "\n"⟩] := by
  unfold walkOut
  rw [walkDir_error _ _ _ _ _ _ _ _ _ h]
  rfl

theorem dirLine_eq (name : String) (isLast : Bool) (pre : String) (config : Config)
    (treeChars : TreeChars) :
    ∃ attrs, dirLine name isLast pre config treeChars =
      [⟨[], pre⟩, ⟨[], if isLast then treeChars.LastItem else treeChars.MiddleItem⟩,
        ⟨attrs, name ++ "\n"⟩] := by
  cases isLast <;> cases hC : config.Color <;> cases hB : config.BgColor <;>
    simp [dirLine, renderDir, Print, colorPrint, hC, hB]

theorem fileOut_eq (E : GoEnv) (config : Config) (path pre : String) (treeChars : TreeChars)
    (isLast : Bool) (f : Entry) (h : infoOk f.Info = true) :
    ∃ attrs, fileOut E config path pre treeChars isLast f =
      [⟨[], pre⟩, ⟨[], if isLast then treeChars.LastItem else treeChars.MiddleItem⟩,
        ⟨attrs, f.Name ++ "\n"⟩] := by
  unfold fileOut
  cases hi : f.Info with
  | error err => rw [hi] at h; simp [infoOk] at h
  | ok info =>
    cases isLast <;> cases hS : info.IsSymlink <;> cases hC : config.Color <;>
      cases hB : config.BgColor <;>
      simp [renderFile, Print, colorPrint, hC, hB, hS]

/-- C12: what a walk of a listed directory adds to the terminal is, for each kept
subdirectory in enumeration order, its own line immediately followed by everything the
walk of that subdirectory writes, and after all of those one line (or one error message)
per kept file in enumeration order; the two partitions are sublists of the listing, so
nothing is sorted, and what a subtree writes does not depend on what was walked before.
On the example tree the file `a.txt`, listed first, is written last. -/
theorem walkDir_order (E : GoEnv) (config : Config) (treeChars : TreeChars)
    (entries : List Entry) (path pre lastPrefix : String) (depth : Int) (w : World) :
    (walkDir E config path pre lastPrefix depth treeChars (.ok entries) w).out =
      w.out ++
        (if withinDepth config depth then
          eachIdx (fun i d => dirOut E config path pre depth treeChars
            (dirIsLast i (entries.filter (keepDir config)).length
              (entries.filter (keepFile E config)).length) d) 0
            (entries.filter (keepDir config)) ++
          eachIdx (fun i f => fileOut E config path pre treeChars
            (fileIsLast i (entries.filter (keepFile E config)).length) f) 0
            (entries.filter (keepFile E config))
        else []) ∧
    (entries.filter (keepDir config)).Sublist entries ∧
    (entries.filter (keepFile E config)).Sublist entries ∧
    (∀ (isLast : Bool) (d : Entry), ∃ attrs glyph child,
      dirOut E config path pre depth treeChars isLast d =
        [⟨[], pre⟩, ⟨[], glyph⟩, ⟨attrs, d.Name ++ "\n"⟩] ++
          walkOut E config (E.Join path d.Name) child (depth + 1) treeChars d.ReadDir) ∧
    (∀ (isLast : Bool) (f : Entry), infoOk f.Info = true → ∃ attrs glyph,
      fileOut E config path pre treeChars isLast f =
        [⟨[], pre⟩, ⟨[], glyph⟩, ⟨attrs, f.Name ++ "\n"⟩]) ∧
    (∀ (isLast : Bool) (f : Entry), infoOk f.Info = false → ∃ text,
      fileOut E config path pre treeChars isLast f = [⟨[], text⟩]) ∧
    (∀ (read : Except String (List Entry)) (path pre lastPrefix : String) (depth : Int)
      (w : World),
      (walkDir E config path pre lastPrefix depth treeChars read w).out =
        w.out ++ walkOut E config path pre depth treeChars read) ∧
    plainText (walkDir GoEnv.unix specConfig "root" "" "" 0 (getTreeChars true false)
      (.ok specTree) ⟨Stats.empty, []⟩).out = "├── sub\n│   └── b.txt\n└── a.txt\n" := by
  refine ⟨?_, List.filter_sublist _, List.filter_sublist _, ?_, ?_, ?_,
    walkDir_out E config treeChars, ?_⟩
  · rw [walkDir_out]
    by_cases hc : config.MaxDepth ≠ -1 ∧ depth > config.MaxDepth
    · have hw : withinDepth config depth = false := by
        rw [← Bool.not_eq_true, withinDepth_iff]; exact fun h => h hc
      rw [walkOut_cut _ _ _ _ _ _ _ hc, hw]; simp
    · rw [walkOut_ok _ _ _ _ _ _ _ hc, (withinDepth_iff config depth).2 hc]; simp
  · intro isLast d
    obtain ⟨attrs, h⟩ := dirLine_eq d.Name isLast pre config treeChars
    exact ⟨attrs, _, _, by unfold dirOut; rw [h]⟩
  · intro isLast f hf
    obtain ⟨attrs, h⟩ := fileOut_eq E config path pre treeChars isLast f hf
    exact ⟨attrs, _, h⟩
  · intro isLast f hf
    unfold fileOut
    cases hi : f.Info with
    | error err => exact ⟨_, rfl⟩
    | ok info => rw [hi] at hf; simp [infoOk] at hf
  · have k1 : keepDir specConfig (Entry.dir "sub" [Entry.file "b.txt" 10]) = true := by decide
    have k2 : keepDir specConfig
        (Entry.dir "node_modules" [Entry.file "ignored.txt" 99]) = false := by decide
    have k3 : keepDir specConfig (Entry.file "a.txt" 5) = false := by decide
    have k4 : keepDir specConfig (Entry.file "b.txt" 10) = false := by decide
    have f1 : keepFile GoEnv.unix specConfig (Entry.dir "sub" [Entry.file "b.txt" 10]) =
        false := by decide
    have f2 : keepFile GoEnv.unix specConfig
        (Entry.dir "node_modules" [Entry.file "ignored.txt" 99]) = false := by decide
    have f3 : keepFile GoEnv.unix specConfig (Entry.file "a.txt" 5) = true := by decide
    have f4 : keepFile GoEnv.unix specConfig (Entry.file "b.txt" 10) = true := by decide
    have hd : ∀ d : Int, ¬ (specConfig.MaxDepth ≠ -1 ∧ d > specConfig.MaxDepth) := by
      intro d h; exact h.1 rfl
    rw [walkDir_out]
    simp only [specTree, walkOut_ok _ _ _ _ _ _ _ (hd _), List.filter_cons, List.filter_nil,
      k1, k2, k3, k4, f1, f2, f3, f4, eachIdx, dirOut, Entry.dir, Entry.ReadDir, if_true,
      Bool.false_eq_true, if_false]
    decide

theorem levelFlags_eq (nDirs nFiles : Nat) (h : 0 < nDirs + nFiles) :
    levelFlags nDirs nFiles = List.replicate (nDirs + nFiles - 1) false ++ [true] := by
  unfold levelFlags
  apply List.ext_getElem
  · simp; omega
  · intro n h1 h2
    simp only [List.length_append, List.length_map, List.length_range] at h1
    rw [List.getElem_append, List.getElem_append]
    simp only [List.length_map, List.length_range, List.length_replicate]
    by_cases hn : n < nDirs
    · rw [dif_pos hn]
      simp only [List.getElem_map, List.getElem_range, dirIsLast]
      by_cases hl : n < nDirs + nFiles - 1
      · rw [dif_pos hl, List.getElem_replicate]
        simp only [Bool.and_eq_false_imp, decide_eq_true_eq, decide_eq_false_iff_not]
        intro h3 h4
        omega
      · rw [dif_neg hl]
        simp only [List.getElem_singleton, Bool.and_eq_true, decide_eq_true_eq]
        omega
    · rw [dif_neg hn]
      simp only [List.getElem_map, List.getElem_range, fileIsLast]
      by_cases hl : n < nDirs + nFiles - 1
      · rw [dif_pos hl, List.getElem_replicate]
        simp only [decide_eq_false_iff_not]
        omega
      · rw [dif_neg hl]
        simp only [List.getElem_singleton, decide_eq_true_eq]
        omega

/-- C11: in a walk of a listed directory whose kept files all have readable metadata, the
line of the directory at index `i` carries the last-item glyph when `i = len(dirs)-1` and
`len(files) = 0` and the mid-item glyph otherwise, the line of the file at index `i`
carries the last-item glyph when `i = len(files)-1` and the mid-item glyph otherwise;
so, when the level renders an entry at all, the flags of its entries in rendering order
are all off but the last one: exactly the final entry of the level carries the last-item
glyph. -/
theorem walkDir_last_glyph (E : GoEnv) (config : Config) (treeChars : TreeChars)
    (entries : List Entry) (path pre lastPrefix : String) (depth : Int) (w : World)
    (hdepth : withinDepth config depth = true)
    (hmeta : ∀ f ∈ entries.filter (keepFile E config), infoOk f.Info = true) :
    (walkDir E config path pre lastPrefix depth treeChars (.ok entries) w).out =
      w.out ++
        eachIdx (fun i d => dirOut E config path pre depth treeChars
          (dirIsLast i (entries.filter (keepDir config)).length
            (entries.filter (keepFile E config)).length) d) 0
          (entries.filter (keepDir config)) ++
        eachIdx (fun i f => fileOut E config path pre treeChars
          (fileIsLast i (entries.filter (keepFile E config)).length) f) 0
          (entries.filter (keepFile E config)) ∧
    (∀ (isLast : Bool) (d : Entry), ∃ attrs,
      dirOut E config path pre depth treeChars isLast d =
        [⟨[], pre⟩, ⟨[], if isLast then treeChars.LastItem else treeChars.MiddleItem⟩,
          ⟨attrs, d.Name ++ "\n"⟩] ++
          walkOut E config (E.Join path d.Name)
            (if isLast then pre ++ treeChars.Indent else pre ++ treeChars.Line) (depth + 1)
            treeChars d.ReadDir) ∧
    (∀ (isLast : Bool), ∀ f ∈ entries.filter (keepFile E config), ∃ attrs,
      fileOut E config path pre treeChars isLast f =
        [⟨[], pre⟩, ⟨[], if isLast then treeChars.LastItem else treeChars.MiddleItem⟩,
          ⟨attrs, f.Name ++ "\n"⟩]) ∧
    (∀ i nDirs nFiles : Nat, i < nDirs →
      (dirIsLast i nDirs nFiles = true ↔ i = nDirs - 1 ∧ nFiles = 0)) ∧
    (∀ i nFiles : Nat, i < nFiles → (fileIsLast i nFiles = true ↔ i = nFiles - 1)) ∧
    (0 < (entries.filter (keepDir config)).length +
        (entries.filter (keepFile E config)).length →
      levelFlags (entries.filter (keepDir config)).length
          (entries.filter (keepFile E config)).length =
        List.replicate ((entries.filter (keepDir config)).length +
          (entries.filter (keepFile E config)).length - 1) false ++ [true]) := by
  refine ⟨?_, ?_, ?_, ?_, ?_, levelFlags_eq _ _⟩
  · rw [walkDir_out, walkOut_ok _ _ _ _ _ _ _ ((withinDepth_iff config depth).1 hdepth),
      List.append_assoc]
  · intro isLast d
    obtain ⟨attrs, h⟩ := dirLine_eq d.Name isLast pre config treeChars
    exact ⟨attrs, by unfold dirOut; rw [h]⟩
  · intro isLast f hf
    exact fileOut_eq E config path pre treeChars isLast f (hmeta f hf)
  · intro i nDirs nFiles hi
    simp only [dirIsLast, Bool.and_eq_true, decide_eq_true_eq]
    constructor
    · rintro ⟨h1, h2⟩; exact ⟨by omega, h2⟩
    · rintro ⟨h1, h2⟩; exact ⟨by omega, h2⟩
  · intro i nFiles hi
    simp only [fileIsLast, decide_eq_true_eq]
    constructor <;> intro h <;> omega

/-- Witness for C11 on the example tree of the specification, on a Unix host. -/
theorem walkDir_last_glyph_witness :
    withinDepth specConfig 0 = true ∧
    (∀ f ∈ specTree.filter (keepFile GoEnv.unix specConfig), infoOk f.Info = true) ∧
    levelFlags (specTree.filter (keepDir specConfig)).length
        (specTree.filter (keepFile GoEnv.unix specConfig)).length = [false, true] ∧
    (0 < (specTree.filter (keepDir specConfig)).length +
        (specTree.filter (keepFile GoEnv.unix specConfig)).length →
      levelFlags (specTree.filter (keepDir specConfig)).length
          (specTree.filter (keepFile GoEnv.unix specConfig)).length =
        List.replicate ((specTree.filter (keepDir specConfig)).length +
          (specTree.filter (keepFile GoEnv.unix specConfig)).length - 1) false ++ [true]) :=
  ⟨by decide, by decide, by decide,
    (walkDir_last_glyph GoEnv.unix specConfig (getTreeChars true false) specTree "root" "" ""
      0 ⟨Stats.empty, []⟩ (by decide) (by decide)).2.2.2.2.2⟩

/-! ## Errors are local -/

theorem repairEntry_eq (b : Bool) (e : Entry) :
    repairEntry b e =
      if e.IsDir then [repairDir b e]
      else if b && !infoOk e.Info then [] else [e] := by
  cases e with
  | mk name isDir info read =>
    rw [repairEntry]
    simp only [repairDir, Entry.IsDir, Entry.Name, Entry.Info, Entry.ReadDir]

theorem repairList_keepDir (b : Bool) (config : Config) (es : List Entry) :
    (repairList b es).filter (keepDir config) =
      (es.filter (keepDir config)).map (repairDir b) := by
  induction es with
  | nil => simp [repairList]
  | cons e es ih =>
    rw [repairList, List.filter_append, ih, repairEntry_eq, List.filter_cons]
    by_cases hd : e.IsDir = true
    · have hk : keepDir config (repairDir b e) = keepDir config e := by
        simp [keepDir, repairDir, Entry.IsDir, Entry.Name]
      by_cases hkd : keepDir config e = true
      · simp [hd, hk, hkd]
      · simp [hd, hk, hkd]
    · have hkd : keepDir config e = false := by simp [keepDir, hd]
      by_cases hb : (b && !infoOk e.Info) = true
      · simp [hd, hkd, hb]
      · simp [hd, hkd, hb]

theorem repairList_keepFile (b : Bool) (E : GoEnv) (config : Config) (es : List Entry) :
    (repairList b es).filter (keepFile E config) =
      (es.filter (keepFile E config)).filter (keepsInfo b) := by
  induction es with
  | nil => simp [repairList]
  | cons e es ih =>
    rw [repairList, List.filter_append, ih, repairEntry_eq]
    by_cases hd : e.IsDir = true
    · have hk : keepFile E config (repairDir b e) = false := by
        unfold keepFile
        have : (repairDir b e).IsDir = true := hd
        simp [this]
      have hk2 : keepFile E config e = false := by simp [keepFile, hd]
      rw [if_pos hd, List.filter_cons_of_neg (by simp [hk]),
        List.filter_cons_of_neg (by simp [hk2])]
      simp
    · rw [if_neg hd]
      by_cases hb : (b && !infoOk e.Info) = true
      · have hg : keepsInfo b e = false := by simp only [keepsInfo, hb]; rfl
        rw [if_pos hb]
        by_cases hkf : keepFile E config e = true
        · simp only [List.filter_cons, hkf, hg, if_true, List.filter_nil, List.nil_append,
            Bool.false_eq_true, if_false]
        · simp only [List.filter_cons, hkf, if_false, List.filter_nil, List.nil_append,
            Bool.false_eq_true]
      · have hg : keepsInfo b e = true := by
          simp only [keepsInfo]
          cases hbb : (b && !infoOk e.Info)
          · rfl
          · exact absurd hbb hb
        rw [if_neg hb]
        by_cases hkf : keepFile E config e = true
        · simp only [List.filter_cons, hkf, hg, if_true, List.filter_nil, List.cons_append,
            List.nil_append]
        · simp only [List.filter_cons, hkf, if_false, List.filter_nil, List.nil_append,
            Bool.false_eq_true]

theorem walkFiles_stats_repair (b : Bool) (E : GoEnv) (config : Config) (path : String)
    (treeChars : TreeChars) (files : List Entry) :
    ∀ (pre pre2 : String) (nFiles nFiles2 i i2 : Nat) (w w2 : World), w.stats = w2.stats →
      (walkFiles E config path pre treeChars nFiles i files w).stats =
        (walkFiles E config path pre2 treeChars nFiles2 i2
          (files.filter (keepsInfo b)) w2).stats := by
  induction files with
  | nil => intro pre pre2 nFiles nFiles2 i i2 w w2 h; simp [walkFiles_nil, h]
  | cons e rest ih =>
    intro pre pre2 nFiles nFiles2 i i2 w w2 h
    rw [walkFiles_cons]
    cases hi : e.Info with
    | error err =>
      by_cases hb : b = true
      · have hg : keepsInfo b e = false := by simp [keepsInfo, hb, hi, infoOk]
        rw [List.filter_cons_of_neg (by simp [hg])]
        exact ih _ _ _ _ _ _ _ _ h
      · have hg : keepsInfo b e = true := by simp [keepsInfo, hb]
        rw [List.filter_cons_of_pos hg, walkFiles_cons, hi]
        exact ih _ _ _ _ _ _ _ _ h
    | ok info =>
      have hg : keepsInfo b e = true := by simp [keepsInfo, hi, infoOk]
      rw [List.filter_cons_of_pos hg, walkFiles_cons, hi]
      apply ih
      simp only [h]

/-- The Stats of a walk are those of the walk of the repaired tree, whatever is on the
terminal and whatever the prefixes are. -/
theorem walkDir_stats_repair (b : Bool) (E : GoEnv) (config : Config) (treeChars : TreeChars)
    (read : Except String (List Entry)) :
    ∀ (path pre pre2 lastPrefix lastPrefix2 : String) (depth : Int) (w w2 : World),
      w.stats = w2.stats →
      (walkDir E config path pre lastPrefix depth treeChars read w).stats =
        (walkDir E config path pre2 lastPrefix2 depth treeChars (.ok (repairRead b read))
          w2).stats := by
  induction read using read_induction with
  | herr msg =>
    intro path pre pre2 lastPrefix lastPrefix2 depth w w2 h
    by_cases hc : config.MaxDepth ≠ -1 ∧ depth > config.MaxDepth
    · rw [walkDir_cut _ _ _ _ _ _ _ _ _ hc, walkDir_cut _ _ _ _ _ _ _ _ _ hc]; exact h
    · rw [walkDir_error _ _ _ _ _ _ _ _ _ hc, walkDir_ok _ _ _ _ _ _ _ _ _ hc]
      simp [repairRead, walkFiles_nil, walkDirs_nil, h]
  | hok entries ih =>
    intro path pre pre2 lastPrefix lastPrefix2 depth w w2 h
    by_cases hc : config.MaxDepth ≠ -1 ∧ depth > config.MaxDepth
    · rw [walkDir_cut _ _ _ _ _ _ _ _ _ hc, walkDir_cut _ _ _ _ _ _ _ _ _ hc]; exact h
    · rw [walkDir_ok _ _ _ _ _ _ _ _ _ hc, walkDir_ok _ _ _ _ _ _ _ _ _ hc]
      simp only [repairRead, repairList_keepDir, repairList_keepFile]
      apply walkFiles_stats_repair
      have hdirs : ∀ (dirs : List Entry), (∀ e ∈ dirs, e ∈ entries) →
          ∀ (nDirs nDirs2 nFiles nFiles2 i i2 : Nat) (w w2 : World), w.stats = w2.stats →
          (walkDirs E config path pre depth treeChars nDirs nFiles i dirs w).stats =
            (walkDirs E config path pre2 depth treeChars nDirs2 nFiles2 i2
              (dirs.map (repairDir b)) w2).stats := by
        intro dirs
        induction dirs with
        | nil =>
          intro _ nDirs nDirs2 nFiles nFiles2 i i2 w w2 h
          simp [walkDirs_nil, h]
        | cons e rest ihd =>
          intro hmem nDirs nDirs2 nFiles nFiles2 i i2 w w2 h
          rw [List.map_cons, walkDirs_cons, walkDirs_cons]
          apply ihd (fun x hx => hmem x (List.mem_cons_of_mem _ hx))
          have hr : (repairDir b e).ReadDir = .ok (repairRead b e.ReadDir) := rfl
          have hn : (repairDir b e).Name = e.Name := rfl
          rw [hr, hn]
          apply ih e (hmem e (List.mem_cons_self _ _))
          simp only [h]
      exact hdirs _ (fun e he => (List.mem_filter.mp he).1) _ _ _ _ _ _ _ _ h

theorem ReadErrorsAdded.rfl_of (l : List Chunk) : ReadErrorsAdded l l := by
  induction l with
  | nil => exact .nil
  | cons c l ih => exact .keep c ih

theorem ReadErrorsAdded.append {a b c d : List Chunk} (h1 : ReadErrorsAdded a b)
    (h2 : ReadErrorsAdded c d) : ReadErrorsAdded (a ++ c) (b ++ d) := by
  induction h1 with
  | nil => exact h2
  | keep x _ ih => exact .keep x ih
  | error path msg _ ih => exact .error path msg ih

theorem eachIdx_map (f : Nat → Entry → List Chunk) (g : Entry → Entry) (l : List Entry) :
    ∀ i, eachIdx f i (l.map g) = eachIdx (fun j e => f j (g e)) i l := by
  induction l with
  | nil => intro i; rfl
  | cons e l ih => intro i; simp only [List.map_cons, eachIdx, ih]

theorem eachIdx_added (f g : Nat → Entry → List Chunk) (l : List Entry)
    (h : ∀ e ∈ l, ∀ j, ReadErrorsAdded (f j e) (g j e)) :
    ∀ i, ReadErrorsAdded (eachIdx f i l) (eachIdx g i l) := by
  induction l with
  | nil => intro i; exact .nil
  | cons e l ih =>
    intro i
    simp only [eachIdx]
    exact (h e (List.mem_cons_self _ _) i).append
      (ih (fun x hx => h x (List.mem_cons_of_mem _ hx)) (i + 1))

theorem filter_keepsInfo_false (l : List Entry) : l.filter (keepsInfo false) = l := by
  apply List.filter_eq_self.2
  intro e _
  rfl

/-- What a walk writes is what the walk of the tree with its unreadable directories emptied
writes, with the messages about these directories added. -/
theorem walkOut_repair (E : GoEnv) (config : Config) (treeChars : TreeChars)
    (read : Except String (List Entry)) :
    ∀ (path pre : String) (depth : Int),
      ReadErrorsAdded (walkOut E config path pre depth treeChars read)
        (walkOut E config path pre depth treeChars (.ok (repairRead false read))) := by
  induction read using read_induction with
  | herr msg =>
    intro path pre depth
    by_cases hc : config.MaxDepth ≠ -1 ∧ depth > config.MaxDepth
    · rw [walkOut_cut _ _ _ _ _ _ _ hc, walkOut_cut _ _ _ _ _ _ _ hc]; exact .nil
    · rw [walkOut_error _ _ _ _ _ _ _ hc, walkOut_ok _ _ _ _ _ _ _ hc]
      simp only [repairRead, List.filter_nil, eachIdx, List.append_nil]
      exact .error path msg .nil
  | hok entries ih =>
    intro path pre depth
    by_cases hc : config.MaxDepth ≠ -1 ∧ depth > config.MaxDepth
    · rw [walkOut_cut _ _ _ _ _ _ _ hc, walkOut_cut _ _ _ _ _ _ _ hc]; exact .nil
    · rw [walkOut_ok _ _ _ _ _ _ _ hc, walkOut_ok _ _ _ _ _ _ _ hc]
      simp only [repairRead, repairList_keepDir, repairList_keepFile, filter_keepsInfo_false,
        List.length_map, eachIdx_map]
      apply ReadErrorsAdded.append _ (ReadErrorsAdded.rfl_of _)
      apply eachIdx_added
      intro e he j
      unfold dirOut
      apply ReadErrorsAdded.append (ReadErrorsAdded.rfl_of _)
      exact ih e (List.mem_filter.mp he).1 _ _ _

theorem NoReadErrors_append (a b : List Entry) :
    NoReadErrors (a ++ b) = (NoReadErrors a && NoReadErrors b) := by
  induction a with
  | nil => simp [NoReadErrors]
  | cons e a ih =>
    rw [List.cons_append, NoReadErrors, NoReadErrors, ih, Bool.and_assoc]

theorem NoReadErrors_repair (read : Except String (List Entry)) :
    NoReadErrors (repairRead true read) = true := by
  induction read using read_induction with
  | herr msg => rw [repairRead, NoReadErrors]
  | hok entries ih =>
    rw [repairRead]
    induction entries with
    | nil => rw [repairList, NoReadErrors]
    | cons e es ihe =>
      rw [repairList, NoReadErrors_append,
        ihe (fun x hx => ih x (List.mem_cons_of_mem _ hx)), Bool.and_true, repairEntry_eq]
      by_cases hd : e.IsDir = true
      · rw [if_pos hd, NoReadErrors, NoReadErrors, Bool.and_true]
        unfold repairDir
        rw [NoReadErrorsEntry, if_pos hd, NoReadErrorsRead]
        exact ih e (List.mem_cons_self _ _)
      · rw [if_neg hd]
        by_cases hi : infoOk e.Info = true
        · simp only [hi, Bool.not_true, Bool.and_false, Bool.false_eq_true, if_false]
          rw [NoReadErrors, NoReadErrors, Bool.and_true]
          cases e with
          | mk name isDir info r =>
            rw [NoReadErrorsEntry]
            simp only [Entry.IsDir] at hd
            simp only [Entry.Info] at hi
            rw [if_neg hd]
            exact hi
        · simp only [hi, Bool.not_false, Bool.and_true, Bool.true_and, if_true, NoReadErrors]

theorem healEntry_eq (m : FileMeta) (e : Entry) :
    healEntry m e = if e.IsDir then healDir m e else healFile m e := by
  cases e with
  | mk name isDir info read =>
    rw [healEntry]
    simp only [healDir, healFile, Entry.IsDir, Entry.Name, Entry.Info, Entry.ReadDir]

theorem healList_eq (m : FileMeta) (es : List Entry) :
    healList m es = es.map (healEntry m) := by
  induction es with
  | nil => rw [healList]; rfl
  | cons e es ih => rw [healList, ih]; rfl

theorem healList_keepDir (m : FileMeta) (config : Config) (es : List Entry) :
    (healList m es).filter (keepDir config) = (es.filter (keepDir config)).map (healDir m) := by
  induction es with
  | nil => simp [healList]
  | cons e es ih =>
    rw [healList, List.filter_cons, List.filter_cons, ih, healEntry_eq]
    by_cases hd : e.IsDir = true
    · have hk : keepDir config (healDir m e) = keepDir config e := by
        simp [keepDir, healDir, Entry.IsDir, Entry.Name]
      rw [if_pos hd, hk]
      by_cases hkd : keepDir config e = true
      · rw [if_pos hkd, if_pos hkd]; rfl
      · rw [if_neg hkd, if_neg hkd]
    · have hk : keepDir config (healFile m e) = false := by
        have : (healFile m e).IsDir = e.IsDir := rfl
        simp [keepDir, this, hd]
      have hkd : keepDir config e = false := by simp [keepDir, hd]
      rw [if_neg hd, hk, hkd]
      simp

theorem healList_keepFile (m : FileMeta) (E : GoEnv) (config : Config) (es : List Entry) :
    (healList m es).filter (keepFile E config) =
      (es.filter (keepFile E config)).map (healFile m) := by
  induction es with
  | nil => simp [healList]
  | cons e es ih =>
    rw [healList, List.filter_cons, List.filter_cons, ih, healEntry_eq]
    by_cases hd : e.IsDir = true
    · have hk : keepFile E config (healDir m e) = false := by
        have : (healDir m e).IsDir = e.IsDir := rfl
        simp [keepFile, this, hd]
      have hkf : keepFile E config e = false := by simp [keepFile, hd]
      rw [if_pos hd, hk, hkf]
      simp
    · have hk : keepFile E config (healFile m e) = keepFile E config e := by
        simp [keepFile, healFile, Entry.IsDir, Entry.Name]
      rw [if_neg hd, hk]
      by_cases hkf : keepFile E config e = true
      · rw [if_pos hkf, if_pos hkf]; rfl
      · rw [if_neg hkf, if_neg hkf]

theorem ErrorsInPlace.same (config : Config) (treeChars : TreeChars) (l : List Chunk) :
    ErrorsInPlace config treeChars l l := by
  induction l with
  | nil => exact .nil
  | cons c l ih => exact .keep c ih

theorem ErrorsInPlace.concat {config : Config} {treeChars : TreeChars}
    {a b c d : List Chunk} (h1 : ErrorsInPlace config treeChars a b)
    (h2 : ErrorsInPlace config treeChars c d) :
    ErrorsInPlace config treeChars (a ++ c) (b ++ d) := by
  induction h1 with
  | nil => exact h2
  | keep x _ ih => exact .keep x ih
  | dirError path msg _ ih => exact .dirError path msg ih
  | fileError path err name pre isLast isSymlink _ ih =>
    rw [List.append_assoc]
    exact .fileError path err name pre isLast isSymlink ih

theorem eachIdx_inPlace (config : Config) (treeChars : TreeChars)
    (f g : Nat → Entry → List Chunk) (l : List Entry)
    (h : ∀ e ∈ l, ∀ j, ErrorsInPlace config treeChars (f j e) (g j e)) :
    ∀ i, ErrorsInPlace config treeChars (eachIdx f i l) (eachIdx g i l) := by
  induction l with
  | nil => intro i; exact .nil
  | cons e l ih =>
    intro i
    simp only [eachIdx]
    exact (h e (List.mem_cons_self _ _) i).concat
      (ih (fun x hx => h x (List.mem_cons_of_mem _ hx)) (i + 1))

theorem fileOut_heal (E : GoEnv) (config : Config) (path pre : String)
    (treeChars : TreeChars) (isLast : Bool) (m : FileMeta) (e : Entry) :
    ErrorsInPlace config treeChars (fileOut E config path pre treeChars isLast e)
      (fileOut E config path pre treeChars isLast (healFile m e)) := by
  unfold fileOut
  have hn : (healFile m e).Name = e.Name := rfl
  have hi : (healFile m e).Info = healInfo m e.Info := rfl
  rw [hn, hi]
  cases e.Info with
  | ok info => exact ErrorsInPlace.same _ _ _
  | error err =>
    simp only [healInfo, Print, List.nil_append]
    have := ErrorsInPlace.fileError (E.Join path e.Name) err e.Name pre isLast m.IsSymlink
      (ErrorsInPlace.nil : ErrorsInPlace config treeChars [] [])
    rw [List.append_nil] at this
    exact this

/-- What a walk writes is what the walk of the healed tree writes, with the messages about
unreadable directories added and with the line of every file whose metadata cannot be read
replaced by the message about it. -/
theorem walkOut_heal (m : FileMeta) (E : GoEnv) (config : Config) (treeChars : TreeChars)
    (read : Except String (List Entry)) :
    ∀ (path pre : String) (depth : Int),
      ErrorsInPlace config treeChars (walkOut E config path pre depth treeChars read)
        (walkOut E config path pre depth treeChars (.ok (healRead m read))) := by
  induction read using read_induction with
  | herr msg =>
    intro path pre depth
    by_cases hc : config.MaxDepth ≠ -1 ∧ depth > config.MaxDepth
    · rw [walkOut_cut _ _ _ _ _ _ _ hc, walkOut_cut _ _ _ _ _ _ _ hc]; exact .nil
    · rw [walkOut_error _ _ _ _ _ _ _ hc, walkOut_ok _ _ _ _ _ _ _ hc]
      simp only [healRead, List.filter_nil, eachIdx, List.append_nil]
      exact .dirError path msg .nil
  | hok entries ih =>
    intro path pre depth
    by_cases hc : config.MaxDepth ≠ -1 ∧ depth > config.MaxDepth
    · rw [walkOut_cut _ _ _ _ _ _ _ hc, walkOut_cut _ _ _ _ _ _ _ hc]; exact .nil
    · rw [walkOut_ok _ _ _ _ _ _ _ hc, walkOut_ok _ _ _ _ _ _ _ hc]
      simp only [healRead, healList_keepDir, healList_keepFile, List.length_map, eachIdx_map]
      apply ErrorsInPlace.concat
      · apply eachIdx_inPlace
        intro e he j
        unfold dirOut
        apply ErrorsInPlace.concat (ErrorsInPlace.same _ _ _)
        exact ih e (List.mem_filter.mp he).1 _ _ _
      · apply eachIdx_inPlace
        intro e he j
        exact fileOut_heal E config path pre treeChars _ m e

theorem NoReadErrors_heal (m : FileMeta) (read : Except String (List Entry)) :
    NoReadErrors (healRead m read) = true := by
  induction read using read_induction with
  | herr msg => rw [healRead, NoReadErrors]
  | hok entries ih =>
    rw [healRead]
    induction entries with
    | nil => rw [healList, NoReadErrors]
    | cons e es ihe =>
      rw [healList, NoReadErrors, ihe (fun x hx => ih x (List.mem_cons_of_mem _ hx)),
        Bool.and_true]
      have h0 := ih e (List.mem_cons_self _ _)
      cases e with
      | mk name isDir info r =>
        rw [healEntry]
        cases isDir with
        | true =>
          simp only [if_true]
          rw [NoReadErrorsEntry, if_pos rfl, NoReadErrorsRead]
          exact h0
        | false =>
          simp only [Bool.false_eq_true, if_false]
          rw [NoReadErrorsEntry, if_neg (by simp)]
          cases info <;> rfl

/-- The counterexample to C16 as stated: in a directory whose last file has metadata that
cannot be read, the file before it is rendered with the glyph of a middle item, while in
the tree without the failing file it is the last item and has the other glyph: the lines
of the other entries are not the same. -/
theorem walkDir_errors_claim_fails :
    ¬ OtherLinesClaim GoEnv.unix specConfig "root" 0 (getTreeChars true false)
      (.ok failLast) ∧
    repairRead true (.ok failLast) = [Entry.file "a.txt" 5] ∧
    plainText (walkDir GoEnv.unix specConfig "root" "" "" 0 (getTreeChars true false)
      (.ok failLast) ⟨Stats.empty, []⟩).out =
      "├── a.txt\nError getting file info for root/b.txt: gone\n" ∧
    plainText (walkDir GoEnv.unix specConfig "root" "" "" 0 (getTreeChars true false)
      (.ok (repairRead true (.ok failLast))) ⟨Stats.empty, []⟩).out = "└── a.txt\n" := by
  have x1 : shouldExcludeFile GoEnv.unix "a.txt" [] [] = false := by decide
  have x2 : shouldExcludeFile GoEnv.unix "b.txt" [] [] = false := by decide
  have hj : ∀ a b : String, GoEnv.unix.Join a b = a ++ "/" ++ b := fun _ _ => rfl
  have hr : repairRead true (.ok failLast) = [Entry.file "a.txt" 5] := by
    simp [repairRead, repairList, repairEntry, failLast, Entry.file, infoOk]
  have h1 : (walkDir GoEnv.unix specConfig "root" "" "" 0 (getTreeChars true false)
      (.ok failLast) ⟨Stats.empty, []⟩).out =
      [⟨[], ""⟩, ⟨[], "├── "⟩, ⟨[], "a.txt\n"⟩,
        ⟨[], "Error getting file info for root/b.txt: gone\n"⟩] := by
    rw [walkDir_out]
    simp [walkOut_ok, eachIdx, fileOut, failLast, specConfig, keepDir, keepFile, Entry.file,
      Entry.dir, Entry.Name, Entry.IsDir, Entry.Info, Entry.ReadDir, shouldExcludeFolder,
      x1, x2, hj]
    decide
  have h2 : (walkDir GoEnv.unix specConfig "root" "" "" 0 (getTreeChars true false)
      (.ok (repairRead true (.ok failLast))) ⟨Stats.empty, []⟩).out =
      [⟨[], ""⟩, ⟨[], "└── "⟩, ⟨[], "a.txt\n"⟩] := by
    rw [hr, walkDir_out]
    simp [walkOut_ok, eachIdx, fileOut, specConfig, keepDir, keepFile, Entry.file,
      Entry.dir, Entry.Name, Entry.IsDir, Entry.Info, Entry.ReadDir, shouldExcludeFolder,
      x1, x2, hj]
    decide
  refine ⟨?_, hr, by rw [h1]; decide, by rw [h2]; decide⟩
  unfold OtherLinesClaim
  rw [h1, h2]
  decide

/-- C16 as amended: errors inside a walk are local.  The walk is a total function of the
tree, so it completes on every tree.  Its Stats are those of the walk of the repaired tree,
in which every unreadable directory is an empty directory (still listed by its parent,
hence still rendered and counted) and every file with failing metadata is absent; the
repaired tree has no errors.  What the walk writes is compared with a tree in which no
entry is left out, since a failing file still counts as an entry when the glyphs are
chosen: it is what the walk of the healed tree writes, in which every unreadable directory
is an empty directory and every file with failing metadata is a readable file (of any
metadata), with the messages about unreadable directories added and with the line of each
failing file replaced by the message about it: every other line is the same and in the
same place.  On the example tree the siblings after the unreadable directory and after the
unreadable file are rendered and counted. -/
theorem walkDir_errors_local (E : GoEnv) (config : Config) (treeChars : TreeChars)
    (read : Except String (List Entry)) (path pre lastPrefix : String) (depth : Int)
    (w : World) :
    (walkDir E config path pre lastPrefix depth treeChars read w).stats =
      (walkDir E config path pre lastPrefix depth treeChars (.ok (repairRead true read))
        w).stats ∧
    (walkDir E config path pre lastPrefix depth treeChars read w).stats =
      (walkDir E config path pre lastPrefix depth treeChars (.ok (repairRead false read))
        w).stats ∧
    NoReadErrors (repairRead true read) = true ∧
    ReadErrorsAdded (walkDir E config path pre lastPrefix depth treeChars read w).out
      (walkDir E config path pre lastPrefix depth treeChars (.ok (repairRead false read))
        w).out ∧
    (∀ m : FileMeta, NoReadErrors (healRead m read) = true ∧
      ErrorsInPlace config treeChars
        (walkDir E config path pre lastPrefix depth treeChars read w).out
        (walkDir E config path pre lastPrefix depth treeChars (.ok (healRead m read))
          w).out) ∧
    (walkDir GoEnv.unix specConfig "root" "" "" 0 (getTreeChars true false) (.ok brokenTree)
      ⟨Stats.empty, []⟩).stats =
      ⟨2, 2, 10, [(".txt", 10)],
        [⟨"root/good/c.txt", 7, ".txt"⟩, ⟨"root/z.txt", 3, ".txt"⟩]⟩ ∧
    plainText (walkDir GoEnv.unix specConfig "root" "" "" 0 (getTreeChars true false)
      (.ok brokenTree) ⟨Stats.empty, []⟩).out =
      "├── bad\nError reading directory root/bad: permission denied\n├── good\n│   └── c.txt\nError getting file info for root/a.txt: gone\n└── z.txt\n" := by
  have x1 : shouldExcludeFile GoEnv.unix "a.txt" [] [] = false := by decide
  have x2 : shouldExcludeFile GoEnv.unix "z.txt" [] [] = false := by decide
  have x3 : shouldExcludeFile GoEnv.unix "c.txt" [] [] = false := by decide
  have hj : ∀ a b : String, GoEnv.unix.Join a b = a ++ "/" ++ b := fun _ _ => rfl
  have t1 : getFileExtension GoEnv.unix "c.txt" = ".txt" := by decide
  have t2 : getFileExtension GoEnv.unix "z.txt" = ".txt" := by decide
  refine ⟨walkDir_stats_repair true E config treeChars read _ _ _ _ _ _ _ _ rfl,
    walkDir_stats_repair false E config treeChars read _ _ _ _ _ _ _ _ rfl,
    NoReadErrors_repair read, ?_, ?_, ?_, ?_⟩
  · rw [walkDir_out, walkDir_out]
    exact (ReadErrorsAdded.rfl_of _).append (walkOut_repair E config treeChars read _ _ _)
  · intro m
    refine ⟨NoReadErrors_heal m read, ?_⟩
    rw [walkDir_out, walkDir_out]
    exact (ErrorsInPlace.same _ _ _).concat (walkOut_heal m E config treeChars read _ _ _)
  · simp [walkDir_ok, walkDir_error, walkDirs_cons, walkDirs_nil, walkFiles_cons,
      walkFiles_nil, brokenTree, specConfig, keepDir, keepFile, Entry.file, Entry.dir,
      Entry.Name, Entry.IsDir, Entry.Info, Entry.ReadDir, shouldExcludeFolder, Stats.empty,
      Stats.addDir, Stats.addFile, mapAdd, add64, wrap64, t1, t2, x1, x2, x3, hj]
  · rw [walkDir_out]
    simp [walkOut_ok, walkOut_error, eachIdx, dirOut, fileOut, brokenTree, specConfig,
      keepDir, keepFile, Entry.file, Entry.dir, Entry.Name, Entry.IsDir, Entry.Info,
      Entry.ReadDir, shouldExcludeFolder, x1, x2, x3, hj]
    decide

/-! ## Rounding to a float64 -/

theorem roundHalfEven_scale (n d c : Nat) (hc : 0 < c) :
    roundHalfEven (n * c) (d * c) = roundHalfEven n d := by
  unfold roundHalfEven
  rw [Nat.mul_div_mul_right _ _ hc, Nat.mul_mod_mul_right]
  have h1 : d * c < 2 * (n % d * c) ↔ d < 2 * (n % d) := by
    rw [← Nat.mul_assoc]
    exact Nat.mul_lt_mul_right hc
  have h2 : 2 * (n % d * c) = d * c ↔ 2 * (n % d) = d := by
    rw [← Nat.mul_assoc]
    exact Nat.mul_left_inj (Nat.pos_iff_ne_zero.1 hc)
  simp only [h1, h2]

theorem roundHalfEven_mono_cross (n d n2 d2 : Nat) (hd : 0 < d) (hd2 : 0 < d2)
    (h : n * d2 ≤ n2 * d) : roundHalfEven n d ≤ roundHalfEven n2 d2 := by
  rw [← roundHalfEven_scale n d d2 hd2, ← roundHalfEven_scale n2 d2 d hd, Nat.mul_comm d2 d]
  exact roundHalfEven_mono _ _ _ (Nat.mul_pos hd hd2) h

theorem div_le_div_cross (n d n2 d2 : Nat) (hd : 0 < d) (hd2 : 0 < d2)
    (h : n * d2 ≤ n2 * d) : n / d ≤ n2 / d2 := by
  rw [Nat.le_div_iff_mul_le hd2]
  have h1 : n / d * d ≤ n := Nat.div_mul_le_self n d
  have h2 : n / d * d2 * d ≤ n2 * d := by
    calc n / d * d2 * d = n / d * d * d2 := by ring
      _ ≤ n * d2 := Nat.mul_le_mul_right _ h1
      _ ≤ n2 * d := h
  exact Nat.le_of_mul_le_mul_right h2 hd

theorem roundSig_bounds (num den : Nat) (hden : 0 < den) (hq : num / den < 2 ^ 253) :
    roundSig num den ≤ 2 ^ (53 + ulpShift 200 (num / den)) ∧
      (1 ≤ ulpShift 200 (num / den) →
        2 ^ (52 + ulpShift 200 (num / den)) ≤ roundSig num den ∧
        2 ^ (52 + ulpShift 200 (num / den)) * den ≤ num) := by
  have hpos : 0 < den * 2 ^ ulpShift 200 (num / den) :=
    Nat.mul_pos hden (Nat.pow_pos (by decide))
  have hsp := ulpShift_spec 200 (num / den) (by simpa using hq)
  have hlt : num / den < 2 ^ (53 + ulpShift 200 (num / den)) := by
    rcases hsp with ⟨e, h⟩ | ⟨_, _, h⟩
    · rw [e]; exact h
    · exact h
  have hlt2 : num < 2 ^ (53 + ulpShift 200 (num / den)) * den :=
    (Nat.div_lt_iff_lt_mul hden).1 hlt
  unfold roundSig
  constructor
  · rw [Nat.pow_add]
    apply Nat.mul_le_mul_right
    apply roundHalfEven_le _ _ _ hpos
    rw [Nat.pow_add] at hlt2
    calc num ≤ 2 ^ 53 * 2 ^ ulpShift 200 (num / den) * den := Nat.le_of_lt hlt2
      _ = 2 ^ 53 * (den * 2 ^ ulpShift 200 (num / den)) := by ring
  · intro h1
    rcases hsp with ⟨e, _⟩ | ⟨_, h2, _⟩
    · omega
    · have h3 : 2 ^ (52 + ulpShift 200 (num / den)) * den ≤ num :=
        (Nat.le_div_iff_mul_le hden).1 h2
      refine ⟨?_, h3⟩
      rw [Nat.pow_add]
      apply Nat.mul_le_mul_right
      apply roundHalfEven_ge _ _ _ hpos
      rw [Nat.pow_add] at h3
      calc 2 ^ 52 * (den * 2 ^ ulpShift 200 (num / den))
          = 2 ^ 52 * 2 ^ ulpShift 200 (num / den) * den := by ring
        _ ≤ num := h3

/-- Rounding to a float64 is monotone in the value of the quotient. -/
theorem roundSig_mono (n d n2 d2 : Nat) (hd : 0 < d) (hd2 : 0 < d2) (hq : n2 / d2 < 2 ^ 253)
    (h : n * d2 ≤ n2 * d) : roundSig n d ≤ roundSig n2 d2 := by
  have hfl : n / d ≤ n2 / d2 := div_le_div_cross n d n2 d2 hd hd2 h
  have hq1 : n / d < 2 ^ 253 := Nat.lt_of_le_of_lt hfl hq
  have hsa := ulpShift_spec 200 (n / d) (by simpa using hq1)
  have hsb := ulpShift_spec 200 (n2 / d2) (by simpa using hq)
  obtain ⟨ua, _⟩ := roundSig_bounds n d hd hq1
  obtain ⟨_, lb⟩ := roundSig_bounds n2 d2 hd2 hq
  rcases Nat.lt_trichotomy (ulpShift 200 (n / d)) (ulpShift 200 (n2 / d2)) with hlt | heq | hgt
  · have l2 := (lb (by omega)).1
    have : 2 ^ (53 + ulpShift 200 (n / d)) ≤ 2 ^ (52 + ulpShift 200 (n2 / d2)) :=
      Nat.pow_le_pow_right (by decide) (by omega)
    omega
  · unfold roundSig
    rw [heq]
    apply Nat.mul_le_mul_right
    apply roundHalfEven_mono_cross _ _ _ _ (Nat.mul_pos hd (Nat.pow_pos (by decide)))
      (Nat.mul_pos hd2 (Nat.pow_pos (by decide)))
    calc n * (d2 * 2 ^ ulpShift 200 (n2 / d2))
        = n * d2 * 2 ^ ulpShift 200 (n2 / d2) := by ring
      _ ≤ n2 * d * 2 ^ ulpShift 200 (n2 / d2) := Nat.mul_le_mul_right _ h
      _ = n2 * (d * 2 ^ ulpShift 200 (n2 / d2)) := by ring
  · exfalso
    have h1 : 2 ^ (52 + ulpShift 200 (n / d)) ≤ n / d := by
      rcases hsa with ⟨e, _⟩ | ⟨_, h2, _⟩
      · omega
      · exact h2
    have h2 : n2 / d2 < 2 ^ (53 + ulpShift 200 (n2 / d2)) := by
      rcases hsb with ⟨e, h⟩ | ⟨_, _, h⟩
      · rw [e]; exact h
      · exact h
    have : 2 ^ (53 + ulpShift 200 (n2 / d2)) ≤ 2 ^ (52 + ulpShift 200 (n / d)) :=
      Nat.pow_le_pow_right (by decide) (by omega)
    omega

/-- Rounding to a float64 depends on the value of the quotient only. -/
theorem roundSig_congr (n d n2 d2 : Nat) (hd : 0 < d) (hd2 : 0 < d2) (hq : n / d < 2 ^ 253)
    (h : n * d2 = n2 * d) : roundSig n d = roundSig n2 d2 := by
  have hq2 : n2 / d2 < 2 ^ 253 :=
    Nat.lt_of_le_of_lt (div_le_div_cross n2 d2 n d hd2 hd (Nat.le_of_eq h.symm)) hq
  exact Nat.le_antisymm (roundSig_mono n d n2 d2 hd hd2 hq2 (Nat.le_of_eq h))
    (roundSig_mono n2 d2 n d hd2 hd hq (Nat.le_of_eq h.symm))

/-- A quotient of `2 ^ 53` or more is rounded with a relative error of at most
`2 ^ (-53)`. -/
theorem roundSig_near (num den : Nat) (hden : 0 < den) (hq : num / den < 2 ^ 253)
    (hs : 2 ^ 53 ≤ num / den) :
    roundSig num den * den * 2 ^ 53 ≤ num * (2 ^ 53 + 1) ∧
      num * (2 ^ 53 - 1) ≤ roundSig num den * den * 2 ^ 53 := by
  have hpos : 0 < den * 2 ^ ulpShift 200 (num / den) :=
    Nat.mul_pos hden (Nat.pow_pos (by decide))
  have hsp := ulpShift_spec 200 (num / den) (by simpa using hq)
  have h1 : 1 ≤ ulpShift 200 (num / den) := by
    rcases hsp with ⟨_, h⟩ | ⟨h, _⟩
    · omega
    · exact h
  have h3 := ((roundSig_bounds num den hden hq).2 h1).2
  have hn := roundHalfEven_near num (den * 2 ^ ulpShift 200 (num / den)) hpos
  have e1 : roundSig num den * den =
      roundHalfEven num (den * 2 ^ ulpShift 200 (num / den)) *
        (den * 2 ^ ulpShift 200 (num / den)) := by
    unfold roundSig; ring
  have e2 : 2 ^ (52 + ulpShift 200 (num / den)) * den =
      2 ^ 52 * (den * 2 ^ ulpShift 200 (num / den)) := by
    rw [Nat.pow_add]; ring
  rw [e2] at h3
  rw [e1]
  generalize roundHalfEven num (den * 2 ^ ulpShift 200 (num / den)) *
    (den * 2 ^ ulpShift 200 (num / den)) = X at hn ⊢
  generalize den * 2 ^ ulpShift 200 (num / den) = D at hn h3 ⊢
  norm_num at h3 ⊢
  constructor <;> omega

theorem float64_pos (n : Nat) (h0 : 0 < n) (hn : n < 2 ^ 117) : 0 < float64 n := by
  by_cases h : n < 2 ^ 53
  · rw [float64_exact n h]; exact h0
  · have hsp := ulpShift_spec 64 n (by simpa using hn)
    rcases hsp with ⟨_, h1⟩ | ⟨h1, _, _⟩
    · exact absurd h1 h
    · exact Nat.lt_of_lt_of_le (Nat.pow_pos (by decide)) ((float64_bounds n hn).2 h1)

theorem float64_le (n : Nat) (hn : n < 2 ^ 64) : float64 n ≤ 2 ^ 64 := by
  have h1 := float64_mono n (2 ^ 64) (by norm_num) (Nat.le_of_lt hn)
  have h2 : float64 (2 ^ 64) = 2 ^ 64 := by decide
  omega

theorem roundSig_one_exact : roundSig fscale 1 = fscale := by decide

theorem roundSig_self (c : Nat) (hc : 0 < c) : roundSig (c * fscale) c = fscale := by
  rw [roundSig_congr (c * fscale) c fscale 1 hc (by decide) ?_ (by ring), roundSig_one_exact]
  rw [Nat.mul_div_cancel_left _ hc]
  decide

theorem fscale_pos : 0 < fscale := by decide

/-- The float quotient of two sizes with `a ≤ b` is at most one. -/
theorem quot_le_one (a b : Nat) (hb0 : 0 < b) (hb : b < 2 ^ 64) (hab : a ≤ b) :
    roundSig (float64 a * fscale) (float64 b) ≤ fscale := by
  have hC : 0 < float64 b := float64_pos b hb0 (Nat.lt_trans hb (by norm_num))
  have hAC : float64 a ≤ float64 b := float64_mono a b (Nat.lt_trans hb (by norm_num)) hab
  have h := roundSig_mono (float64 a * fscale) (float64 b) (float64 b * fscale) (float64 b)
    hC hC (by rw [Nat.mul_div_cancel_left _ hC]; decide)
    (Nat.mul_le_mul_right _ (Nat.mul_le_mul_right _ hAC))
  rwa [roundSig_self _ hC] at h

theorem scaledRatio_le (a b : Nat) (hb0 : 0 < b) (hb : b < 2 ^ 64) (hab : a ≤ b) :
    scaledRatio a b 50 ≤ 50 * fscale := by
  have h1 := quot_le_one a b hb0 hb hab
  have h2 : roundSig (fscale * 50) 1 = 50 * fscale := by decide
  have h := roundSig_mono (roundSig (float64 a * fscale) (float64 b) * 50) 1 (fscale * 50) 1
    (by decide) (by decide) (by decide)
    (by simpa using Nat.mul_le_mul_right 50 h1)
  unfold scaledRatio
  rwa [h2] at h

theorem scaledRatio_self (b : Nat) (hb0 : 0 < b) (hb : b < 2 ^ 64) :
    scaledRatio b b 50 = 50 * fscale := by
  have hC : 0 < float64 b := float64_pos b hb0 (Nat.lt_trans hb (by norm_num))
  unfold scaledRatio
  rw [roundSig_self _ hC]
  decide

theorem scaledRatio_zero (b k : Nat) : scaledRatio 0 b k = 0 := by
  have h0 : float64 0 = 0 := by decide
  unfold scaledRatio
  rw [h0]
  simp [roundSig, roundHalfEven, ulpShift]

/-- The bar width of a non-negative size under a positive maximum, on every platform. -/
theorem barWidth_eq (E : ChartEnv) (size maxSize : Int) (h0 : 0 ≤ size) (hm : 0 < maxSize) :
    barWidth E size maxSize =
      if ((scaledRatio size.toNat maxSize.toNat 50 / fscale : Nat) : Int) < 1 then 1
      else ((scaledRatio size.toNat maxSize.toNat 50 / fscale : Nat) : Int) := by
  have e1 : size.natAbs = size.toNat := by omega
  have e2 : maxSize.natAbs = maxSize.toNat := by omega
  have hs : decide (size < 0) = false := by simpa using h0
  have hmm : decide (maxSize < 0) = false := by simpa using Int.le_of_lt hm
  unfold barWidth F64.quot
  rw [if_neg (Int.ne_of_gt hm), hs, hmm, e1, e2]
  rfl

/-- The float product never reaches the next whole number above the exact quotient. -/
theorem scaled_upper (a b k Q P T E : Nat) (hT : 0 < T) (hE : E = 2 ^ 53) (hb : b < 2 ^ 46)
    (hk : k ≤ 50) (h : 50 * a + 1 ≤ (k + 1) * b)
    (h1 : Q * b * E ≤ a * T * (E + 1))
    (h2 : P * 1 * E ≤ Q * 50 * (E + 1)) : P < (k + 1) * T := by
  by_contra hP
  have hP : (k + 1) * T ≤ P := Nat.le_of_not_lt hP
  have hX : (k + 1) * b ≤ 51 * 2 ^ 46 :=
    Nat.mul_le_mul (by omega) (Nat.le_of_lt hb)
  have s1 : P * 1 * E * (E * b) ≤ Q * 50 * (E + 1) * (E * b) :=
    Nat.mul_le_mul_right _ h2
  have s3 : 50 * (E + 1) * (Q * b * E) ≤ 50 * (E + 1) * (a * T * (E + 1)) :=
    Nat.mul_le_mul_left _ h1
  have s4 : (k + 1) * T * (E * (E * b)) ≤ P * (E * (E * b)) :=
    Nat.mul_le_mul_right _ hP
  have e1 : Q * 50 * (E + 1) * (E * b) = 50 * (E + 1) * (Q * b * E) := by ring
  have e2 : P * 1 * E * (E * b) = P * (E * (E * b)) := by ring
  have e3 : 50 * (E + 1) * (a * T * (E + 1)) = T * (50 * a * ((E + 1) * (E + 1))) := by ring
  have e4 : (k + 1) * T * (E * (E * b)) = T * ((k + 1) * b * (E * E)) := by ring
  have s5 : T * ((k + 1) * b * (E * E)) ≤ T * (50 * a * ((E + 1) * (E + 1))) := by
    rw [← e3, ← e4]
    exact Nat.le_trans s4 (e2 ▸ Nat.le_trans s1 (e1 ▸ s3))
  have s6 := Nat.le_of_mul_le_mul_left s5 hT
  generalize (k + 1) * b = X at h hX s6
  subst hE
  norm_num at s6 hX
  omega

/-- The float product never falls below a whole number that the exact quotient exceeds. -/
theorem scaled_lower (a b k Q P T E : Nat) (hE : E = 2 ^ 53) (hb0 : 0 < b) (hb : b < 2 ^ 46)
    (hk : k ≤ 50) (h : k * b + 1 ≤ 50 * a)
    (h1 : a * T * (E - 1) ≤ Q * b * E)
    (h2 : Q * 50 * (E - 1) ≤ P * 1 * E) : k * T ≤ P := by
  by_contra hP
  have hP : P < k * T := Nat.lt_of_not_le hP
  have hE0 : 0 < E := by rw [hE]; decide
  have hX : k * b ≤ 50 * 2 ^ 46 :=
    Nat.mul_le_mul hk (Nat.le_of_lt hb)
  have s1 : Q * 50 * (E - 1) * (E * b) ≤ P * 1 * E * (E * b) :=
    Nat.mul_le_mul_right _ h2
  have s3 : 50 * (E - 1) * (a * T * (E - 1)) ≤ 50 * (E - 1) * (Q * b * E) :=
    Nat.mul_le_mul_left _ h1
  have s4 : P * (E * (E * b)) < k * T * (E * (E * b)) :=
    Nat.mul_lt_mul_of_pos_right hP (Nat.mul_pos hE0 (Nat.mul_pos hE0 hb0))
  have e1 : Q * 50 * (E - 1) * (E * b) = 50 * (E - 1) * (Q * b * E) := by ring
  have e2 : P * 1 * E * (E * b) = P * (E * (E * b)) := by ring
  have e3 : 50 * (E - 1) * (a * T * (E - 1)) = T * (50 * a * ((E - 1) * (E - 1))) := by ring
  have e4 : k * T * (E * (E * b)) = T * (k * b * (E * E)) := by ring
  have s5 : T * (50 * a * ((E - 1) * (E - 1))) < T * (k * b * (E * E)) := by
    rw [← e3, ← e4]
    exact Nat.lt_of_le_of_lt (Nat.le_trans s3 (e1 ▸ s1)) (e2 ▸ s4)
  have s6 := Nat.lt_of_mul_lt_mul_left s5
  generalize k * b = X at h hX s6
  subst hE
  norm_num at s6 hX
  omega

set_option maxRecDepth 100000 in
/-- The bar width of `k` fiftieths, for each `k`: the float product falls short of 29 at
`29/50` and is exact elsewhere. -/
theorem fiftieths (k : Nat) (hk : k ≤ 50) :
    roundSig (roundSig (k * fscale) 50 * 50) 1 / fscale = if k = 29 then 28 else k := by
  interval_cases k <;> decide

/-- The whole part of `float64(a) / float64(b) * 50` for sizes below `2 ^ 46`: the whole
part of the exact quotient `50 * a / b`, but 28 when the exact quotient is 29. -/
theorem scaledRatio_floor (a b : Nat) (hb0 : 0 < b) (hb : b < 2 ^ 46) (hab : a ≤ b) :
    scaledRatio a b 50 / fscale = if 50 * a = 29 * b then 28 else 50 * a / b := by
  have hA : float64 a = a := float64_exact a (by omega)
  have hC : float64 b = b := float64_exact b (by omega)
  have hT : fscale = 2 ^ 128 := rfl
  have hk1 : 50 * a / b * b ≤ 50 * a := Nat.div_mul_le_self _ _
  have hk2 : 50 * a < (50 * a / b + 1) * b := by
    have := Nat.lt_mul_div_succ (50 * a) hb0
    rw [Nat.mul_comm b] at this
    exact this
  have hk : 50 * a / b ≤ 50 :=
    Nat.div_le_of_le_mul (by rw [Nat.mul_comm b 50]; exact Nat.mul_le_mul_left _ hab)
  have haT : a * fscale < 2 ^ 174 := by
    have : a * fscale < 2 ^ 46 * 2 ^ 128 :=
      Nat.mul_lt_mul_of_lt_of_le (by omega) (Nat.le_of_eq hT) (by decide)
    simpa using this
  have hq : a * fscale / b < 2 ^ 253 :=
    Nat.lt_of_le_of_lt (Nat.div_le_self _ _) (Nat.lt_trans haT (by norm_num))
  unfold scaledRatio
  rw [hA, hC]
  generalize hkdef : 50 * a / b = k at hk1 hk2 hk
  rcases Nat.eq_or_lt_of_le hk1 with heq | hlt
  · rw [roundSig_congr (a * fscale) b (k * fscale) 50 hb0 (by decide) hq
      (by calc a * fscale * 50 = 50 * a * fscale := by ring
            _ = k * b * fscale := by rw [heq]
            _ = k * fscale * b := by ring), fiftieths k hk]
    have : (50 * a = 29 * b) ↔ k = 29 := by
      rw [← heq]
      constructor
      · intro h; exact Nat.eq_of_mul_eq_mul_right hb0 h
      · intro h; rw [h]
    simp only [this]
  · have ha0 : 1 ≤ a := by
      rcases Nat.eq_zero_or_pos a with h0 | h0
      · subst h0; simp at hlt
      · exact h0
    have hs : 2 ^ 53 ≤ a * fscale / b := by
      rw [Nat.le_div_iff_mul_le hb0, hT]
      calc 2 ^ 53 * b ≤ 2 ^ 53 * 2 ^ 46 := Nat.mul_le_mul_left _ (Nat.le_of_lt hb)
        _ ≤ 1 * 2 ^ 128 := by norm_num
        _ ≤ a * 2 ^ 128 := Nat.mul_le_mul_right _ ha0
    have n1 := roundSig_near (a * fscale) b hb0 hq hs
    have hsp := ulpShift_spec 200 (a * fscale / b) (by simpa using hq)
    have hs1 : 1 ≤ ulpShift 200 (a * fscale / b) := by
      rcases hsp with ⟨_, h⟩ | ⟨h, _⟩
      · omega
      · exact h
    have hQlo : 2 ^ 53 ≤ roundSig (a * fscale) b := by
      have h1 := ((roundSig_bounds (a * fscale) b hb0 hq).2 hs1).1
      have h2 : 2 ^ 53 ≤ 2 ^ (52 + ulpShift 200 (a * fscale / b)) :=
        Nat.pow_le_pow_right (by decide) (by omega)
      omega
    have hQhi : roundSig (a * fscale) b ≤ fscale := by
      have := quot_le_one a b hb0 (by omega) hab
      rwa [hA, hC] at this
    have hq2 : roundSig (a * fscale) b * 50 / 1 < 2 ^ 253 := by
      rw [Nat.div_one]
      have : roundSig (a * fscale) b * 50 ≤ 2 ^ 128 * 50 :=
        Nat.mul_le_mul_right _ (hT ▸ hQhi)
      exact Nat.lt_of_le_of_lt this (by norm_num)
    have hs2 : 2 ^ 53 ≤ roundSig (a * fscale) b * 50 / 1 := by
      rw [Nat.div_one]; omega
    have n2 := roundSig_near (roundSig (a * fscale) b * 50) 1 (by decide) hq2 hs2
    have up := scaled_upper a b k (roundSig (a * fscale) b)
      (roundSig (roundSig (a * fscale) b * 50) 1) fscale (2 ^ 53) fscale_pos rfl hb hk
      (by omega) n1.1 n2.1
    have lo := scaled_lower a b k (roundSig (a * fscale) b)
      (roundSig (roundSig (a * fscale) b * 50) 1) fscale (2 ^ 53) rfl hb0 hb hk
      (by omega) n1.2 n2.2
    have hne : ¬ 50 * a = 29 * b := by
      intro h
      have h29 : k = 29 := by
        rw [← hkdef, h, Nat.mul_div_cancel _ hb0]
      rw [h29] at hlt
      omega
    rw [if_neg hne]
    exact Nat.div_eq_of_lt_le lo up

/-! ## The rows of a chart -/

theorem collectTypeInfos_perm (E : ChartEnv) (m : List (String × Int)) :
    (collectTypeInfos E m).Perm
      (m.map (fun p => ⟨if p.1 = "" then "(no extension)" else p.1, p.2⟩)) :=
  (E.rangeMap_perm m).map _

theorem sorted_perm (E : ChartEnv) (m : List (String × Int)) :
    (E.sortSlice (collectTypeInfos E m)).Perm
      (m.map (fun p => ⟨if p.1 = "" then "(no extension)" else p.1, p.2⟩)) :=
  (E.sortSlice_perm _).trans (collectTypeInfos_perm E m)

theorem sorted_size (E : ChartEnv) (m : List (String × Int)) (info : TypeInfo)
    (h : info ∈ E.sortSlice (collectTypeInfos E m)) : ∃ p ∈ m, p.2 = info.Size := by
  obtain ⟨p, hp, e⟩ := List.mem_map.1 ((sorted_perm E m).mem_iff.1 h)
  exact ⟨p, hp, by rw [← e]⟩

theorem topTypeInfos_mem (E : ChartEnv) (stats : Stats) (config : Config)
    (rows : List TypeInfo) (h : topTypeInfos E stats config = some rows) (info : TypeInfo)
    (hin : info ∈ rows) : ∃ p ∈ stats.FileTypes, p.2 = info.Size := by
  unfold topTypeInfos at h
  simp only at h
  split at h
  · exact absurd h (by simp)
  · have e := Option.some.inj h
    rw [← e] at hin
    exact sorted_size E stats.FileTypes info (List.mem_of_mem_take hin)

theorem findMaxSize_ge (rows : List TypeInfo) :
    ∀ m : Int, m ≤ findMaxSize m rows ∧ ∀ info ∈ rows, info.Size ≤ findMaxSize m rows := by
  induction rows with
  | nil => intro m; exact ⟨Int.le_refl _, fun _ h => absurd h (List.not_mem_nil _)⟩
  | cons r rest ih =>
    intro m
    rw [findMaxSize]
    by_cases hr : r.Size > m
    · rw [if_pos hr]
      obtain ⟨h1, h2⟩ := ih r.Size
      refine ⟨by omega, ?_⟩
      intro info hin
      rcases List.mem_cons.1 hin with rfl | hin
      · exact h1
      · exact h2 info hin
    · rw [if_neg hr]
      obtain ⟨h1, h2⟩ := ih m
      refine ⟨h1, ?_⟩
      intro info hin
      rcases List.mem_cons.1 hin with rfl | hin
      · omega
      · exact h2 info hin

theorem findMaxSize_mem (rows : List TypeInfo) :
    ∀ m : Int, findMaxSize m rows = m ∨ ∃ info ∈ rows, info.Size = findMaxSize m rows := by
  induction rows with
  | nil => intro m; exact Or.inl rfl
  | cons r rest ih =>
    intro m
    rw [findMaxSize]
    rcases ih (if r.Size > m then r.Size else m) with h | ⟨info, hin, h⟩
    · by_cases hr : r.Size > m
      · rw [if_pos hr] at h ⊢
        exact Or.inr ⟨r, List.mem_cons_self _ _, h.symm⟩
      · rw [if_neg hr] at h ⊢
        exact Or.inl h
    · exact Or.inr ⟨info, List.mem_cons_of_mem _ hin, h⟩

theorem barWidth_env (E E2 : ChartEnv) (size maxSize : Int) (h0 : 0 ≤ size)
    (hm : 0 < maxSize) : barWidth E size maxSize = barWidth E2 size maxSize := by
  rw [barWidth_eq E size maxSize h0 hm, barWidth_eq E2 size maxSize h0 hm]

theorem barWidth_bounds (E : ChartEnv) (size maxSize : Int) (h0 : 0 ≤ size)
    (hle : size ≤ maxSize) (hm : 0 < maxSize) (hmax : maxSize < 2 ^ 63) :
    1 ≤ barWidth E size maxSize ∧ barWidth E size maxSize ≤ 50 := by
  rw [barWidth_eq E size maxSize h0 hm]
  have h := scaledRatio_le size.toNat maxSize.toNat (by omega) (by omega) (by omega)
  have h2 : scaledRatio size.toNat maxSize.toNat 50 / fscale ≤ 50 :=
    Nat.div_le_of_le_mul (by rw [Nat.mul_comm]; exact h)
  split <;> omega

theorem barWidth_max (E : ChartEnv) (maxSize : Int) (hm : 0 < maxSize)
    (hmax : maxSize < 2 ^ 63) : barWidth E maxSize maxSize = 50 := by
  rw [barWidth_eq E maxSize maxSize (Int.le_of_lt hm) hm,
    scaledRatio_self maxSize.toNat (by omega) (by omega),
    Nat.mul_div_cancel _ fscale_pos]
  rfl

theorem barWidth_zero (E : ChartEnv) (maxSize : Int) (hm : 0 < maxSize) :
    barWidth E 0 maxSize = 1 := by
  rw [barWidth_eq E 0 maxSize (Int.le_refl _) hm]
  simp [scaledRatio_zero]

/-- The bar width for sizes below `2 ^ 46`: the whole part of the exact quotient, but 28
when the exact quotient is 29; raised to 1. -/
theorem barWidth_floor (E : ChartEnv) (size maxSize : Int) (h0 : 0 ≤ size)
    (hle : size ≤ maxSize) (hm : 0 < maxSize) (hmax : maxSize < 2 ^ 46) :
    barWidth E size maxSize =
      if (if 50 * size = 29 * maxSize then 28 else 50 * size / maxSize) < 1 then 1
      else (if 50 * size = 29 * maxSize then 28 else 50 * size / maxSize) := by
  rw [barWidth_eq E size maxSize h0 hm,
    scaledRatio_floor size.toNat maxSize.toNat (by omega) (by omega) (by omega)]
  have e1 : ((size.toNat : Nat) : Int) = size := Int.toNat_of_nonneg h0
  have e2 : ((maxSize.toNat : Nat) : Int) = maxSize := Int.toNat_of_nonneg (Int.le_of_lt hm)
  have c1 : (50 * size.toNat = 29 * maxSize.toNat) ↔ (50 * size = 29 * maxSize) := by omega
  have c2 : ((50 * size.toNat / maxSize.toNat : Nat) : Int) = 50 * size / maxSize := by
    rw [Int.ofNat_ediv, Int.ofNat_mul, e1, e2]
    rfl
  by_cases hc : 50 * size = 29 * maxSize
  · rw [if_pos (c1.2 hc), if_pos hc]; rfl
  · rw [if_neg (fun h => hc (c1.1 h)), if_neg hc, c2]

set_option maxRecDepth 100000 in
/-- C14: in a bar chart of non-negative int64 sizes of which one shown is positive, the
scaling maximum is positive and is the size of a shown entry, every bar has between 1 and
50 glyphs, an entry of the largest size has 50, an entry of size 0 has 1, and so has an
entry whose exact quotient is below 2 (sizes below `2 ^ 46`); the sizes 50, 30, 15, 5 and
51200, 30720, 15360, 5120 give the widths 50, 30, 15, 5. -/
theorem barWidth_range (E : ChartEnv) (stats : Stats) (config : Config)
    (rows : List TypeInfo) (hrows : topTypeInfos E stats config = some rows)
    (hsize : ∀ p ∈ stats.FileTypes, 0 ≤ p.2 ∧ p.2 < 2 ^ 63)
    (hpos : ∃ info ∈ rows, 0 < info.Size) :
    0 < findMaxSize 0 rows ∧
    (∃ info ∈ rows, info.Size = findMaxSize 0 rows) ∧
    (∀ info ∈ rows, info.Size ≤ findMaxSize 0 rows) ∧
    (∀ info ∈ rows, 1 ≤ barWidth E info.Size (findMaxSize 0 rows) ∧
      barWidth E info.Size (findMaxSize 0 rows) ≤ 50) ∧
    (∀ info ∈ rows, info.Size = findMaxSize 0 rows →
      barWidth E info.Size (findMaxSize 0 rows) = 50) ∧
    (∀ info ∈ rows, info.Size = 0 → barWidth E info.Size (findMaxSize 0 rows) = 1) ∧
    (∀ info ∈ rows, findMaxSize 0 rows < 2 ^ 46 → 50 * info.Size < 2 * findMaxSize 0 rows →
      barWidth E info.Size (findMaxSize 0 rows) = 1) ∧
    [50, 30, 15, 5].map (fun size => barWidth E size 50) = [50, 30, 15, 5] ∧
    [51200, 30720, 15360, 5120].map (fun size => barWidth E size 51200) = [50, 30, 15, 5] := by
  have hge := findMaxSize_ge rows 0
  have hrow : ∀ info ∈ rows, 0 ≤ info.Size ∧ info.Size < 2 ^ 63 := by
    intro info hin
    obtain ⟨p, hp, e⟩ := topTypeInfos_mem E stats config rows hrows info hin
    rw [← e]
    exact hsize p hp
  have hm : 0 < findMaxSize 0 rows := by
    obtain ⟨info, hin, h⟩ := hpos
    have := hge.2 info hin
    omega
  have hmem : ∃ info ∈ rows, info.Size = findMaxSize 0 rows := by
    rcases findMaxSize_mem rows 0 with h | h
    · omega
    · exact h
  have hmax : findMaxSize 0 rows < 2 ^ 63 := by
    obtain ⟨info, hin, h⟩ := hmem
    rw [← h]
    exact (hrow info hin).2
  refine ⟨hm, hmem, hge.2, ?_, ?_, ?_, ?_, ?_, ?_⟩
  · intro info hin
    exact barWidth_bounds E _ _ (hrow info hin).1 (hge.2 info hin) hm hmax
  · intro info _ h
    rw [h]
    exact barWidth_max E _ hm hmax
  · intro info _ h
    rw [h]
    exact barWidth_zero E _ hm
  · intro info hin h46 hnear
    rw [barWidth_floor E _ _ (hrow info hin).1 (hge.2 info hin) hm h46]
    have h0 := (hrow info hin).1
    have hq : 50 * info.Size / findMaxSize 0 rows < 2 :=
      Int.ediv_lt_of_lt_mul hm (by omega)
    have hq0 : 0 ≤ 50 * info.Size / findMaxSize 0 rows :=
      Int.ediv_nonneg (by omega) (Int.le_of_lt hm)
    have hne : ¬ 50 * info.Size = 29 * findMaxSize 0 rows := by omega
    rw [if_neg hne]
    split <;> omega
  · simp only [List.map, barWidth_env E ChartEnv.amd64 50 50 (by decide) (by decide),
      barWidth_env E ChartEnv.amd64 30 50 (by decide) (by decide),
      barWidth_env E ChartEnv.amd64 15 50 (by decide) (by decide),
      barWidth_env E ChartEnv.amd64 5 50 (by decide) (by decide)]
    decide
  · simp only [List.map, barWidth_env E ChartEnv.amd64 51200 51200 (by decide) (by decide),
      barWidth_env E ChartEnv.amd64 30720 51200 (by decide) (by decide),
      barWidth_env E ChartEnv.amd64 15360 51200 (by decide) (by decide),
      barWidth_env E ChartEnv.amd64 5120 51200 (by decide) (by decide)]
    decide

/-- Witness for C14 on the Stats of `TestChartRenderers`. -/
theorem barWidth_range_witness :
    topTypeInfos ChartEnv.amd64 chartTestStats chartTestConfig =
      some [⟨".txt", 51200⟩, ⟨".go", 30720⟩, ⟨".md", 15360⟩, ⟨".json", 5120⟩] ∧
    (∀ p ∈ chartTestStats.FileTypes, 0 ≤ p.2 ∧ p.2 < 2 ^ 63) ∧
    (∃ info ∈ [(⟨".txt", 51200⟩ : TypeInfo), ⟨".go", 30720⟩, ⟨".md", 15360⟩, ⟨".json", 5120⟩],
      0 < info.Size) ∧
    findMaxSize 0 [⟨".txt", 51200⟩, ⟨".go", 30720⟩, ⟨".md", 15360⟩, ⟨".json", 5120⟩] = 51200 ∧
    0 < findMaxSize 0 [⟨".txt", 51200⟩, ⟨".go", 30720⟩, ⟨".md", 15360⟩, ⟨".json", 5120⟩] :=
  ⟨by decide, by decide, ⟨⟨".txt", 51200⟩, by decide, by decide⟩, by decide,
    (barWidth_range ChartEnv.amd64 chartTestStats chartTestConfig
      [⟨".txt", 51200⟩, ⟨".go", 30720⟩, ⟨".md", 15360⟩, ⟨".json", 5120⟩] (by decide)
      (by decide) ⟨⟨".txt", 51200⟩, by decide, by decide⟩).1⟩

/-! ## The bars that can be built -/

end Hyperion
